import Mathlib

/-!
# Verification of the `liuxinbot/cache` indexed store and eviction policies

This file shallowly embeds the core of the `cache` Go repository:

* the association maps (`map[K]V`) used throughout are modelled as
  association lists with unique keys (`mlookup` / `minsert` / `merase`);
  iteration over a Go map is modelled as iteration over the list — all
  folds the code performs are order-independent, argued at each use site;
* `sets.Set[T]` (a `map[T]struct{}`) is modelled as `Finset T`;
* the index engine of `index.go` (`storeIndex`, `updateSingleIndex`,
  `updateIndices`, `addIndexer`, `addIndexers`);
* `threadSafeMap` of `thread_safe_store.go` (locks are dropped: every
  operation runs in one critical section, so the sequential semantics is
  the observable one);
* the three eviction policies `FIFO`, `lru` and `LFU` of the `eviction`
  package, including a faithful model of Go's `container/list` (as a
  `List` of keys) and `container/heap` (sift-up / sift-down on a `List`
  of key/frequency pairs, positions being list indices);
* the `evictionCache` facade of `eviction_cache.go`.

Fallible user callbacks (`KeyFunc`, `IndexFunc`) return `Except`;
a Go `panic` is modelled by returning `none` from the mutating
operation (the process dies, no post-state is observable).
-/

/-! ## Association-list model of Go maps -/

/-- Lookup in a Go map modelled as an association list (first match). -/
def mlookup {α β : Type} [DecidableEq α] : List (α × β) → α → Option β
  | [], _ => none
  | (a, b) :: rest, k => if k = a then some b else mlookup rest k

/-- `m[k] = v` on a Go map: replace the first binding of `k`, or append. -/
def minsert {α β : Type} [DecidableEq α] : List (α × β) → α → β → List (α × β)
  | [], k, v => [(k, v)]
  | (a, b) :: rest, k, v =>
      if k = a then (a, v) :: rest else (a, b) :: minsert rest k v

/-- `delete(m, k)` on a Go map: drop the first binding of `k`. -/
def merase {α β : Type} [DecidableEq α] : List (α × β) → α → List (α × β)
  | [], _ => []
  | (a, b) :: rest, k => if k = a then rest else (a, b) :: merase rest k

/-- Go maps have unique keys; reachable association lists satisfy this. -/
def NodupKeys {α β : Type} (l : List (α × β)) : Prop := (l.map Prod.fst).Nodup

@[simp]
theorem mlookup_nil {α β : Type} [DecidableEq α] (k : α) :
    mlookup ([] : List (α × β)) k = none := rfl

theorem mlookup_minsert {α β : Type} [DecidableEq α]
    (l : List (α × β)) (k k' : α) (v : β) :
    mlookup (minsert l k v) k' = if k' = k then some v else mlookup l k' := by
  induction l with
  | nil => by_cases h : k' = k <;> simp [minsert, mlookup, h]
  | cons hd tl ih =>
      obtain ⟨a, b⟩ := hd
      by_cases hka : k = a
      · subst hka
        by_cases h : k' = k <;> simp [minsert, mlookup, h]
      · by_cases h : k' = a
        · subst h
          simp [minsert, hka, mlookup, Ne.symm hka]
        · simp [minsert, hka, mlookup, h, ih]

theorem mlookup_minsert_self {α β : Type} [DecidableEq α]
    (l : List (α × β)) (k : α) (v : β) :
    mlookup (minsert l k v) k = some v := by
  simp [mlookup_minsert]

theorem mlookup_minsert_ne {α β : Type} [DecidableEq α]
    (l : List (α × β)) {k k' : α} (v : β) (h : k' ≠ k) :
    mlookup (minsert l k v) k' = mlookup l k' := by
  simp [mlookup_minsert, h]

theorem mlookup_merase_ne {α β : Type} [DecidableEq α]
    (l : List (α × β)) {k k' : α} (h : k' ≠ k) :
    mlookup (merase l k) k' = mlookup l k' := by
  induction l with
  | nil => simp [merase]
  | cons hd tl ih =>
      obtain ⟨a, b⟩ := hd
      by_cases hka : k = a
      · subst hka
        simp [merase, mlookup, h]
      · by_cases h' : k' = a <;> simp [merase, hka, mlookup, h', ih]

theorem keys_merase_sublist {α β : Type} [DecidableEq α] (l : List (α × β)) (k : α) :
    ((merase l k).map Prod.fst).Sublist (l.map Prod.fst) := by
  induction l with
  | nil => simp [merase]
  | cons hd tl ih =>
      obtain ⟨a, b⟩ := hd
      by_cases hka : k = a
      · simp only [merase, hka, if_pos rfl]
        exact List.sublist_cons_self a (tl.map Prod.fst)
      · simpa [merase, hka] using ih.cons₂ a

theorem nodupKeys_merase {α β : Type} [DecidableEq α]
    {l : List (α × β)} (h : NodupKeys l) (k : α) : NodupKeys (merase l k) :=
  (keys_merase_sublist l k).nodup h

theorem mem_keys_iff_mlookup {α β : Type} [DecidableEq α]
    (l : List (α × β)) (k : α) :
    k ∈ l.map Prod.fst ↔ (mlookup l k).isSome := by
  induction l with
  | nil => simp [mlookup]
  | cons hd tl ih =>
      obtain ⟨a, b⟩ := hd
      by_cases h : k = a <;> simp [mlookup, h, ih]

theorem mlookup_merase_self {α β : Type} [DecidableEq α]
    {l : List (α × β)} (h : NodupKeys l) (k : α) :
    mlookup (merase l k) k = none := by
  induction l with
  | nil => simp [merase]
  | cons hd tl ih =>
      obtain ⟨a, b⟩ := hd
      have htl : NodupKeys tl := (List.nodup_cons.mp h).2
      by_cases hka : k = a
      · subst hka
        have hnotin : k ∉ tl.map Prod.fst := (List.nodup_cons.mp h).1
        simp only [merase, if_pos rfl]
        rw [← Option.not_isSome_iff_eq_none, ← mem_keys_iff_mlookup]
        exact hnotin
      · simp [merase, hka, mlookup, ih htl]

theorem keys_minsert {α β : Type} [DecidableEq α]
    (l : List (α × β)) (k : α) (v : β) :
    (minsert l k v).map Prod.fst =
      if (mlookup l k).isSome then l.map Prod.fst else l.map Prod.fst ++ [k] := by
  induction l with
  | nil => simp [minsert, mlookup]
  | cons hd tl ih =>
      obtain ⟨a, b⟩ := hd
      by_cases hka : k = a
      · simp [minsert, hka, mlookup]
      · by_cases htl : (mlookup tl k).isSome <;>
          simp [minsert, hka, mlookup, htl, ih]

theorem nodupKeys_minsert {α β : Type} [DecidableEq α]
    {l : List (α × β)} (h : NodupKeys l) (k : α) (v : β) :
    NodupKeys (minsert l k v) := by
  unfold NodupKeys
  rw [keys_minsert]
  by_cases hs : (mlookup l k).isSome
  · simp only [hs, if_true]; exact h
  · have : k ∉ l.map Prod.fst := by
      rw [mem_keys_iff_mlookup]; exact hs
    simp only [hs, if_false]
    exact List.Nodup.append h (List.nodup_singleton k)
      (by simpa [List.disjoint_singleton] using this)

theorem length_minsert {α β : Type} [DecidableEq α]
    (l : List (α × β)) (k : α) (v : β) :
    (minsert l k v).length =
      if (mlookup l k).isSome then l.length else l.length + 1 := by
  have := keys_minsert l k v
  have hlen : (minsert l k v).length = ((minsert l k v).map Prod.fst).length := by
    simp
  rw [hlen, this]
  by_cases hs : (mlookup l k).isSome <;> simp [hs]

theorem length_merase_of_mem {α β : Type} [DecidableEq α]
    (l : List (α × β)) (k : α) (h : (mlookup l k).isSome) :
    (merase l k).length + 1 = l.length := by
  induction l with
  | nil => simp [mlookup] at h
  | cons hd tl ih =>
      obtain ⟨a, b⟩ := hd
      by_cases hka : k = a
      · simp [merase, hka]
      · rw [mlookup, if_neg hka] at h
        simp [merase, hka, ih h]

theorem length_merase_of_not_mem {α β : Type} [DecidableEq α]
    (l : List (α × β)) (k : α) (h : mlookup l k = none) :
    merase l k = l := by
  induction l with
  | nil => simp [merase]
  | cons hd tl ih =>
      obtain ⟨a, b⟩ := hd
      by_cases hka : k = a
      · subst hka; simp [mlookup] at h
      · rw [mlookup, if_neg hka] at h
        simp [merase, hka, ih h]

theorem mlookup_mem {α β : Type} [DecidableEq α]
    {l : List (α × β)} {k : α} {v : β} (h : mlookup l k = some v) : (k, v) ∈ l := by
  induction l with
  | nil => simp [mlookup] at h
  | cons hd tl ih =>
      obtain ⟨a, b⟩ := hd
      by_cases hka : k = a
      · subst hka
        rw [mlookup, if_pos rfl] at h
        simp only [Option.some.injEq] at h
        subst h
        exact List.mem_cons_self _ _
      · rw [mlookup, if_neg hka] at h
        exact List.mem_cons_of_mem _ (ih h)

/-! ## Index engine (`index.go`, embedded from `storeIndex` and friends) -/

/-- `IndexFunc[K]` of `index.go`: computes the indexed values of an object
or fails (Go signature `func(obj interface{}) ([]K, error)`). -/
abbrev IndexFunc (K Obj : Type) := Obj → Except String (List K)

/-- One named `Index[K, T]`: `map[K]sets.Set[T]`, buckets as `Finset`s. -/
abbrev IndexMap (K T : Type) := List (K × Finset T)

/-- `Indexers[K]`: index name to index function. -/
abbrev Indexers (K Obj : Type) := List (String × IndexFunc K Obj)

/-- `Indexes[K, T]`: index name to bucket map. -/
abbrev Indexes (K T : Type) := List (String × IndexMap K T)

/-- The bucket of an indexed value; a missing binding reads as the empty
set (`index[indexValue]` yields `nil` in Go). -/
def bucketOf {K T : Type} [DecidableEq K] (idx : IndexMap K T) (v : K) : Finset T :=
  (mlookup idx v).getD ∅

/-- The `oldIndexValues`/`newIndexValues` computation of `updateSingleIndex`
(lines 219-233): `nil` object yields the empty slice, an index-function
error panics (modelled as `none`). -/
def evalIndexFunc {K Obj : Type} (f : IndexFunc K Obj) : Option Obj → Option (List K)
  | none => some []
  | some o => match f o with
      | .ok vs => some vs
      | .error _ => none

/-- The removal loop of `updateSingleIndex` (lines 245-254): for each old
indexed value, erase `key` from its bucket, dropping the bucket once empty.
A missing bucket (`keySet == nil`) makes the Go code `return` from the whole
function; the `Bool` records that early return. -/
def removeLoop {K T : Type} [DecidableEq K] [DecidableEq T] (key : T) :
    List K → IndexMap K T → IndexMap K T × Bool
  | [], idx => (idx, false)
  | v :: rest, idx =>
      match mlookup idx v with
      | none => (idx, true)
      | some s =>
          let s' := s.erase key
          removeLoop key rest (if s' = ∅ then merase idx v else minsert idx v s')

/-- The insertion loop of `updateSingleIndex` (lines 255-262): insert `key`
into each new value's bucket, creating the bucket if absent. -/
def insertLoop {K T : Type} [DecidableEq K] [DecidableEq T] (key : T) :
    List K → IndexMap K T → IndexMap K T
  | [], idx => idx
  | v :: rest, idx =>
      insertLoop key rest (minsert idx v (insert key (bucketOf idx v)))

/-- `storeIndex.updateSingleIndex` (lines 212-263). Looks up the index
function by name (panicking if unregistered), computes old/new value slices
(panicking on index-function failure), takes the singleton fast path when
both slices are the same singleton, otherwise runs the removal loop (which
may return early) and then the insertion loop. The final bucket map is
re-bound under `name` (the Go code mutates `si.indices[name]` in place,
installing an empty map first when absent). -/
def updateSingleIndex {K T Obj : Type} [DecidableEq K] [DecidableEq T]
    (indexers : Indexers K Obj) (name : String) (oldObj newObj : Option Obj)
    (key : T) (indices : Indexes K T) : Option (Indexes K T) := do
  let f ← mlookup indexers name
  let oldVals ← evalIndexFunc f oldObj
  let newVals ← evalIndexFunc f newObj
  let idx := (mlookup indices name).getD []
  if newVals.length = 1 ∧ oldVals.length = 1 ∧ newVals.head? = oldVals.head? then
    some (minsert indices name idx)
  else
    let rl := removeLoop key oldVals idx
    if rl.2 then
      some (minsert indices name rl.1)
    else
      some (minsert indices name (insertLoop key newVals rl.1))

/-- The loop body of `storeIndex.updateIndices` (lines 205-209) over an
explicit list of index names. -/
def updateIndicesAux {K T Obj : Type} [DecidableEq K] [DecidableEq T]
    (indexers : Indexers K Obj) (names : List String) (oldObj newObj : Option Obj)
    (key : T) (indices : Indexes K T) : Option (Indexes K T) :=
  match names with
  | [] => some indices
  | name :: rest => do
      let indices' ← updateSingleIndex indexers name oldObj newObj key indices
      updateIndicesAux indexers rest oldObj newObj key indices'

/-- `storeIndex.updateIndices`: `updateSingleIndex` for every registered
index name (Go map iteration order is irrelevant: distinct names touch
disjoint bucket maps). -/
def updateIndices {K T Obj : Type} [DecidableEq K] [DecidableEq T]
    (indexers : Indexers K Obj) (oldObj newObj : Option Obj)
    (key : T) (indices : Indexes K T) : Option (Indexes K T) :=
  updateIndicesAux indexers (indexers.map Prod.fst) oldObj newObj key indices

/-- `storeIndex.addIndexer` (lines 178-184): reject an already-registered
name, otherwise record the function. -/
def addIndexer {K Obj : Type} (indexers : Indexers K Obj) (name : String)
    (f : IndexFunc K Obj) : Except String (Indexers K Obj) :=
  if (mlookup indexers name).isSome then
    .error "indexer conflict"
  else
    .ok (minsert indexers name f)

/-- `for name, indexer := range newIndexers { si.indexers[name] = indexer }`. -/
def minsertAll {α β : Type} [DecidableEq α] (l : List (α × β)) :
    List (α × β) → List (α × β)
  | [] => l
  | (a, b) :: rest => minsertAll (minsert l a b) rest

/-- `storeIndex.addIndexers` (lines 187-199): if any new name collides with
an existing one (`existingKeys.HasAny(newKeys...)`), fail before touching
the registry; otherwise insert every supplied indexer. -/
def addIndexers {K Obj : Type} (indexers newIndexers : Indexers K Obj) :
    Except String (Indexers K Obj) :=
  if (newIndexers.map Prod.fst).any (fun n => (mlookup indexers n).isSome) then
    .error "indexer conflict"
  else
    .ok (minsertAll indexers newIndexers)

/-! ## Thread-safe store (`thread_safe_store.go`)

Locks are elided: every operation is one critical section, so the
sequential state transformer below is the observable semantics.  The
`storeIndex.indexers` registry is carried as an explicit parameter; the
mutable state is the item map and the bucket maps. -/

/-- The mutable state of `threadSafeMap`: `items map[T]interface{}` plus
`storeIndex.indices`. -/
structure ThreadSafeMap (K T Obj : Type) where
  items : List (T × Obj)
  indices : Indexes K T
  deriving DecidableEq

/-- `NewThreadSafeStore(indexers, Indexes{})`: all callers in the
repository start from empty items and empty indices. -/
def tsmInit {K T Obj : Type} : ThreadSafeMap K T Obj := ⟨[], []⟩

/-- `threadSafeMap.Update` (lines 73-79): capture the previous object,
overwrite, and refresh every index; an index-function failure panics
(`none`). `Add` is literally `Update` (line 68-70). -/
def tsmUpdate {K T Obj : Type} [DecidableEq K] [DecidableEq T]
    (indexers : Indexers K Obj) (s : ThreadSafeMap K T Obj) (key : T) (obj : Obj) :
    Option (ThreadSafeMap K T Obj) := do
  let oldObject := mlookup s.items key
  let indices' ← updateIndices indexers oldObject (some obj) key s.indices
  some ⟨minsert s.items key obj, indices'⟩

/-- `threadSafeMap.Delete` (lines 82-89): de-index and remove when present,
no-op otherwise. -/
def tsmDelete {K T Obj : Type} [DecidableEq K] [DecidableEq T]
    (indexers : Indexers K Obj) (s : ThreadSafeMap K T Obj) (key : T) :
    Option (ThreadSafeMap K T Obj) :=
  match mlookup s.items key with
  | some obj => do
      let indices' ← updateIndices indexers (some obj) none key s.indices
      some ⟨merase s.items key, indices'⟩
  | none => some s

/-- The index-rebuild loop of `threadSafeMap.Replace` (lines 127-131). -/
def rebuildLoop {K T Obj : Type} [DecidableEq K] [DecidableEq T]
    (indexers : Indexers K Obj) :
    List (T × Obj) → Indexes K T → Option (Indexes K T)
  | [], ind => some ind
  | (key, item) :: rest, ind => do
      let ind' ← updateIndices indexers none (some item) key ind
      rebuildLoop indexers rest ind'

/-- `threadSafeMap.Replace` (lines 122-132): install the new item map,
reset all indices and re-index every new entry. -/
def tsmReplace {K T Obj : Type} [DecidableEq K] [DecidableEq T]
    (indexers : Indexers K Obj) (_s : ThreadSafeMap K T Obj)
    (newItems : List (T × Obj)) : Option (ThreadSafeMap K T Obj) := do
  let ind' ← rebuildLoop indexers newItems []
  some ⟨newItems, ind'⟩

/-- A store mutation of the kind quantified over by the store invariant:
`Add`, `Update`, `Delete` or `Replace`. -/
inductive StoreOp (T Obj : Type) where
  | add (key : T) (obj : Obj)
  | update (key : T) (obj : Obj)
  | del (key : T)
  | replace (items : List (T × Obj))
  deriving DecidableEq

/-- One mutation of `threadSafeMap` (`Add` delegates to `Update`). -/
def applyOp {K T Obj : Type} [DecidableEq K] [DecidableEq T]
    (indexers : Indexers K Obj) (s : ThreadSafeMap K T Obj) :
    StoreOp T Obj → Option (ThreadSafeMap K T Obj)
  | .add key obj => tsmUpdate indexers s key obj
  | .update key obj => tsmUpdate indexers s key obj
  | .del key => tsmDelete indexers s key
  | .replace items => tsmReplace indexers s items

/-- A whole mutation sequence, stopping (`none`) if any step panics. -/
def applyOps {K T Obj : Type} [DecidableEq K] [DecidableEq T]
    (indexers : Indexers K Obj) (s : ThreadSafeMap K T Obj) :
    List (StoreOp T Obj) → Option (ThreadSafeMap K T Obj)
  | [] => some s
  | op :: rest => do
      let s' ← applyOp indexers s op
      applyOps indexers s' rest

/-! ## Index registration with back-fill (`thread_safe_store.go` 194-227) -/

/-- Outcome of `threadSafeMap.AddIndexer`/`AddIndexers`: a recoverable
error return (the name conflict), a successful registration with the
back-filled state, or a process-killing panic raised inside
`updateSingleIndex` during back-fill. -/
inductive RegResult (K T Obj : Type) where
  | ok (indexers : Indexers K Obj) (s : ThreadSafeMap K T Obj)
  | conflict
  | panicked
  deriving Nonempty

/-- The back-fill loop of `threadSafeMap.AddIndexer` (lines 221-224):
`updateSingleIndex(indexName, nil, item, key)` for every stored item. -/
def backfillLoop {K T Obj : Type} [DecidableEq K] [DecidableEq T]
    (indexers : Indexers K Obj) (name : String) :
    List (T × Obj) → Indexes K T → Option (Indexes K T)
  | [], ind => some ind
  | (key, item) :: rest, ind => do
      let ind' ← updateSingleIndex indexers name none (some item) key ind
      backfillLoop indexers name rest ind'

/-- `threadSafeMap.AddIndexer` (lines 213-227): register (rejecting a
duplicate name with an error return), then back-fill the new index over
the already-stored items; an index-function failure during back-fill
panics inside `updateSingleIndex`. -/
def tsmAddIndexer {K T Obj : Type} [DecidableEq K] [DecidableEq T]
    (indexers : Indexers K Obj) (s : ThreadSafeMap K T Obj)
    (name : String) (f : IndexFunc K Obj) : RegResult K T Obj :=
  match addIndexer indexers name f with
  | .error _ => .conflict
  | .ok indexers' =>
      match backfillLoop indexers' name s.items s.indices with
      | none => .panicked
      | some ind' => .ok indexers' ⟨s.items, ind'⟩

/-- The back-fill double loop of `threadSafeMap.AddIndexers`
(lines 203-207): for every stored item, `updateSingleIndex` on each newly
registered name (the inner loop is exactly `updateIndicesAux` over the new
names). -/
def backfillAllLoop {K T Obj : Type} [DecidableEq K] [DecidableEq T]
    (indexers : Indexers K Obj) (newNames : List String) :
    List (T × Obj) → Indexes K T → Option (Indexes K T)
  | [], ind => some ind
  | (key, item) :: rest, ind => do
      let ind' ← updateIndicesAux indexers newNames none (some item) key ind
      backfillAllLoop indexers newNames rest ind'

/-- `threadSafeMap.AddIndexers` (lines 194-210): atomically register the
batch (rejecting the whole batch if any name conflicts), then back-fill
every new index over the already-stored items. -/
def tsmAddIndexers {K T Obj : Type} [DecidableEq K] [DecidableEq T]
    (indexers : Indexers K Obj) (s : ThreadSafeMap K T Obj)
    (newIndexers : Indexers K Obj) : RegResult K T Obj :=
  match addIndexers indexers newIndexers with
  | .error _ => .conflict
  | .ok indexers' =>
      match backfillAllLoop indexers' (newIndexers.map Prod.fst) s.items s.indices with
      | none => .panicked
      | some ind' => .ok indexers' ⟨s.items, ind'⟩

/-! ## `container/heap` over the LFU frequency heap (`lfu.go` 101-115
plus the `container/heap` algorithms `up`, `down`, `Fix`, `Push`, `Pop`,
`Remove`)

The heap is the slice `lfuHeap[T]` of entries `(key, frequency)`; the
`index` field of an entry always equals its slice position (maintained by
`Swap`), and `l.cache` maps each key to its (unique, for reachable states)
entry, so the slice is the whole state. -/

/-- An LFU heap slice: entries `(key, frequency)`, position = index. -/
abbrev Heap (T : Type) := List (T × Nat)

/-- `lfuHeap.Swap` (out-of-range indices never occur in the source; the
fallback leaves the slice unchanged). -/
def hswap {T : Type} (h : Heap T) (i j : ℕ) : Heap T :=
  match h[i]?, h[j]? with
  | some a, some b => (h.set i b).set j a
  | _, _ => h

/-- `lfuHeap.Less i j`: `h[i].frequency < h[j].frequency`. -/
def hless {T : Type} (h : Heap T) (i j : ℕ) : Bool :=
  match h[i]?, h[j]? with
  | some a, some b => a.2 < b.2
  | _, _ => false

/-- `container/heap.up`: sift the entry at `j` towards the root. -/
def hup {T : Type} (h : Heap T) (j : ℕ) : Heap T :=
  if _hj : j = 0 then h
  else
    let i := (j - 1) / 2
    if hless h j i then hup (hswap h i j) i else h
termination_by j
decreasing_by omega

/-- The child `j` selected by one `container/heap.down` step from `i`
(the smaller of the two children when both exist). -/
def hchild {T : Type} (h : Heap T) (i n : ℕ) : ℕ :=
  if 2 * i + 2 < n ∧ hless h (2 * i + 2) (2 * i + 1) then 2 * i + 2 else 2 * i + 1

theorem hchild_gt {T : Type} (h : Heap T) (i n : ℕ) : i < hchild h i n := by
  unfold hchild; split <;> omega

theorem hchild_lt {T : Type} (h : Heap T) (i n : ℕ) (hn : 2 * i + 1 < n) :
    hchild h i n < n := by
  unfold hchild; split <;> omega

/-- `container/heap.down` restricted to `[0, n)`: sift the entry at `i`
down, returning the final position (Go reports `i > i0` as "moved"). -/
def hdownAux {T : Type} (h : Heap T) (i n : ℕ) : Heap T × ℕ :=
  if _hn : 2 * i + 1 ≥ n then (h, i)
  else
    let j := hchild h i n
    if hless h j i then hdownAux (hswap h i j) j n else (h, i)
termination_by n - i
decreasing_by
  have h1 : i < hchild h i n := hchild_gt h i n
  have h2 : hchild h i n < n := hchild_lt h i n (by omega)
  omega

/-- `container/heap.down` with its `i > i0` result. -/
def hdown {T : Type} (h : Heap T) (i n : ℕ) : Heap T × Bool :=
  let r := hdownAux h i n
  (r.1, decide (r.2 > i))

/-- `container/heap.Fix`: `if !down(h, i, h.Len()) { up(h, i) }`. -/
def hfix {T : Type} (h : Heap T) (i : ℕ) : Heap T :=
  let r := hdown h i h.length
  if r.2 then r.1 else hup r.1 i

/-- `container/heap.Push`: append (`lfuHeap.Push` sets `index = len`)
then sift up from the last position. -/
def hpush {T : Type} (h : Heap T) (e : T × Nat) : Heap T :=
  hup (h ++ [e]) h.length

/-- `container/heap.Pop`: swap the root to the last position, sift the
new root down within `[0, n)`, then remove and return the last entry
(`lfuHeap.Pop`). -/
def hpop {T : Type} (h : Heap T) : Heap T × Option (T × Nat) :=
  let n := h.length - 1
  let h2 := (hdownAux (hswap h 0 n) 0 n).1
  (h2.dropLast, h2.getLast?)

/-- `container/heap.Remove(h, i)`: swap position `i` with the last, fix
up the displaced entry (`down`, falling back to `up`), then drop the last
entry. -/
def hremove {T : Type} (h : Heap T) (i : ℕ) : Heap T :=
  let n := h.length - 1
  let h3 :=
    if i ≠ n then
      let r := hdown (hswap h i n) i n
      if r.2 then r.1 else hup r.1 i
    else h
  h3.dropLast

/-! ## Eviction policies (`eviction` package)

Each policy couples a position map (`cache`) with an ordering structure;
for reachable states the position map is determined by the ordering
structure (one map entry per element), so the latter is the state.
`capacity` is the Go `int` given to the constructor (any integer).
Go's `Put`/`Evict` return a `(T, bool)` pair whose first component
defaults to the zero value `var zero T`; the zero value is passed
explicitly as `z`. -/

/-- `FIFO[T]`: `capacity` plus the `container/list` contents, front
(oldest) first; `cache` maps each key to its list element. -/
structure FIFOState (T : Type) where
  capacity : Int
  list : List T
  deriving DecidableEq

/-- `FIFO.evict` (`fifo.go` 80-90): remove and return the front. -/
def fifoEvict {T : Type} (s : FIFOState T) : FIFOState T × Option T :=
  match s.list with
  | [] => (s, none)
  | e :: rest => (⟨s.capacity, rest⟩, some e)

/-- `FIFO.Put` (`fifo.go` 26-42): a known key is a no-op; a new key first
evicts the oldest entry when `list.Len() >= capacity`, then is appended at
the back. -/
def fifoPut {T : Type} [DecidableEq T] (z : T) (s : FIFOState T) (key : T) :
    FIFOState T × T × Bool :=
  if key ∈ s.list then (s, z, false)
  else
    let r := if (s.list.length : Int) ≥ s.capacity then fifoEvict s else (s, none)
    (⟨s.capacity, r.1.list ++ [key]⟩,
      match r.2 with
      | some e => (e, true)
      | none => (z, false))

/-- `FIFO.Delete` (`fifo.go` 45-53): remove the key's element if present. -/
def fifoDelete {T : Type} [DecidableEq T] (s : FIFOState T) (key : T) : FIFOState T :=
  if key ∈ s.list then ⟨s.capacity, s.list.erase key⟩ else s

/-- `lru[T]` (`lru.go`): `capacity` plus the `container/list` contents,
front (most recently used) first. -/
structure LRUState (T : Type) where
  capacity : Int
  list : List T
  deriving DecidableEq

/-- `lru.evict` (`lru.go` 85-95): remove and return the back (least
recently used). -/
def lruEvict {T : Type} (s : LRUState T) : LRUState T × Option T :=
  match s.list.getLast? with
  | none => (s, none)
  | some e => (⟨s.capacity, s.list.dropLast⟩, some e)

/-- `lru.Put` (`lru.go` 30-47): a known key moves to the front; a new key
first evicts the back entry when `list.Len() >= capacity`, then is pushed
at the front. -/
def lruPut {T : Type} [DecidableEq T] (z : T) (s : LRUState T) (key : T) :
    LRUState T × T × Bool :=
  if key ∈ s.list then (⟨s.capacity, key :: s.list.erase key⟩, z, false)
  else
    let r := if (s.list.length : Int) ≥ s.capacity then lruEvict s else (s, none)
    (⟨s.capacity, key :: r.1.list⟩,
      match r.2 with
      | some e => (e, true)
      | none => (z, false))

/-- `lru.Delete` (`lru.go` 50-58). -/
def lruDelete {T : Type} [DecidableEq T] (s : LRUState T) (key : T) : LRUState T :=
  if key ∈ s.list then ⟨s.capacity, s.list.erase key⟩ else s

/-- `LFU[T]` (`lfu.go`): `capacity` plus the frequency heap. -/
structure LFUState (T : Type) where
  capacity : Int
  heap : Heap T
  deriving DecidableEq

/-- `l.cache[key]` for the LFU policy: the position of the key's entry
(unique in reachable states). -/
def lfuFindIdx {T : Type} [DecidableEq T] (h : Heap T) (key : T) : Option ℕ :=
  h.findIdx? (fun e => e.1 = key)

/-- `LFU.evict` (`lfu.go` 91-99): pop the heap minimum, removing its key
from the cache. -/
def lfuEvict {T : Type} (s : LFUState T) : LFUState T × Option T :=
  if s.heap.length = 0 then (s, none)
  else
    let r := hpop s.heap
    (⟨s.capacity, r.1⟩, r.2.map Prod.fst)

/-- `LFU.Put` (`lfu.go` 34-53): a known key's frequency is incremented in
place followed by `heap.Fix` at its index; a new key first evicts the
minimum when `len(cache) >= capacity`, then is pushed with frequency 1. -/
def lfuPut {T : Type} [DecidableEq T] (z : T) (s : LFUState T) (key : T) :
    LFUState T × T × Bool :=
  match lfuFindIdx s.heap key with
  | some i =>
      let c := ((s.heap.get? i).map Prod.snd).getD 0
      (⟨s.capacity, hfix (s.heap.set i (key, c + 1)) i⟩, z, false)
  | none =>
      let r := if (s.heap.length : Int) ≥ s.capacity then lfuEvict s else (s, none)
      (⟨s.capacity, hpush r.1.heap (key, 1)⟩,
        match r.2 with
        | some e => (e, true)
        | none => (z, false))

/-- `LFU.Delete` (`lfu.go` 56-64): `heap.Remove` at the key's index. -/
def lfuDelete {T : Type} [DecidableEq T] (s : LFUState T) (key : T) : LFUState T :=
  match lfuFindIdx s.heap key with
  | some i => ⟨s.capacity, hremove s.heap i⟩
  | none => s

/-- A policy value (`eviction.Policy[T]`): one of the three strategies. -/
inductive Policy (T : Type) where
  | fifo (s : FIFOState T)
  | lru (s : LRUState T)
  | lfu (s : LFUState T)
  deriving DecidableEq

/-- `NewFIFO(capacity)`. -/
def newFIFO {T : Type} (capacity : Int) : Policy T := .fifo ⟨capacity, []⟩

/-- `NewLRU(capacity)`. -/
def newLRU {T : Type} (capacity : Int) : Policy T := .lru ⟨capacity, []⟩

/-- `NewLFU(capacity)`. -/
def newLFU {T : Type} (capacity : Int) : Policy T := .lfu ⟨capacity, []⟩

/-- `Policy.Put(key) (T, bool)`. -/
def Policy.put {T : Type} [DecidableEq T] (z : T) : Policy T → T → Policy T × T × Bool
  | .fifo s, k => let r := fifoPut z s k; (.fifo r.1, r.2)
  | .lru s, k => let r := lruPut z s k; (.lru r.1, r.2)
  | .lfu s, k => let r := lfuPut z s k; (.lfu r.1, r.2)

/-- `Policy.Delete(key)`. -/
def Policy.del {T : Type} [DecidableEq T] : Policy T → T → Policy T
  | .fifo s, k => .fifo (fifoDelete s k)
  | .lru s, k => .lru (lruDelete s k)
  | .lfu s, k => .lfu (lfuDelete s k)

/-- `Policy.Evict() (T, bool)`: `(zero value, false)` when empty. -/
def Policy.evictOp {T : Type} (z : T) : Policy T → Policy T × T × Bool
  | .fifo s =>
      match fifoEvict s with
      | (s', some e) => (.fifo s', e, true)
      | (s', none) => (.fifo s', z, false)
  | .lru s =>
      match lruEvict s with
      | (s', some e) => (.lru s', e, true)
      | (s', none) => (.lru s', z, false)
  | .lfu s =>
      match lfuEvict s with
      | (s', some e) => (.lfu s', e, true)
      | (s', none) => (.lfu s', z, false)

/-- `Policy.Reset()`: clear both structures, keep the capacity. -/
def Policy.reset {T : Type} : Policy T → Policy T
  | .fifo s => .fifo ⟨s.capacity, []⟩
  | .lru s => .lru ⟨s.capacity, []⟩
  | .lfu s => .lfu ⟨s.capacity, []⟩

/-- `Policy.Size()`: `len(cache)` — one cache entry per tracked key. -/
def Policy.size {T : Type} : Policy T → ℕ
  | .fifo s => s.list.length
  | .lru s => s.list.length
  | .lfu s => s.heap.length

/-- The keys currently tracked by a policy (the domain of its `cache`
map), in structure order. -/
def Policy.keys {T : Type} : Policy T → List T
  | .fifo s => s.list
  | .lru s => s.list
  | .lfu s => s.heap.map Prod.fst

/-! ## Eviction-backed cache facade (`eviction_cache.go`)

The facade's own mutex serializes each operation, so each operation is
one atomic state transformation.  `keyFunc`, the indexer registry and the
zero value `z` of the key type are fixed parameters of the facade; a
`KeyError` is an ordinary error return that leaves the state unchanged. -/

/-- `KeyFunc[T]` of `store.go`: derives a key or fails. -/
abbrev KeyFunc (T Obj : Type) := Obj → Except String T

/-- The state of `evictionCache`: its thread-safe store plus its policy. -/
structure EvictionCache (K T Obj : Type) where
  store : ThreadSafeMap K T Obj
  policy : Policy T
  deriving DecidableEq

/-- `NewEvictionCache(keyFunc, evictionPolicy, indexers)`: empty store. -/
def newEvictionCache {K T Obj : Type} (p : Policy T) : EvictionCache K T Obj :=
  ⟨tsmInit, p⟩

/-- `evictionCache.Add` (`eviction_cache.go` 35-54): derive the key
(`KeyError` return on failure), call `Policy.Put`, delete a reported
evicted key from the store, then `store.Add` the new object.  The
`Option` layer is an index-function panic inside the store. -/
def ecAdd {K T Obj : Type} [DecidableEq K] [DecidableEq T]
    (kf : KeyFunc T Obj) (indexers : Indexers K Obj) (z : T)
    (c : EvictionCache K T Obj) (obj : Obj) :
    Option (EvictionCache K T Obj × Option String) :=
  match kf obj with
  | .error e => some (c, some e)
  | .ok key => do
      let r := Policy.put z c.policy key
      let st1 ← if r.2.2 then tsmDelete indexers c.store r.2.1 else some c.store
      let st2 ← tsmUpdate indexers st1 key obj
      some (⟨st2, r.1⟩, none)

/-- `evictionCache.Update` (`eviction_cache.go` 57-67): derive the key,
`store.Update`, then `Policy.Put` whose eviction report is discarded. -/
def ecUpdate {K T Obj : Type} [DecidableEq K] [DecidableEq T]
    (kf : KeyFunc T Obj) (indexers : Indexers K Obj) (z : T)
    (c : EvictionCache K T Obj) (obj : Obj) :
    Option (EvictionCache K T Obj × Option String) :=
  match kf obj with
  | .error e => some (c, some e)
  | .ok key => do
      let st' ← tsmUpdate indexers c.store key obj
      let r := Policy.put z c.policy key
      some (⟨st', r.1⟩, none)

/-- `evictionCache.Delete` (`eviction_cache.go` 70-80): derive the key,
`Policy.Delete`, then `store.Delete`. -/
def ecDelete {K T Obj : Type} [DecidableEq K] [DecidableEq T]
    (kf : KeyFunc T Obj) (indexers : Indexers K Obj)
    (c : EvictionCache K T Obj) (obj : Obj) :
    Option (EvictionCache K T Obj × Option String) :=
  match kf obj with
  | .error e => some (c, some e)
  | .ok key => do
      let p' := Policy.del c.policy key
      let st' ← tsmDelete indexers c.store key
      some (⟨st', p'⟩, none)

/-- `evictionCache.Size`: `store.Size()`, i.e. `len(items)`. -/
def ecSize {K T Obj : Type} (c : EvictionCache K T Obj) : ℕ :=
  c.store.items.length

/-- A facade mutation: `Add(obj)` or `Delete(obj)`. -/
inductive CacheOp (Obj : Type) where
  | add (obj : Obj)
  | del (obj : Obj)
  deriving DecidableEq

/-- One facade call (the error return does not change the state). -/
def applyCacheOp {K T Obj : Type} [DecidableEq K] [DecidableEq T]
    (kf : KeyFunc T Obj) (indexers : Indexers K Obj) (z : T)
    (c : EvictionCache K T Obj) : CacheOp Obj → Option (EvictionCache K T Obj)
  | .add obj => (ecAdd kf indexers z c obj).map Prod.fst
  | .del obj => (ecDelete kf indexers c obj).map Prod.fst

/-- A sequence of facade calls, `none` if any panics. -/
def applyCacheOps {K T Obj : Type} [DecidableEq K] [DecidableEq T]
    (kf : KeyFunc T Obj) (indexers : Indexers K Obj) (z : T)
    (c : EvictionCache K T Obj) : List (CacheOp Obj) → Option (EvictionCache K T Obj)
  | [] => some c
  | op :: rest => do
      let c' ← applyCacheOp kf indexers z c op
      applyCacheOps kf indexers z c' rest

/-! ## Characterisation of the index-update loops -/

/-- Inserting an absent key appends the binding. -/
theorem minsert_of_not_mem {α β : Type} [DecidableEq α]
    (l : List (α × β)) (k : α) (v : β) (h : mlookup l k = none) :
    minsert l k v = l ++ [(k, v)] := by
  induction l with
  | nil => simp [minsert]
  | cons hd tl ih =>
      obtain ⟨a, b⟩ := hd
      by_cases hka : k = a
      · subst hka; simp [mlookup] at h
      · rw [mlookup, if_neg hka] at h
        simp [minsert, hka, ih h]

theorem nodupKeys_insertLoop {K T : Type} [DecidableEq K] [DecidableEq T]
    (key : T) (vals : List K) {idx : IndexMap K T} (h : NodupKeys idx) :
    NodupKeys (insertLoop key vals idx) := by
  induction vals generalizing idx with
  | nil => simpa [insertLoop] using h
  | cons w rest ih => exact ih (nodupKeys_minsert h _ _)

theorem mlookup_insertLoop {K T : Type} [DecidableEq K] [DecidableEq T]
    (key : T) (vals : List K) (idx : IndexMap K T) (v : K) :
    mlookup (insertLoop key vals idx) v =
      if v ∈ vals then some (insert key (bucketOf idx v)) else mlookup idx v := by
  induction vals generalizing idx with
  | nil => simp [insertLoop]
  | cons w rest ih =>
      rw [insertLoop, ih]
      by_cases hvw : v = w
      · subst hvw
        by_cases hv : v ∈ rest
        · simp [hv, bucketOf, mlookup_minsert_self, Finset.Insert.comm]
        · simp [hv, mlookup_minsert_self]
      · have hb : bucketOf (minsert idx w (insert key (bucketOf idx w))) v
            = bucketOf idx v := by
          simp [bucketOf, mlookup_minsert_ne _ _ hvw]
        by_cases hv : v ∈ rest
        · simp [hv, hvw, hb]
        · simp [hv, hvw, mlookup_minsert_ne _ _ hvw]

theorem removeLoop_char {K T : Type} [DecidableEq K] [DecidableEq T]
    (key : T) (vals : List K) (idx : IndexMap K T)
    (hnd : vals.Nodup) (hni : NodupKeys idx)
    (hp : ∀ v ∈ vals, (mlookup idx v).isSome) :
    (removeLoop key vals idx).2 = false ∧
    NodupKeys (removeLoop key vals idx).1 ∧
    ∀ v, mlookup (removeLoop key vals idx).1 v =
      if v ∈ vals then
        (if (bucketOf idx v).erase key = ∅ then none
         else some ((bucketOf idx v).erase key))
      else mlookup idx v := by
  induction vals generalizing idx with
  | nil => exact ⟨rfl, hni, fun v => by simp [removeLoop]⟩
  | cons w rest ih =>
      obtain ⟨s, hs⟩ := Option.isSome_iff_exists.mp (hp w (List.mem_cons_self w rest))
      have hbw : bucketOf idx w = s := by simp [bucketOf, hs]
      have hstep : removeLoop key (w :: rest) idx =
          removeLoop key rest
            (if s.erase key = ∅ then merase idx w else minsert idx w (s.erase key)) := by
        simp [removeLoop, hs]
      set idx1 := if s.erase key = ∅ then merase idx w
        else minsert idx w (s.erase key) with hidx1
      have hni1 : NodupKeys idx1 := by
        by_cases he : s.erase key = ∅ <;>
          simp [hidx1, he, nodupKeys_merase hni, nodupKeys_minsert hni]
      have hlook1 : ∀ v, v ≠ w → mlookup idx1 v = mlookup idx v := by
        intro v hv
        by_cases he : s.erase key = ∅ <;>
          simp [hidx1, he, mlookup_merase_ne _ hv, mlookup_minsert_ne _ _ hv]
      have hlookw : mlookup idx1 w =
          if s.erase key = ∅ then none else some (s.erase key) := by
        by_cases he : s.erase key = ∅ <;>
          simp [hidx1, he, mlookup_merase_self hni, mlookup_minsert_self]
      have hwr : w ∉ rest := (List.nodup_cons.mp hnd).1
      have hndr : rest.Nodup := (List.nodup_cons.mp hnd).2
      have hp1 : ∀ v ∈ rest, (mlookup idx1 v).isSome := by
        intro v hv
        rw [hlook1 v (fun h => hwr (h ▸ hv))]
        exact hp v (List.mem_cons_of_mem w hv)
      obtain ⟨hab, hnd2, hch⟩ := ih idx1 hndr hni1 hp1
      refine ⟨by rw [hstep]; exact hab, by rw [hstep]; exact hnd2, ?_⟩
      intro v
      rw [hstep, hch v]
      by_cases hvr : v ∈ rest
      · have hvw : v ≠ w := fun h => hwr (h ▸ hvr)
        have hbv : bucketOf idx1 v = bucketOf idx v := by
          simp [bucketOf, hlook1 v hvw]
        simp [hvr, hvw, hbv]
      · by_cases hvw : v = w
        · subst hvw
          simp [hvr, hlookw, hbw]
        · simp [hvr, hvw, hlook1 v hvw]

/-! ## The per-index store invariant and its preservation -/

/-- The index map of one name (`si.indices[name]`, `nil` reads as empty). -/
def idxOf {K T : Type} [DecidableEq K] (indices : Indexes K T) (name : String) :
    IndexMap K T :=
  (mlookup indices name).getD []

/-- The spec §3 invariant, per index: a key sits in exactly the buckets of
the values its currently stored object indexes to, no bucket is present
but empty, and the bucket map is a well-formed Go map. -/
def IdxInv {K T Obj : Type} [DecidableEq K] [DecidableEq T]
    (f : IndexFunc K Obj) (items : List (T × Obj)) (idx : IndexMap K T) : Prop :=
  (∀ v k, k ∈ bucketOf idx v ↔
    ∃ o vs, mlookup items k = some o ∧ f o = Except.ok vs ∧ v ∈ vs)
  ∧ (∀ v, mlookup idx v ≠ some (∅ : Finset T))
  ∧ NodupKeys idx

theorem evalIndexFunc_some_of {K Obj : Type} {f : IndexFunc K Obj} {o : Obj}
    {vs : List K} (h : evalIndexFunc f (some o) = some vs) : f o = Except.ok vs := by
  cases hfo : f o with
  | ok vs' => rw [evalIndexFunc, hfo] at h; simpa [hfo] using h
  | error e => rw [evalIndexFunc, hfo] at h; cases h

theorem idxOf_def {K T : Type} [DecidableEq K] (indices : Indexes K T) (name : String) :
    idxOf indices name = (mlookup indices name).getD [] := rfl

/-- Evaluation of `updateSingleIndex` once the index function is found and
both value slices are computed without panicking. -/
theorem updateSingleIndex_eq {K T Obj : Type} [DecidableEq K] [DecidableEq T]
    {indexers : Indexers K Obj} {name : String} {f : IndexFunc K Obj}
    {oldObj newObj : Option Obj} {oldVals newVals : List K}
    (key : T) (indices : Indexes K T)
    (hf : mlookup indexers name = some f)
    (hov : evalIndexFunc f oldObj = some oldVals)
    (hnv : evalIndexFunc f newObj = some newVals) :
    updateSingleIndex indexers name oldObj newObj key indices =
      if newVals.length = 1 ∧ oldVals.length = 1 ∧ newVals.head? = oldVals.head? then
        some (minsert indices name (idxOf indices name))
      else if (removeLoop key oldVals (idxOf indices name)).2 then
        some (minsert indices name (removeLoop key oldVals (idxOf indices name)).1)
      else some (minsert indices name
        (insertLoop key newVals (removeLoop key oldVals (idxOf indices name)).1)) := by
  rw [updateSingleIndex, hf]
  simp only [Option.bind_eq_bind, Option.some_bind]
  rw [hov]
  simp only [Option.some_bind]
  rw [hnv]
  simp only [Option.some_bind, idxOf_def]

theorem updateSingleIndex_preserve {K T Obj : Type} [DecidableEq K] [DecidableEq T]
    {indexers : Indexers K Obj} {name : String} {f : IndexFunc K Obj}
    (hf : mlookup indexers name = some f)
    (hfnd : ∀ o vs, f o = Except.ok vs → vs.Nodup)
    {items items' : List (T × Obj)} {key : T} {oldObj newObj : Option Obj}
    (hold : oldObj = mlookup items key)
    (hnew : newObj = mlookup items' key)
    (hframe : ∀ k, k ≠ key → mlookup items' k = mlookup items k)
    {indices indices' : Indexes K T}
    (hsucc : updateSingleIndex indexers name oldObj newObj key indices = some indices')
    (hInv : IdxInv f items (idxOf indices name)) :
    IdxInv f items' (idxOf indices' name) ∧
      ∀ n, n ≠ name → mlookup indices' n = mlookup indices n := by
  rcases hov : evalIndexFunc f oldObj with _ | oldVals
  · rw [updateSingleIndex] at hsucc
    simp [hf, hov] at hsucc
  rcases hnv : evalIndexFunc f newObj with _ | newVals
  · rw [updateSingleIndex] at hsucc
    simp [hf, hov, hnv] at hsucc
  have hkeyb : ∀ v, key ∈ bucketOf (idxOf indices name) v ↔ v ∈ oldVals := by
    intro v
    rw [hInv.1 v key]
    cases oldObj with
    | none =>
        have h0 : oldVals = [] := by
          rw [evalIndexFunc] at hov
          exact (Option.some.injEq _ _ ▸ hov).symm
        have hik : mlookup items key = none := hold.symm
        simp [h0, hik]
    | some o =>
        have hfo : f o = Except.ok oldVals := evalIndexFunc_some_of hov
        have hik : mlookup items key = some o := hold.symm
        constructor
        · rintro ⟨o', vs, ho', hvs, hv⟩
          rw [hik] at ho'
          obtain rfl : o = o' := by injection ho'
          rw [hfo] at hvs
          obtain rfl : oldVals = vs := by injection hvs
          exact hv
        · intro hv
          exact ⟨o, oldVals, hik, hfo, hv⟩
  have hknew : ∀ v, (∃ o vs, mlookup items' key = some o ∧
      f o = Except.ok vs ∧ v ∈ vs) ↔ v ∈ newVals := by
    intro v
    cases newObj with
    | none =>
        have h0 : newVals = [] := by
          rw [evalIndexFunc] at hnv
          exact (Option.some.injEq _ _ ▸ hnv).symm
        have hik : mlookup items' key = none := hnew.symm
        simp [h0, hik]
    | some o =>
        have hfo : f o = Except.ok newVals := evalIndexFunc_some_of hnv
        have hik : mlookup items' key = some o := hnew.symm
        constructor
        · rintro ⟨o', vs, ho', hvs, hv⟩
          rw [hik] at ho'
          obtain rfl : o = o' := by injection ho'
          rw [hfo] at hvs
          obtain rfl : newVals = vs := by injection hvs
          exact hv
        · intro hv
          exact ⟨o, newVals, hik, hfo, hv⟩
  have hpres : ∀ v ∈ oldVals, (mlookup (idxOf indices name) v).isSome := by
    intro v hv
    have hkv : key ∈ bucketOf (idxOf indices name) v := (hkeyb v).mpr hv
    rcases hmv : mlookup (idxOf indices name) v with _ | s
    · rw [bucketOf, hmv] at hkv
      simp at hkv
    · simp
  have hondup : oldVals.Nodup := by
    cases oldObj with
    | none =>
        have h0 : oldVals = [] := by
          rw [evalIndexFunc] at hov
          exact (Option.some.injEq _ _ ▸ hov).symm
        simp [h0]
    | some o => exact hfnd o oldVals (evalIndexFunc_some_of hov)
  by_cases hfast : newVals.length = 1 ∧ oldVals.length = 1 ∧
      newVals.head? = oldVals.head?
  · -- singleton fast path: the bucket map is unchanged
    rw [updateSingleIndex_eq key indices hf hov hnv, if_pos hfast] at hsucc
    have hindices' : indices' = minsert indices name (idxOf indices name) :=
      (Option.some.injEq _ _ ▸ hsucc).symm
    obtain ⟨a, ha⟩ := List.length_eq_one.mp hfast.1
    obtain ⟨b, hb⟩ := List.length_eq_one.mp hfast.2.1
    have hab : a = b := by
      have h := hfast.2.2
      rw [ha, hb] at h
      simpa using h
    subst hab
    have hidx : idxOf indices' name = idxOf indices name := by
      rw [hindices', idxOf, mlookup_minsert_self, Option.getD_some]
    refine ⟨?_, ?_⟩
    · rw [hidx]
      refine ⟨?_, hInv.2.1, hInv.2.2⟩
      intro v k
      by_cases hk : k = key
      · subst hk
        rw [hkeyb v, hknew v, ha, hb]
      · rw [hInv.1 v k, hframe k hk]
    · intro n hn
      rw [hindices', mlookup_minsert_ne _ _ hn]
  · -- general path: removal loop (which cannot abort here, every old
    -- value's bucket being present) then insertion loop
    obtain ⟨habort, hnd1, hch⟩ :=
      removeLoop_char key oldVals (idxOf indices name) hondup hInv.2.2 hpres
    rw [updateSingleIndex_eq key indices hf hov hnv, if_neg hfast, habort] at hsucc
    simp only [Bool.false_eq_true, if_false] at hsucc
    have hindices' : indices' = minsert indices name
        (insertLoop key newVals (removeLoop key oldVals (idxOf indices name)).1) :=
      (Option.some.injEq _ _ ▸ hsucc).symm
    have hidx : idxOf indices' name =
        insertLoop key newVals (removeLoop key oldVals (idxOf indices name)).1 := by
      rw [hindices', idxOf, mlookup_minsert_self, Option.getD_some]
    have hrlb : ∀ v, bucketOf (removeLoop key oldVals (idxOf indices name)).1 v =
        if v ∈ oldVals then (bucketOf (idxOf indices name) v).erase key
        else bucketOf (idxOf indices name) v := by
      intro v
      rw [bucketOf, hch v]
      by_cases h1 : v ∈ oldVals
      · rw [if_pos h1]
        by_cases h2 : (bucketOf (idxOf indices name) v).erase key = ∅
        · rw [if_pos h2, if_pos h1, h2]
          rfl
        · rw [if_neg h2, if_pos h1]
          rfl
      · rw [if_neg h1, if_neg h1]
        rfl
    have hilb : ∀ v, bucketOf
        (insertLoop key newVals (removeLoop key oldVals (idxOf indices name)).1) v =
        if v ∈ newVals then
          insert key (bucketOf (removeLoop key oldVals (idxOf indices name)).1 v)
        else bucketOf (removeLoop key oldVals (idxOf indices name)).1 v := by
      intro v
      rw [bucketOf, mlookup_insertLoop]
      by_cases h1 : v ∈ newVals
      · rw [if_pos h1, if_pos h1]
        rfl
      · rw [if_neg h1, if_neg h1]
        rfl
    refine ⟨⟨?_, ?_, ?_⟩, ?_⟩
    · -- membership characterisation
      intro v k
      rw [hidx, hilb v, hrlb v]
      by_cases hk : k = key
      · subst hk
        rw [hknew v]
        by_cases hvn : v ∈ newVals
        · simp [hvn]
        · rw [if_neg hvn]
          by_cases hvo : v ∈ oldVals
          · simp [hvn, hvo]
          · rw [if_neg hvo]
            simp [hkeyb v, hvo, hvn]
      · have hred : k ∈ (if v ∈ newVals then
            insert key (if v ∈ oldVals then
              (bucketOf (idxOf indices name) v).erase key
              else bucketOf (idxOf indices name) v)
            else (if v ∈ oldVals then
              (bucketOf (idxOf indices name) v).erase key
              else bucketOf (idxOf indices name) v)) ↔
            k ∈ bucketOf (idxOf indices name) v := by
          by_cases hvn : v ∈ newVals <;> by_cases hvo : v ∈ oldVals <;>
            simp [hvn, hvo, Finset.mem_insert, Finset.mem_erase, hk]
        rw [hred, hInv.1 v k, hframe k hk]
    · -- no bucket is present but empty
      intro v
      rw [hidx, mlookup_insertLoop]
      by_cases hvn : v ∈ newVals
      · rw [if_pos hvn]
        simp [Finset.insert_ne_empty]
      · rw [if_neg hvn, hch v]
        by_cases hvo : v ∈ oldVals
        · rw [if_pos hvo]
          by_cases h2 : (bucketOf (idxOf indices name) v).erase key = ∅
          · rw [if_pos h2]
            simp
          · rw [if_neg h2]
            intro h
            exact h2 (by injection h)
        · rw [if_neg hvo]
          exact hInv.2.1 v
    · -- the bucket map stays a well-formed Go map
      rw [hidx]
      exact nodupKeys_insertLoop key newVals hnd1
    · intro n hn
      rw [hindices', mlookup_minsert_ne _ _ hn]

theorem updateIndicesAux_preserve {K T Obj : Type} [DecidableEq K] [DecidableEq T]
    {indexers : Indexers K Obj} (names : List String)
    (hnames : ∀ n ∈ names, (mlookup indexers n).isSome)
    (hnd : names.Nodup)
    (hfnd : ∀ name f, mlookup indexers name = some f →
      ∀ o vs, f o = Except.ok vs → vs.Nodup)
    {items items' : List (T × Obj)} {key : T} {oldObj newObj : Option Obj}
    (hold : oldObj = mlookup items key)
    (hnew : newObj = mlookup items' key)
    (hframe : ∀ k, k ≠ key → mlookup items' k = mlookup items k)
    {indices indices' : Indexes K T}
    (hsucc : updateIndicesAux indexers names oldObj newObj key indices = some indices')
    (hInv : ∀ name ∈ names, ∀ f, mlookup indexers name = some f →
      IdxInv f items (idxOf indices name)) :
    (∀ name ∈ names, ∀ f, mlookup indexers name = some f →
      IdxInv f items' (idxOf indices' name)) ∧
    (∀ n, n ∉ names → mlookup indices' n = mlookup indices n) := by
  induction names generalizing indices with
  | nil =>
      rw [updateIndicesAux] at hsucc
      obtain rfl : indices = indices' := by injection hsucc
      exact ⟨by simp, fun n _ => rfl⟩
  | cons name rest ih =>
      rw [updateIndicesAux] at hsucc
      rcases hstep : updateSingleIndex indexers name oldObj newObj key indices
        with _ | indices1
      · rw [hstep] at hsucc
        simp at hsucc
      rw [hstep] at hsucc
      simp only [Option.bind_eq_bind, Option.some_bind] at hsucc
      obtain ⟨f, hf⟩ := Option.isSome_iff_exists.mp
        (hnames name (List.mem_cons_self name rest))
      obtain ⟨hhead, hheadframe⟩ := updateSingleIndex_preserve hf
        (hfnd name f hf) hold hnew hframe hstep
        (hInv name (List.mem_cons_self name rest) f hf)
      have hnamerest : name ∉ rest := (List.nodup_cons.mp hnd).1
      have hInv1 : ∀ n ∈ rest, ∀ g, mlookup indexers n = some g →
          IdxInv g items (idxOf indices1 n) := by
        intro n hn g hg
        have hne : n ≠ name := fun h => hnamerest (h ▸ hn)
        rw [idxOf_def, hheadframe n hne, ← idxOf_def]
        exact hInv n (List.mem_cons_of_mem name hn) g hg
      obtain ⟨hrest, hrestframe⟩ := ih
        (fun n hn => hnames n (List.mem_cons_of_mem name hn))
        (List.nodup_cons.mp hnd).2 hsucc hInv1
      constructor
      · intro n hn g hg
        rcases List.mem_cons.mp hn with rfl | hn'
        · have : mlookup indices' n = mlookup indices1 n := hrestframe n hnamerest
          rw [idxOf_def, this, ← idxOf_def]
          obtain rfl : f = g := by rw [hf] at hg; injection hg
          exact hhead
        · exact hrest n hn' g hg
      · intro n hn
        have hn1 : n ∉ rest := fun h => hn (List.mem_cons_of_mem name h)
        have hn2 : n ≠ name := fun h => hn (h ▸ List.mem_cons_self name rest)
        rw [hrestframe n hn1, hheadframe n hn2]

/-- The §3 invariant over the whole store: well-formed item map, per-index
invariant for every registered index, and no bucket map for unregistered
names. -/
def StoreInv {K T Obj : Type} [DecidableEq K] [DecidableEq T]
    (indexers : Indexers K Obj) (s : ThreadSafeMap K T Obj) : Prop :=
  NodupKeys s.items ∧
  (∀ name f, mlookup indexers name = some f → IdxInv f s.items (idxOf s.indices name)) ∧
  (∀ name, mlookup indexers name = none → mlookup s.indices name = none)

theorem updateIndices_preserve {K T Obj : Type} [DecidableEq K] [DecidableEq T]
    {indexers : Indexers K Obj} (hndI : NodupKeys indexers)
    (hfnd : ∀ name f, mlookup indexers name = some f →
      ∀ o vs, f o = Except.ok vs → vs.Nodup)
    {items items' : List (T × Obj)} {key : T} {oldObj newObj : Option Obj}
    (hold : oldObj = mlookup items key)
    (hnew : newObj = mlookup items' key)
    (hframe : ∀ k, k ≠ key → mlookup items' k = mlookup items k)
    {indices indices' : Indexes K T}
    (hsucc : updateIndices indexers oldObj newObj key indices = some indices')
    (hInv : ∀ name f, mlookup indexers name = some f →
      IdxInv f items (idxOf indices name))
    (hunreg : ∀ n, mlookup indexers n = none → mlookup indices n = none) :
    (∀ name f, mlookup indexers name = some f →
      IdxInv f items' (idxOf indices' name)) ∧
    (∀ n, mlookup indexers n = none → mlookup indices' n = none) := by
  rw [updateIndices] at hsucc
  obtain ⟨hreg, hframe'⟩ := updateIndicesAux_preserve (indexers.map Prod.fst)
    (fun n hn => (mem_keys_iff_mlookup indexers n).mp hn) hndI hfnd
    hold hnew hframe hsucc
    (fun name _ f hf => hInv name f hf)
  constructor
  · intro name f hf
    have hmem : name ∈ indexers.map Prod.fst :=
      (mem_keys_iff_mlookup indexers name).mpr (hf ▸ rfl)
    exact hreg name hmem f hf
  · intro n hn
    have hmem : n ∉ indexers.map Prod.fst := by
      rw [mem_keys_iff_mlookup, hn]
      simp
    rw [hframe' n hmem]
    exact hunreg n hn

theorem tsmUpdate_preserve {K T Obj : Type} [DecidableEq K] [DecidableEq T]
    {indexers : Indexers K Obj} (hndI : NodupKeys indexers)
    (hfnd : ∀ name f, mlookup indexers name = some f →
      ∀ o vs, f o = Except.ok vs → vs.Nodup)
    {s s' : ThreadSafeMap K T Obj} {key : T} {obj : Obj}
    (hsucc : tsmUpdate indexers s key obj = some s')
    (hInv : StoreInv indexers s) : StoreInv indexers s' := by
  rw [tsmUpdate] at hsucc
  rcases hui : updateIndices indexers (mlookup s.items key) (some obj) key s.indices
    with _ | ind'
  · rw [hui] at hsucc
    simp at hsucc
  rw [hui] at hsucc
  simp only [Option.bind_eq_bind, Option.some_bind] at hsucc
  obtain rfl : (⟨minsert s.items key obj, ind'⟩ : ThreadSafeMap K T Obj) = s' := by
    injection hsucc
  obtain ⟨hreg, hunreg⟩ := updateIndices_preserve hndI hfnd rfl
    (mlookup_minsert_self s.items key obj).symm
    (fun k hk => mlookup_minsert_ne s.items obj hk)
    hui hInv.2.1 hInv.2.2
  exact ⟨nodupKeys_minsert hInv.1 key obj, hreg, hunreg⟩

theorem tsmDelete_preserve {K T Obj : Type} [DecidableEq K] [DecidableEq T]
    {indexers : Indexers K Obj} (hndI : NodupKeys indexers)
    (hfnd : ∀ name f, mlookup indexers name = some f →
      ∀ o vs, f o = Except.ok vs → vs.Nodup)
    {s s' : ThreadSafeMap K T Obj} {key : T}
    (hsucc : tsmDelete indexers s key = some s')
    (hInv : StoreInv indexers s) : StoreInv indexers s' := by
  rw [tsmDelete] at hsucc
  split at hsucc
  next obj hit =>
    rcases hui : updateIndices indexers (some obj) none key s.indices with _ | ind'
    · rw [hui] at hsucc
      simp at hsucc
    rw [hui] at hsucc
    simp only [Option.bind_eq_bind, Option.some_bind] at hsucc
    obtain rfl : (⟨merase s.items key, ind'⟩ : ThreadSafeMap K T Obj) = s' := by
      injection hsucc
    obtain ⟨hreg, hunreg⟩ := updateIndices_preserve hndI hfnd hit.symm
      (mlookup_merase_self hInv.1 key).symm
      (fun k hk => mlookup_merase_ne s.items hk)
      hui hInv.2.1 hInv.2.2
    exact ⟨nodupKeys_merase hInv.1 key, hreg, hunreg⟩
  next hit =>
    obtain rfl : s = s' := by injection hsucc
    exact hInv

theorem rebuildLoop_preserve {K T Obj : Type} [DecidableEq K] [DecidableEq T]
    {indexers : Indexers K Obj} (hndI : NodupKeys indexers)
    (hfnd : ∀ name f, mlookup indexers name = some f →
      ∀ o vs, f o = Except.ok vs → vs.Nodup)
    (rest : List (T × Obj)) (done : List (T × Obj))
    (hnodup : NodupKeys (done ++ rest))
    {ind ind' : Indexes K T}
    (hsucc : rebuildLoop indexers rest ind = some ind')
    (hInv : ∀ name f, mlookup indexers name = some f →
      IdxInv f done (idxOf ind name))
    (hunreg : ∀ n, mlookup indexers n = none → mlookup ind n = none) :
    (∀ name f, mlookup indexers name = some f →
      IdxInv f (done ++ rest) (idxOf ind' name)) ∧
    (∀ n, mlookup indexers n = none → mlookup ind' n = none) := by
  induction rest generalizing done ind with
  | nil =>
      rw [rebuildLoop] at hsucc
      obtain rfl : ind = ind' := by injection hsucc
      simpa using ⟨hInv, hunreg⟩
  | cons hd rest' ih =>
      obtain ⟨key, item⟩ := hd
      rw [rebuildLoop] at hsucc
      rcases hui : updateIndices indexers none (some item) key ind with _ | ind1
      · rw [hui] at hsucc
        simp at hsucc
      rw [hui] at hsucc
      simp only [Option.bind_eq_bind, Option.some_bind] at hsucc
      have hkeydone : mlookup done key = none := by
        rw [← Option.not_isSome_iff_eq_none, ← mem_keys_iff_mlookup]
        intro hmem
        have := hnodup
        rw [NodupKeys, List.map_append, List.nodup_append] at this
        exact this.2.2 hmem (by simp)
      obtain ⟨hreg1, hunreg1⟩ := updateIndices_preserve hndI hfnd hkeydone.symm
        (mlookup_minsert_self done key item).symm
        (fun k hk => mlookup_minsert_ne done item hk)
        hui hInv hunreg
      have hminsert : minsert done key item = done ++ [(key, item)] :=
        minsert_of_not_mem done key item hkeydone
      rw [hminsert] at hreg1
      have hnodup' : NodupKeys ((done ++ [(key, item)]) ++ rest') := by
        rw [List.append_assoc]
        simpa using hnodup
      obtain ⟨hreg2, hunreg2⟩ :=
        ih (done ++ [(key, item)]) hnodup' hsucc hreg1 hunreg1
      refine ⟨?_, hunreg2⟩
      intro name f hf
      have := hreg2 name f hf
      rwa [List.append_assoc, List.singleton_append] at this

theorem tsmReplace_preserve {K T Obj : Type} [DecidableEq K] [DecidableEq T]
    {indexers : Indexers K Obj} (hndI : NodupKeys indexers)
    (hfnd : ∀ name f, mlookup indexers name = some f →
      ∀ o vs, f o = Except.ok vs → vs.Nodup)
    (s : ThreadSafeMap K T Obj) {s' : ThreadSafeMap K T Obj}
    {newItems : List (T × Obj)}
    (hnodup : NodupKeys newItems)
    (hsucc : tsmReplace indexers s newItems = some s') :
    StoreInv indexers s' := by
  rw [tsmReplace] at hsucc
  rcases hrb : rebuildLoop indexers newItems [] with _ | ind'
  · rw [hrb] at hsucc
    simp at hsucc
  rw [hrb] at hsucc
  simp only [Option.bind_eq_bind, Option.some_bind] at hsucc
  obtain rfl : (⟨newItems, ind'⟩ : ThreadSafeMap K T Obj) = s' := by
    injection hsucc
  have hbase : ∀ name f, mlookup indexers name = some f →
      IdxInv f [] (idxOf ([] : Indexes K T) name) := by
    intro name f _
    refine ⟨?_, ?_, ?_⟩
    · intro v k
      simp [bucketOf, idxOf]
    · intro v
      simp [idxOf]
    · simp [idxOf, NodupKeys]
  obtain ⟨hreg, hunreg⟩ := rebuildLoop_preserve hndI hfnd newItems []
    (by simpa using hnodup) hrb hbase (fun n _ => rfl)
  exact ⟨hnodup, by simpa using hreg, hunreg⟩

/-- The side condition a `Replace` payload satisfies by construction
(it is a Go map). -/
def OpWF {T Obj : Type} : StoreOp T Obj → Prop
  | .replace items => NodupKeys items
  | _ => True

theorem applyOp_preserve {K T Obj : Type} [DecidableEq K] [DecidableEq T]
    {indexers : Indexers K Obj} (hndI : NodupKeys indexers)
    (hfnd : ∀ name f, mlookup indexers name = some f →
      ∀ o vs, f o = Except.ok vs → vs.Nodup)
    {s s' : ThreadSafeMap K T Obj} {op : StoreOp T Obj} (hop : OpWF op)
    (hsucc : applyOp indexers s op = some s')
    (hInv : StoreInv indexers s) : StoreInv indexers s' := by
  cases op with
  | add key obj => exact tsmUpdate_preserve hndI hfnd hsucc hInv
  | update key obj => exact tsmUpdate_preserve hndI hfnd hsucc hInv
  | del key => exact tsmDelete_preserve hndI hfnd hsucc hInv
  | replace items => exact tsmReplace_preserve hndI hfnd s hop hsucc

theorem applyOps_preserve {K T Obj : Type} [DecidableEq K] [DecidableEq T]
    {indexers : Indexers K Obj} (hndI : NodupKeys indexers)
    (hfnd : ∀ name f, mlookup indexers name = some f →
      ∀ o vs, f o = Except.ok vs → vs.Nodup)
    (ops : List (StoreOp T Obj)) (hops : ∀ op ∈ ops, OpWF op)
    {s s' : ThreadSafeMap K T Obj}
    (hsucc : applyOps indexers s ops = some s')
    (hInv : StoreInv indexers s) : StoreInv indexers s' := by
  induction ops generalizing s with
  | nil =>
      rw [applyOps] at hsucc
      obtain rfl : s = s' := by injection hsucc
      exact hInv
  | cons op rest ih =>
      rw [applyOps] at hsucc
      rcases hstep : applyOp indexers s op with _ | s1
      · rw [hstep] at hsucc
        simp at hsucc
      rw [hstep] at hsucc
      simp only [Option.bind_eq_bind, Option.some_bind] at hsucc
      exact ih (fun o ho => hops o (List.mem_cons_of_mem op ho)) hsucc
        (applyOp_preserve hndI hfnd (hops op (List.mem_cons_self op rest)) hstep hInv)

theorem storeInv_init {K T Obj : Type} [DecidableEq K] [DecidableEq T]
    (indexers : Indexers K Obj) : StoreInv indexers (tsmInit : ThreadSafeMap K T Obj) := by
  refine ⟨?_, ?_, ?_⟩
  · simp [tsmInit, NodupKeys]
  · intro name f _
    refine ⟨?_, ?_, ?_⟩
    · intro v k
      simp [tsmInit, bucketOf, idxOf]
    · intro v
      simp [tsmInit, idxOf]
    · simp [tsmInit, idxOf, NodupKeys]
  · intro name _
    rfl

/-! ## Claim C2: the store/index consistency invariant -/

/-- **C2** (amended): after any sequence of `Add`/`Update`/`Delete`/`Replace`
operations on a freshly created thread-safe store — provided every
registered index function only ever returns duplicate-free lists of
indexed values — every index's buckets contain each key exactly under the
indexed values produced by that index's function on the currently stored
object, and no empty bucket remains in any index map.  (The proviso is
forced by `c2_counterexample`: duplicated indexed values can trigger the
early `return` in `updateSingleIndex`'s removal loop, skipping the
insertion loop.) -/
theorem c2_store_index_invariant {K T Obj : Type} [DecidableEq K] [DecidableEq T]
    (indexers : Indexers K Obj) (hndI : NodupKeys indexers)
    (hfnd : ∀ name f, mlookup indexers name = some f →
      ∀ o vs, f o = Except.ok vs → vs.Nodup)
    (ops : List (StoreOp T Obj)) (hops : ∀ op ∈ ops, OpWF op)
    (s' : ThreadSafeMap K T Obj)
    (hsucc : applyOps indexers tsmInit ops = some s') :
    (∀ name f, mlookup indexers name = some f →
      ∀ (v : K) (k : T), k ∈ bucketOf (idxOf s'.indices name) v ↔
        ∃ o vs, mlookup s'.items k = some o ∧ f o = Except.ok vs ∧ v ∈ vs) ∧
    (∀ (name : String) (v : K), mlookup (idxOf s'.indices name) v ≠ some (∅ : Finset T)) := by
  have hInv : StoreInv indexers s' :=
    applyOps_preserve hndI hfnd ops hops hsucc (storeInv_init indexers)
  constructor
  · intro name f hf v k
    exact (hInv.2.1 name f hf).1 v k
  · intro name v
    rcases hreg : mlookup indexers name with _ | f
    · have hnone : mlookup s'.indices name = none := hInv.2.2 name hreg
      rw [idxOf_def, hnone]
      simp
    · exact (hInv.2.1 name f hreg).2.1 v

/-- The index function of the C2 counterexample: object `0` indexes to the
duplicated value list `[0, 0]`, every other object to `[1]`. -/
def c2CexF : IndexFunc ℕ ℕ := fun o => Except.ok (if o = 0 then [0, 0] else [1])

/-- The counterexample's single registered index. -/
def c2CexIndexers : Indexers ℕ ℕ := [("I", c2CexF)]

/-- The store state reached by the C2 counterexample run. -/
def c2CexState : ThreadSafeMap ℕ ℕ ℕ := ⟨[(0, 1)], [("I", [])]⟩

/-- **C2** is false as stated: after `Add(0 ↦ 0)` then `Update(0 ↦ 1)` under
an index function with a duplicated value list on the old object, the store
holds the pair `(0, 1)` whose indexed values are `[1]`, yet key `0` is in no
bucket of index `"I"` at all — the removal loop deleted the bucket of the
first duplicate, hit `nil` on the second and returned early, skipping the
insertion loop. -/
theorem c2_counterexample :
    applyOps c2CexIndexers tsmInit [StoreOp.add 0 0, StoreOp.update 0 1]
      = some c2CexState ∧
    mlookup c2CexState.items 0 = some 1 ∧
    c2CexF 1 = Except.ok [1] ∧
    (0 : ℕ) ∉ bucketOf (idxOf c2CexState.indices "I") 1 := by
  refine ⟨by decide, by decide, rfl, by decide⟩

/-- The witness index function: each object indexes to itself. -/
def c2WitnessF : IndexFunc ℕ ℕ := fun o => Except.ok [o]

/-- The witness indexer registry. -/
def c2WitnessIndexers : Indexers ℕ ℕ := [("L", c2WitnessF)]

/-- The witness run: add, overwrite, then delete one key. -/
def c2WitnessOps : List (StoreOp ℕ ℕ) :=
  [StoreOp.add 1 10, StoreOp.update 1 20, StoreOp.del 1]

/-- The state the witness run reaches. -/
def c2WitnessState : ThreadSafeMap ℕ ℕ ℕ := ⟨[], [("L", [])]⟩

theorem c2WitnessIndexers_nodup_values :
    ∀ name f, mlookup c2WitnessIndexers name = some f →
      ∀ (o : ℕ) vs, f o = Except.ok vs → vs.Nodup := by
  intro name f hf o vs hvs
  rw [c2WitnessIndexers, mlookup] at hf
  split at hf
  · obtain rfl : c2WitnessF = f := by injection hf
    simp only [c2WitnessF] at hvs
    obtain rfl : [o] = vs := by injection hvs
    simp
  · cases hf

/-- Witness for C2: the amended invariant instantiated on a concrete
add/overwrite/delete run with the identity index function. -/
theorem c2_store_index_invariant_witness :
    applyOps c2WitnessIndexers tsmInit c2WitnessOps = some c2WitnessState ∧
    ((∀ name f, mlookup c2WitnessIndexers name = some f →
      ∀ (v : ℕ) (k : ℕ), k ∈ bucketOf (idxOf c2WitnessState.indices name) v ↔
        ∃ o vs, mlookup c2WitnessState.items k = some o ∧
          f o = Except.ok vs ∧ v ∈ vs) ∧
    (∀ (name : String) (v : ℕ),
      mlookup (idxOf c2WitnessState.indices name) v ≠ some (∅ : Finset ℕ))) :=
  ⟨by decide,
    c2_store_index_invariant c2WitnessIndexers (by rw [NodupKeys]; decide)
      c2WitnessIndexers_nodup_values c2WitnessOps
      (by
        intro op hop
        rw [c2WitnessOps] at hop
        simp only [List.mem_cons, List.not_mem_nil, or_false] at hop
        rcases hop with rfl | rfl | rfl <;> simp [OpWF])
      c2WitnessState (by decide)⟩

/-! ## Claim C1: behaviour of `updateSingleIndex` outside the fast path -/

/-- **C1** (amended): for a registered index with function `f`, any key and
any `(oldObj, newObj)` whose value slices are not the equal-singleton fast
path, provided the old value slice is duplicate-free and every old value's
bucket is present, `updateSingleIndex` removes the key from the bucket of
every old value (deleting a bucket that becomes empty) and then inserts
the key into the bucket of every new value (creating it if absent).  (The
provisos are forced by `c1_counterexample`: on a missing old-value bucket
the removal loop returns from the whole function, skipping the remaining
removals and every insertion.) -/
theorem c1_updateSingleIndex_behaviour {K T Obj : Type} [DecidableEq K] [DecidableEq T]
    {indexers : Indexers K Obj} {name : String} {f : IndexFunc K Obj}
    (hf : mlookup indexers name = some f)
    {oldObj newObj : Option Obj} {oldVals newVals : List K}
    (hov : evalIndexFunc f oldObj = some oldVals)
    (hnv : evalIndexFunc f newObj = some newVals)
    (key : T) (indices : Indexes K T)
    (hfast : ¬(newVals.length = 1 ∧ oldVals.length = 1 ∧
      newVals.head? = oldVals.head?))
    (hnd : oldVals.Nodup)
    (hni : NodupKeys (idxOf indices name))
    (hp : ∀ v ∈ oldVals, (mlookup (idxOf indices name) v).isSome) :
    ∃ idx', updateSingleIndex indexers name oldObj newObj key indices
        = some (minsert indices name idx') ∧
      (∀ v ∈ newVals, key ∈ bucketOf idx' v) ∧
      (∀ v ∈ oldVals, v ∉ newVals → key ∉ bucketOf idx' v) ∧
      (∀ v, mlookup idx' v =
        if v ∈ newVals then
          some (insert key (if v ∈ oldVals then
            (bucketOf (idxOf indices name) v).erase key
            else bucketOf (idxOf indices name) v))
        else if v ∈ oldVals then
          (if (bucketOf (idxOf indices name) v).erase key = ∅ then none
           else some ((bucketOf (idxOf indices name) v).erase key))
        else mlookup (idxOf indices name) v) := by
  obtain ⟨habort, hnd1, hch⟩ :=
    removeLoop_char key oldVals (idxOf indices name) hnd hni hp
  have heq : updateSingleIndex indexers name oldObj newObj key indices =
      some (minsert indices name
        (insertLoop key newVals (removeLoop key oldVals (idxOf indices name)).1)) := by
    rw [updateSingleIndex_eq key indices hf hov hnv, if_neg hfast, habort]
    simp
  have hrlb : ∀ v, bucketOf (removeLoop key oldVals (idxOf indices name)).1 v =
      if v ∈ oldVals then (bucketOf (idxOf indices name) v).erase key
      else bucketOf (idxOf indices name) v := by
    intro v
    rw [bucketOf, hch v]
    by_cases h1 : v ∈ oldVals
    · rw [if_pos h1]
      by_cases h2 : (bucketOf (idxOf indices name) v).erase key = ∅
      · rw [if_pos h2, if_pos h1, h2]
        rfl
      · rw [if_neg h2, if_pos h1]
        rfl
    · rw [if_neg h1, if_neg h1]
      rfl
  refine ⟨insertLoop key newVals (removeLoop key oldVals (idxOf indices name)).1,
    heq, ?_, ?_, ?_⟩
  · intro v hv
    rw [bucketOf, mlookup_insertLoop, if_pos hv]
    simp
  · intro v hvo hvn
    rw [bucketOf, mlookup_insertLoop, if_neg hvn, hch v, if_pos hvo]
    by_cases h2 : (bucketOf (idxOf indices name) v).erase key = ∅
    · rw [if_pos h2]
      simp
    · rw [if_neg h2]
      simp
  · intro v
    rw [mlookup_insertLoop]
    by_cases hvn : v ∈ newVals
    · rw [if_pos hvn, if_pos hvn, hrlb v]
    · rw [if_neg hvn, if_neg hvn, hch v]

/-- The index function of the C1 counterexample: old object `0` indexes to
`[5]`, new object `1` to `[7]`. -/
def c1CexF : IndexFunc ℕ ℕ := fun o => Except.ok (if o = 0 then [5] else [7])

/-- **C1** is false as stated: with old values `[5]` and new values `[7]`
(distinct singletons, so not the fast path) and no bucket yet present for
value `5`, `updateSingleIndex` returns with the bucket maps untouched —
in particular key `3` is NOT inserted into the bucket of new value `7`,
although the claim promises the insertion regardless of the missing old
bucket. -/
theorem c1_counterexample :
    updateSingleIndex [("J", c1CexF)] "J" (some 0) (some 1) (3 : ℕ)
        ([] : Indexes ℕ ℕ) = some [("J", [])] ∧
    evalIndexFunc c1CexF (some 0) = some [5] ∧
    evalIndexFunc c1CexF (some 1) = some [7] ∧
    (3 : ℕ) ∉ bucketOf (idxOf ([("J", [])] : Indexes ℕ ℕ) "J") 7 := by
  refine ⟨by decide, rfl, rfl, by decide⟩

/-- Witness for C1: concrete non-fast-path update where the old value's
bucket `{3, 4}` is present: key 3 is removed from bucket 5 and inserted
into the fresh bucket 7. -/
theorem c1_updateSingleIndex_behaviour_witness :
    ∃ idx', updateSingleIndex [("J", c1CexF)] "J" (some 0) (some 1) (3 : ℕ)
        [("J", [(5, ({3, 4} : Finset ℕ))])] = some (minsert [("J", [(5, ({3, 4} : Finset ℕ))])] "J" idx') ∧
      (∀ v ∈ [7], (3 : ℕ) ∈ bucketOf idx' v) ∧
      (∀ v ∈ [5], v ∉ [7] → (3 : ℕ) ∉ bucketOf idx' v) ∧
      (∀ v, mlookup idx' v =
        if v ∈ [7] then
          some (insert 3 (if v ∈ [5] then
            (bucketOf (idxOf [("J", [(5, ({3, 4} : Finset ℕ))])] "J") v).erase 3
            else bucketOf (idxOf [("J", [(5, ({3, 4} : Finset ℕ))])] "J") v))
        else if v ∈ [5] then
          (if (bucketOf (idxOf [("J", [(5, ({3, 4} : Finset ℕ))])] "J") v).erase 3 = ∅ then none
           else some ((bucketOf (idxOf [("J", [(5, ({3, 4} : Finset ℕ))])] "J") v).erase 3))
        else mlookup (idxOf [("J", [(5, ({3, 4} : Finset ℕ))])] "J") v) :=
  c1_updateSingleIndex_behaviour
    (show mlookup [("J", c1CexF)] "J" = some c1CexF from rfl)
    (show evalIndexFunc c1CexF (some 0) = some [5] from rfl)
    (show evalIndexFunc c1CexF (some 1) = some [7] from rfl)
    3 [("J", [(5, ({3, 4} : Finset ℕ))])] (by decide) (by decide)
    (by rw [NodupKeys]; decide) (by decide)

/-! ## Claims C7 and C8: index registration -/

/-- **C7**: registering an already-used index name (via `AddIndexer`, or
via `AddIndexers` when any name of the batch conflicts) yields the
conflict error and produces no new registry or store state (the functional
result carries none), while a conflict-free registration installs the
whole batch — all or nothing. -/
theorem c7_register_conflict_atomic {K T Obj : Type} [DecidableEq K] [DecidableEq T]
    (indexers : Indexers K Obj) (s : ThreadSafeMap K T Obj) :
    (∀ (name : String) (f : IndexFunc K Obj), (mlookup indexers name).isSome →
      tsmAddIndexer indexers s name f = RegResult.conflict) ∧
    (∀ newIndexers : Indexers K Obj,
      (∃ n ∈ newIndexers.map Prod.fst, (mlookup indexers n).isSome) →
      tsmAddIndexers indexers s newIndexers = RegResult.conflict) ∧
    (∀ (name : String) (f : IndexFunc K Obj), mlookup indexers name = none →
      addIndexer indexers name f = Except.ok (minsert indexers name f)) ∧
    (∀ newIndexers : Indexers K Obj,
      (∀ n ∈ newIndexers.map Prod.fst, mlookup indexers n = none) →
      addIndexers indexers newIndexers = Except.ok (minsertAll indexers newIndexers)) := by
  refine ⟨?_, ?_, ?_, ?_⟩
  · intro name f h
    rw [tsmAddIndexer, addIndexer, if_pos h]
  · intro newIndexers h
    have hany : (newIndexers.map Prod.fst).any
        (fun n => (mlookup indexers n).isSome) = true := by
      rw [List.any_eq_true]
      obtain ⟨n, hn, hsome⟩ := h
      exact ⟨n, hn, hsome⟩
    rw [tsmAddIndexers, addIndexers, if_pos hany]
  · intro name f h
    rw [addIndexer, if_neg (by rw [h]; simp)]
  · intro newIndexers h
    have hany : ¬ ((newIndexers.map Prod.fst).any
        (fun n => (mlookup indexers n).isSome) = true) := by
      rw [List.any_eq_true]
      rintro ⟨n, hn, hsome⟩
      rw [h n hn] at hsome
      cases hsome
    rw [addIndexers, if_neg hany]

/-- A placeholder index function for the C7 witness registry. -/
def c7WitnessF : IndexFunc ℕ ℕ := fun o => Except.ok [o]

/-- Witness for C7: a one-entry registry; re-registering its name "A"
conflicts (alone or in a batch), while the fresh name "B" registers. -/
theorem c7_register_conflict_atomic_witness :
    ((mlookup [("A", c7WitnessF)] "A").isSome ∧
      tsmAddIndexer [("A", c7WitnessF)] (tsmInit : ThreadSafeMap ℕ ℕ ℕ)
        "A" c7WitnessF = RegResult.conflict) ∧
    ((∃ n ∈ ([("A", c7WitnessF)] : Indexers ℕ ℕ).map Prod.fst,
        (mlookup [("A", c7WitnessF)] n).isSome) ∧
      tsmAddIndexers [("A", c7WitnessF)] (tsmInit : ThreadSafeMap ℕ ℕ ℕ)
        [("A", c7WitnessF)] = RegResult.conflict) ∧
    (mlookup ([("A", c7WitnessF)] : Indexers ℕ ℕ) "B" = none ∧
      addIndexer [("A", c7WitnessF)] "B" c7WitnessF =
        Except.ok (minsert [("A", c7WitnessF)] "B" c7WitnessF)) := by
  have h := c7_register_conflict_atomic [("A", c7WitnessF)]
    (tsmInit : ThreadSafeMap ℕ ℕ ℕ)
  have hsome : (mlookup [("A", c7WitnessF)] "A").isSome := rfl
  have hnone : mlookup ([("A", c7WitnessF)] : Indexers ℕ ℕ) "B" = none := rfl
  exact ⟨⟨hsome, h.1 "A" c7WitnessF hsome⟩,
    ⟨⟨"A", by simp, hsome⟩, h.2.1 [("A", c7WitnessF)] ⟨"A", by simp, hsome⟩⟩,
    ⟨hnone, h.2.2.1 "B" c7WitnessF hnone⟩⟩

/-- The back-fill loop panics as soon as the index function fails on some
stored item (and a failing item exists exactly when it is reached, whatever
the map iteration order). -/
theorem backfillLoop_none_of_fail {K T Obj : Type} [DecidableEq K] [DecidableEq T]
    {indexers : Indexers K Obj} {name : String} {f : IndexFunc K Obj}
    (hf : mlookup indexers name = some f) :
    ∀ (items : List (T × Obj)) (ind : Indexes K T),
      (∃ p ∈ items, ∃ e, f p.2 = Except.error e) →
      backfillLoop indexers name items ind = none := by
  intro items
  induction items with
  | nil =>
      rintro ind ⟨p, hp, _⟩
      simp at hp
  | cons hd rest ih =>
      rintro ind ⟨p, hp, e, he⟩
      obtain ⟨key, item⟩ := hd
      rw [backfillLoop]
      rcases hfi : f item with e' | vs
      · -- the head item itself fails: updateSingleIndex panics at once
        have hnone : updateSingleIndex indexers name none (some item) key ind
            = none := by
          rw [updateSingleIndex, hf]
          simp only [Option.bind_eq_bind, Option.some_bind]
          rw [show evalIndexFunc f (none : Option Obj) = some [] from rfl]
          simp only [Option.some_bind]
          rw [show evalIndexFunc f (some item) = none by
            simp [evalIndexFunc, hfi]]
          rfl
        rw [hnone]
        rfl
      · -- the head item indexes fine, so the failing item is further on
        have hsucc : (updateSingleIndex indexers name none (some item) key ind).isSome := by
          rw [updateSingleIndex_eq key ind hf
            (show evalIndexFunc f (none : Option Obj) = some [] from rfl)
            (show evalIndexFunc f (some item) = some vs by
              simp [evalIndexFunc, hfi])]
          split
          · simp
          · split <;> simp
        obtain ⟨ind1, hind1⟩ := Option.isSome_iff_exists.mp hsucc
        rw [hind1]
        simp only [Option.bind_eq_bind, Option.some_bind]
        rcases List.mem_cons.mp hp with rfl | hprest
        · rw [hfi] at he
          cases he
        · exact ih ind1 ⟨p, hprest, e, he⟩

/-- `updateSingleIndex` with no old object panics outright when the index
function fails on the new object (part_002 lines 236-239). -/
theorem updateSingleIndex_none_of_fail {K T Obj : Type} [DecidableEq K] [DecidableEq T]
    {indexers : Indexers K Obj} {name : String} {f : IndexFunc K Obj}
    (hf : mlookup indexers name = some f) {item : Obj} {e : String}
    (hfail : f item = Except.error e) (key : T) (ind : Indexes K T) :
    updateSingleIndex indexers name none (some item) key ind = none := by
  rw [updateSingleIndex, hf]
  simp only [Option.bind_eq_bind, Option.some_bind]
  rw [show evalIndexFunc f (none : Option Obj) = some [] from rfl]
  simp only [Option.some_bind]
  rw [show evalIndexFunc f (some item) = none by simp [evalIndexFunc, hfail]]
  rfl

/-- The inner loop of the `AddIndexers` back-fill panics as soon as any of
the new index functions fails on the item at hand. -/
theorem updateIndicesAux_none_of_fail {K T Obj : Type} [DecidableEq K] [DecidableEq T]
    {indexers : Indexers K Obj} {item : Obj} {key : T} :
    ∀ (names : List String) (ind : Indexes K T),
      (∃ name ∈ names, ∃ f, mlookup indexers name = some f ∧
        ∃ e, f item = Except.error e) →
      updateIndicesAux indexers names none (some item) key ind = none := by
  intro names
  induction names with
  | nil =>
      rintro ind ⟨name, hname, _⟩
      simp at hname
  | cons nm rest ih =>
      rintro ind ⟨name, hname, f, hf, e, he⟩
      rw [updateIndicesAux]
      rcases hus : updateSingleIndex indexers nm none (some item) key ind
          with _ | ind1
      · rfl
      · simp only [Option.bind_eq_bind, Option.some_bind]
        rcases List.mem_cons.mp hname with rfl | hnrest
        · rw [updateSingleIndex_none_of_fail hf he key ind] at hus
          cases hus
        · exact ih ind1 ⟨name, hnrest, f, hf, e, he⟩

/-- A key absent from the batch looks up past `minsertAll` unchanged. -/
theorem mlookup_minsertAll_not_mem {α β : Type} [DecidableEq α] :
    ∀ (new : List (α × β)) (l : List (α × β)) (k : α),
      k ∉ new.map Prod.fst → mlookup (minsertAll l new) k = mlookup l k := by
  intro new
  induction new with
  | nil =>
      intro l k _
      rfl
  | cons hd rest ih =>
      intro l k hk
      obtain ⟨a, b⟩ := hd
      have hka : k ≠ a := fun h => hk (by simp [h])
      have hkrest : k ∉ rest.map Prod.fst := fun h => hk (by simp [h])
      rw [show minsertAll l ((a, b) :: rest) = minsertAll (minsert l a b) rest
        from rfl]
      rw [ih (minsert l a b) k hkrest]
      exact mlookup_minsert_ne l b hka

/-- With duplicate-free batch names (true of the Go map that carries
them), `minsertAll` makes every supplied binding visible. -/
theorem mlookup_minsertAll {α β : Type} [DecidableEq α] :
    ∀ (new : List (α × β)) (l : List (α × β)) (k : α) (v : β),
      NodupKeys new → (k, v) ∈ new → mlookup (minsertAll l new) k = some v := by
  intro new
  induction new with
  | nil =>
      intro l k v _ hmem
      simp at hmem
  | cons hd rest ih =>
      intro l k v hnd hmem
      obtain ⟨a, b⟩ := hd
      have hnd' := List.nodup_cons.mp hnd
      rw [show minsertAll l ((a, b) :: rest) = minsertAll (minsert l a b) rest
        from rfl]
      rcases List.mem_cons.mp hmem with heq | hmem'
      · have hka : k = a := congrArg Prod.fst heq
        have hvb : v = b := congrArg Prod.snd heq
        rw [hka, hvb, mlookup_minsertAll_not_mem rest (minsert l a b) a hnd'.1]
        exact mlookup_minsert_self l a b
      · exact ih (minsert l a b) k v hnd'.2 hmem'

/-- The `AddIndexers` back-fill double loop panics as soon as any new
index function fails on any stored item. -/
theorem backfillAllLoop_none_of_fail {K T Obj : Type} [DecidableEq K] [DecidableEq T]
    {indexers : Indexers K Obj} {newNames : List String} :
    ∀ (items : List (T × Obj)) (ind : Indexes K T),
      (∃ p ∈ items, ∃ name ∈ newNames, ∃ f, mlookup indexers name = some f ∧
        ∃ e, f p.2 = Except.error e) →
      backfillAllLoop indexers newNames items ind = none := by
  intro items
  induction items with
  | nil =>
      rintro ind ⟨p, hp, _⟩
      simp at hp
  | cons hd rest ih =>
      rintro ind ⟨p, hp, name, hname, f, hf, e, he⟩
      obtain ⟨key, item⟩ := hd
      rw [backfillAllLoop]
      rcases hui : updateIndicesAux indexers newNames none (some item) key ind
          with _ | ind1
      · rfl
      · simp only [Option.bind_eq_bind, Option.some_bind]
        rcases List.mem_cons.mp hp with rfl | hprest
        · have hnone : updateIndicesAux indexers newNames none (some item) key ind
              = none :=
            updateIndicesAux_none_of_fail newNames ind ⟨name, hname, f, hf, e, he⟩
          rw [hnone] at hui
          cases hui
        · exact ih ind1 ⟨p, hprest, name, hname, f, hf, e, he⟩

/-- **C8** (amended): when an index function fails while back-filling a
newly registered index over a non-empty store — through `AddIndexer` with
a fresh name, or through `AddIndexers` with a conflict-free batch — the
registration panics inside `updateSingleIndex`, the same unrecoverable
abort as steady-state `updateIndices` failures, rather than returning the
failure as a recoverable error; the only recoverable error of
registration is the name conflict. -/
theorem c8_backfill_failure_panics {K T Obj : Type} [DecidableEq K] [DecidableEq T]
    (indexers : Indexers K Obj) (s : ThreadSafeMap K T Obj)
    (name : String) (f : IndexFunc K Obj) (newIndexers : Indexers K Obj) :
    (mlookup indexers name = none →
      (∃ p ∈ s.items, ∃ e, f p.2 = Except.error e) →
      tsmAddIndexer indexers s name f = RegResult.panicked) ∧
    (NodupKeys newIndexers →
      (∀ n ∈ newIndexers.map Prod.fst, mlookup indexers n = none) →
      (∃ p ∈ s.items, ∃ nm, ∃ fb, (nm, fb) ∈ newIndexers ∧
        ∃ e, fb p.2 = Except.error e) →
      tsmAddIndexers indexers s newIndexers = RegResult.panicked) := by
  constructor
  · intro hfresh hfail
    rw [tsmAddIndexer, addIndexer, if_neg (by rw [hfresh]; simp)]
    simp only [backfillLoop_none_of_fail (mlookup_minsert_self indexers name f)
      s.items s.indices hfail]
  · intro hbatchnd hbatchfresh hbatchfail
    have hcond : ¬((newIndexers.map Prod.fst).any
        (fun n => (mlookup indexers n).isSome) = true) := by
      simp only [List.any_eq_true]
      rintro ⟨n, hn, hsome⟩
      rw [hbatchfresh n hn] at hsome
      simp at hsome
    rw [tsmAddIndexers, addIndexers, if_neg hcond]
    dsimp only
    have hnone : backfillAllLoop (minsertAll indexers newIndexers)
        (newIndexers.map Prod.fst) s.items s.indices = none := by
      apply backfillAllLoop_none_of_fail
      obtain ⟨p, hp, nm, fb, hmem, e, he⟩ := hbatchfail
      exact ⟨p, hp, nm, List.mem_map.mpr ⟨(nm, fb), hmem, rfl⟩, fb,
        mlookup_minsertAll newIndexers indexers nm fb hbatchnd hmem, e, he⟩
    rw [hnone]

/-- The always-failing index function of the C8 counterexample. -/
def c8CexF : IndexFunc ℕ ℕ := fun _ => Except.error "boom"

/-- **C8** is false as stated: registering the fresh index name "B" over a
store already holding one item, with an index function that fails on that
item, does not return a recoverable error — the back-fill panics (the
registration error return is reserved for name conflicts alone). -/
theorem c8_counterexample :
    mlookup ([] : Indexers ℕ ℕ) "B" = none ∧
    tsmAddIndexer ([] : Indexers ℕ ℕ) (⟨[(0, 0)], []⟩ : ThreadSafeMap ℕ ℕ ℕ)
      "B" c8CexF = RegResult.panicked :=
  ⟨rfl, rfl⟩

/-- Witness for C8: the amended panic statement at the concrete
counterexample input, through both registration paths. -/
theorem c8_backfill_failure_panics_witness :
    (tsmAddIndexer ([] : Indexers ℕ ℕ) (⟨[(0, 0)], []⟩ : ThreadSafeMap ℕ ℕ ℕ)
      "B" c8CexF = RegResult.panicked) ∧
    (tsmAddIndexers ([] : Indexers ℕ ℕ) (⟨[(0, 0)], []⟩ : ThreadSafeMap ℕ ℕ ℕ)
      [("B", c8CexF)] = RegResult.panicked) :=
  ⟨(c8_backfill_failure_panics [] ⟨[(0, 0)], []⟩ "B" c8CexF [("B", c8CexF)]).1
      rfl ⟨(0, 0), by simp, "boom", rfl⟩,
    (c8_backfill_failure_panics [] ⟨[(0, 0)], []⟩ "B" c8CexF [("B", c8CexF)]).2
      (show (["B"] : List String).Nodup by decide) (fun n _ => rfl)
      ⟨(0, 0), by simp, "B", c8CexF, List.mem_singleton.mpr rfl, "boom", rfl⟩⟩

/-! ## Permutation and frame lemmas for the `container/heap` model -/

theorem swap_set_perm {α : Type} [DecidableEq α] (l : List α) (i j : ℕ)
    (hi : i < l.length) (hj : j < l.length) :
    ((l.set i l[j]).set j l[i]).Perm l := by
  rw [List.perm_iff_count]
  intro x
  have hjl : j < (l.set i l[j]).length := by simpa using hj
  rw [List.count_set _ _ _ _ hjl, List.count_set _ _ _ _ hi]
  have hgs' : (l.set i l[j])[j] = l[j] := by
    by_cases hij : i = j
    · subst hij
      simp
    · simp [List.getElem_set, hij]
  rw [hgs']
  have hmemi : l[i] = x → 1 ≤ List.count x l := fun hex =>
    List.count_pos_iff.mpr (hex ▸ List.getElem_mem hi)
  have hmemj : l[j] = x → 1 ≤ List.count x l := fun hex =>
    List.count_pos_iff.mpr (hex ▸ List.getElem_mem hj)
  simp only [beq_iff_eq]
  split_ifs with h1 h2 <;>
    first
      | omega
      | (have hc1 := hmemi (by assumption); omega)

theorem hswap_perm {T : Type} [DecidableEq T] (h : Heap T) (i j : ℕ) :
    (hswap h i j).Perm h := by
  rcases hia : h[i]? with _ | a
  · simp [hswap, hia]
  · rcases hjb : h[j]? with _ | b
    · simp [hswap, hia, hjb]
    · have heq : hswap h i j = (h.set i b).set j a := by
        simp [hswap, hia, hjb]
      obtain ⟨hi, hia'⟩ := List.getElem?_eq_some.mp hia
      obtain ⟨hj, hjb'⟩ := List.getElem?_eq_some.mp hjb
      rw [heq, ← hia', ← hjb']
      exact swap_set_perm h i j hi hj

theorem hswap_length {T : Type} [DecidableEq T] (h : Heap T) (i j : ℕ) :
    (hswap h i j).length = h.length :=
  (hswap_perm h i j).length_eq

theorem hswap_getElem_ne {T : Type} (h : Heap T) (i j m : ℕ)
    (hmi : m ≠ i) (hmj : m ≠ j) : (hswap h i j)[m]? = h[m]? := by
  rcases hia : h[i]? with _ | a
  · simp [hswap, hia]
  · rcases hjb : h[j]? with _ | b
    · simp [hswap, hia, hjb]
    · have heq : hswap h i j = (h.set i b).set j a := by
        simp [hswap, hia, hjb]
      rw [heq, List.getElem?_set_ne (fun hh => hmj hh.symm),
        List.getElem?_set_ne (fun hh => hmi hh.symm)]

theorem hswap_getElem_right {T : Type} (h : Heap T) (i j : ℕ)
    (hi : i < h.length) (hj : j < h.length) : (hswap h i j)[j]? = h[i]? := by
  have hia : h[i]? = some (h[i]) := List.getElem?_eq_getElem hi
  have hjb : h[j]? = some (h[j]) := List.getElem?_eq_getElem hj
  have heq : hswap h i j = (h.set i (h[j])).set j (h[i]) := by
    simp [hswap, hia, hjb]
  rw [heq, List.getElem?_set_self (by simpa using hj), hia]

theorem hup_perm {T : Type} [DecidableEq T] (h : Heap T) (j : ℕ) :
    (hup h j).Perm h := by
  rw [hup]
  dsimp only
  split
  · exact List.Perm.refl _
  · split
    · exact (hup_perm _ _).trans (hswap_perm h _ j)
    · exact List.Perm.refl _
termination_by j
decreasing_by omega

theorem hup_getElem_gt {T : Type} [DecidableEq T] (h : Heap T) (j m : ℕ)
    (hm : j < m) : (hup h j)[m]? = h[m]? := by
  rw [hup]
  dsimp only
  split
  · rfl
  · split
    · rw [hup_getElem_gt _ _ _ (by omega)]
      exact hswap_getElem_ne h _ j m (by omega) (by omega)
    · rfl
termination_by j
decreasing_by omega

theorem hdownAux_perm {T : Type} [DecidableEq T] (h : Heap T) (i n : ℕ) :
    ((hdownAux h i n).1).Perm h := by
  rw [hdownAux]
  dsimp only
  split
  · exact List.Perm.refl _
  · split
    · exact (hdownAux_perm _ _ _).trans (hswap_perm _ _ _)
    · exact List.Perm.refl _
termination_by n - i
decreasing_by
  have h1 : i < hchild h i n := hchild_gt h i n
  have h2 : hchild h i n < n := hchild_lt h i n (by omega)
  omega

theorem hdownAux_getElem_ge {T : Type} [DecidableEq T] (h : Heap T) (i n m : ℕ)
    (hin : i < n) (hm : n ≤ m) : ((hdownAux h i n).1)[m]? = h[m]? := by
  rw [hdownAux]
  dsimp only
  split
  · rfl
  · have hc1 : i < hchild h i n := hchild_gt h i n
    have hc2 : hchild h i n < n := hchild_lt h i n (by omega)
    split
    · rw [hdownAux_getElem_ge _ _ _ _ hc2 hm]
      exact hswap_getElem_ne h i _ m (by omega) (by omega)
    · rfl
termination_by n - i
decreasing_by
  have h1 : i < hchild h i n := hchild_gt h i n
  have h2 : hchild h i n < n := hchild_lt h i n (by omega)
  omega

theorem hfix_perm {T : Type} [DecidableEq T] (h : Heap T) (i : ℕ) :
    (hfix h i).Perm h := by
  rw [hfix, hdown]
  split
  · exact hdownAux_perm h i h.length
  · exact (hup_perm _ _).trans (hdownAux_perm h i h.length)

theorem hpush_perm {T : Type} [DecidableEq T] (h : Heap T) (e : T × Nat) :
    (hpush h e).Perm (h ++ [e]) := by
  rw [hpush]
  exact hup_perm _ _

theorem hpop_spec {T : Type} [DecidableEq T] (h : Heap T) (hne : 0 < h.length) :
    (hpop h).2 = some (h[0]) ∧ ((hpop h).1 ++ [h[0]]).Perm h := by
  have h0 : h[0]? = some (h[0]) := List.getElem?_eq_getElem hne
  have hn : h.length - 1 < h.length := by omega
  have hlen1 : (hswap h 0 (h.length - 1)).length = h.length := hswap_length h 0 _
  have hperm2 : ((hdownAux (hswap h 0 (h.length - 1)) 0 (h.length - 1)).1).Perm h :=
    (hdownAux_perm _ 0 _).trans (hswap_perm h 0 _)
  have hlen2 : ((hdownAux (hswap h 0 (h.length - 1)) 0 (h.length - 1)).1).length
      = h.length := hperm2.length_eq
  have hat : ((hdownAux (hswap h 0 (h.length - 1)) 0 (h.length - 1)).1)[h.length - 1]?
      = some (h[0]) := by
    rcases Nat.eq_zero_or_pos (h.length - 1) with hz | hpos
    · rw [hz]
      have hstep : hdownAux (hswap h 0 0) 0 0 = (hswap h 0 0, 0) := by
        rw [hdownAux]
        simp
      rw [hstep]
      show (hswap h 0 0)[0]? = some (h[0])
      rw [hswap_getElem_right h 0 0 hne hne]
      exact h0
    · rw [hdownAux_getElem_ge (hswap h 0 (h.length - 1)) 0 (h.length - 1)
          (h.length - 1) hpos (le_refl _),
        hswap_getElem_right h 0 (h.length - 1) hne hn]
      exact h0
  have hne2 : (hdownAux (hswap h 0 (h.length - 1)) 0 (h.length - 1)).1 ≠ [] := by
    intro hcon
    rw [hcon] at hlen2
    simp at hlen2
    omega
  have hlast : ((hdownAux (hswap h 0 (h.length - 1)) 0 (h.length - 1)).1).getLast?
      = some (h[0]) := by
    rw [List.getLast?_eq_getElem?, hlen2]
    exact hat
  have hlasteq : ((hdownAux (hswap h 0 (h.length - 1)) 0 (h.length - 1)).1).getLast hne2
      = h[0] := by
    have := List.getLast?_eq_getLast _ hne2
    rw [this] at hlast
    exact (Option.some.injEq _ _ ▸ hlast)
  constructor
  · rw [hpop]
    dsimp only
    exact hlast
  · rw [hpop]
    dsimp only
    have hdecomp := List.dropLast_append_getLast hne2
    rw [hlasteq] at hdecomp
    rw [hdecomp]
    exact hperm2

theorem hremove_spec {T : Type} [DecidableEq T] (h : Heap T) (i : ℕ)
    (hi : i < h.length) : ((hremove h i) ++ [h[i]]).Perm h := by
  have hn : h.length - 1 < h.length := by omega
  by_cases hin : i = h.length - 1
  · -- removing the last entry: no swap, just drop the last element
    have hne : h ≠ [] := by
      intro hcon
      rw [hcon] at hi
      simp at hi
    have hlasti : h.getLast hne = h[i] := by
      have h1 := List.getLast?_eq_getLast h hne
      rw [List.getLast?_eq_getElem?] at h1
      have h2 : h[h.length - 1]? = some (h[h.length - 1]) :=
        List.getElem?_eq_getElem hn
      rw [h2] at h1
      have h3 : h[h.length - 1] = h[i] := by
        congr 1
        omega
      rw [h3] at h1
      exact (Option.some.injEq _ _ ▸ h1).symm
    have heq : hremove h i = h.dropLast := by
      rw [hremove]
      simp [hin]
    rw [heq, ← hlasti, List.dropLast_append_getLast hne]
  · -- the entry is swapped with the last, the heap re-fixed, last dropped
    have hiltn : i < h.length - 1 := by omega
    have hperm1 : (hswap h i (h.length - 1)).Perm h := hswap_perm h i _
    have heq : hremove h i =
        (if (hdown (hswap h i (h.length - 1)) i (h.length - 1)).2
          then (hdown (hswap h i (h.length - 1)) i (h.length - 1)).1
          else hup (hdown (hswap h i (h.length - 1)) i (h.length - 1)).1 i).dropLast := by
      rw [hremove]
      dsimp only
      rw [if_pos hin]
    have hperm3 : (if (hdown (hswap h i (h.length - 1)) i (h.length - 1)).2
        then (hdown (hswap h i (h.length - 1)) i (h.length - 1)).1
        else hup (hdown (hswap h i (h.length - 1)) i (h.length - 1)).1 i).Perm h := by
      by_cases hm : (hdown (hswap h i (h.length - 1)) i (h.length - 1)).2
      · rw [if_pos hm]
        exact (hdownAux_perm _ i _).trans hperm1
      · rw [if_neg hm]
        exact (hup_perm _ i).trans ((hdownAux_perm _ i _).trans hperm1)
    have hat : (if (hdown (hswap h i (h.length - 1)) i (h.length - 1)).2
        then (hdown (hswap h i (h.length - 1)) i (h.length - 1)).1
        else hup (hdown (hswap h i (h.length - 1)) i (h.length - 1)).1 i)[h.length - 1]?
        = some (h[i]) := by
      have hbase : ((hdownAux (hswap h i (h.length - 1)) i (h.length - 1)).1)[h.length - 1]?
          = some (h[i]) := by
        rw [hdownAux_getElem_ge (hswap h i (h.length - 1)) i (h.length - 1)
            (h.length - 1) hiltn (le_refl _),
          hswap_getElem_right h i (h.length - 1) hi hn]
        exact List.getElem?_eq_getElem hi
      by_cases hm : (hdown (hswap h i (h.length - 1)) i (h.length - 1)).2
      · rw [if_pos hm]
        exact hbase
      · rw [if_neg hm]
        rw [hup_getElem_gt _ i (h.length - 1) hiltn]
        exact hbase
    set h3 := if (hdown (hswap h i (h.length - 1)) i (h.length - 1)).2
        then (hdown (hswap h i (h.length - 1)) i (h.length - 1)).1
        else hup (hdown (hswap h i (h.length - 1)) i (h.length - 1)).1 i with hh3
    have hlen3 : h3.length = h.length := hperm3.length_eq
    have hne3 : h3 ≠ [] := by
      intro hcon
      rw [hcon] at hlen3
      simp at hlen3
      omega
    have hlast3 : h3.getLast? = some (h[i]) := by
      rw [List.getLast?_eq_getElem?, hlen3]
      exact hat
    have hlasteq : h3.getLast hne3 = h[i] := by
      have hgl := List.getLast?_eq_getLast h3 hne3
      rw [hgl] at hlast3
      exact (Option.some.injEq _ _ ▸ hlast3)
    have hdecomp := List.dropLast_append_getLast hne3
    rw [hlasteq] at hdecomp
    rw [heq, hdecomp]
    exact hperm3

/-! ## Policy-level facts -/

theorem lfuFindIdx_some_spec {T : Type} [DecidableEq T] {h : Heap T} {key : T}
    {i : ℕ} (hfi : lfuFindIdx h key = some i) :
    ∃ hi : i < h.length, (h[i]).1 = key := by
  have hm := List.findIdx?_of_eq_some hfi
  rcases hgi : h[i]? with _ | a
  · rw [hgi] at hm
    cases hm
  · rw [hgi] at hm
    obtain ⟨hi, hia⟩ := List.getElem?_eq_some.mp hgi
    refine ⟨hi, ?_⟩
    rw [hia]
    simpa using hm

theorem lfuFindIdx_none_iff {T : Type} [DecidableEq T] (h : Heap T) (key : T) :
    lfuFindIdx h key = none ↔ key ∉ h.map Prod.fst := by
  rw [lfuFindIdx, List.findIdx?_eq_none_iff]
  simp only [decide_eq_false_iff_not, List.mem_map]
  constructor
  · rintro ha ⟨e, he, hk⟩
    exact ha e he hk
  · intro ha e he hk
    exact ha ⟨e, he, hk⟩

/-- With pairwise-distinct keys, positions are determined by keys. -/
theorem heap_key_pos_inj {T : Type} {h : Heap T}
    (hnd : (h.map Prod.fst).Nodup) {i j : ℕ}
    (hi : i < h.length) (hj : j < h.length)
    (hk : (h[i]).1 = (h[j]).1) : i = j := by
  have hmi : i < (h.map Prod.fst).length := by simpa using hi
  have hmj : j < (h.map Prod.fst).length := by simpa using hj
  have : (h.map Prod.fst)[i] = (h.map Prod.fst)[j] := by
    simpa using hk
  exact (hnd.getElem_inj_iff).mp this

/-- `Policy.WF`: the tracked keys are pairwise distinct (true of every
reachable state — Go's `cache` maps hold at most one entry per key). -/
def Policy.WF {T : Type} : Policy T → Prop
  | .fifo s => s.list.Nodup
  | .lru s => s.list.Nodup
  | .lfu s => (s.heap.map Prod.fst).Nodup

/-- The fixed capacity of a policy. -/
def Policy.capacityI {T : Type} : Policy T → Int
  | .fifo s => s.capacity
  | .lru s => s.capacity
  | .lfu s => s.capacity

theorem policy_size_eq_keys_length {T : Type} (p : Policy T) :
    p.size = p.keys.length := by
  cases p <;> simp [Policy.size, Policy.keys]

/-- Removing one occurrence from a duplicate-free list, phrased through a
permutation with the removed element re-appended. -/
theorem perm_snoc_spec {α : Type} [DecidableEq α] {l1 l : List α} {e : α}
    (hp : (l1 ++ [e]).Perm l) (hnd : l.Nodup) :
    l1.Nodup ∧ e ∉ l1 ∧ ∀ k', k' ∈ l1 ↔ (k' ∈ l ∧ k' ≠ e) := by
  have hnd1 : (l1 ++ [e]).Nodup := hp.nodup_iff.mpr hnd
  have hl1 : l1.Nodup := (List.nodup_append.mp hnd1).1
  have hdisj : e ∉ l1 := by
    intro hmem
    exact (List.nodup_append.mp hnd1).2.2 hmem (by simp)
  refine ⟨hl1, hdisj, ?_⟩
  intro k'
  constructor
  · intro hk
    refine ⟨hp.mem_iff.mp (by simp [hk]), ?_⟩
    intro hke
    exact hdisj (hke ▸ hk)
  · rintro ⟨hkl, hke⟩
    have : k' ∈ l1 ++ [e] := hp.mem_iff.mpr hkl
    rcases List.mem_append.mp this with h1 | h1
    · exact h1
    · simp at h1
      exact absurd h1 hke

theorem list_set_self {α : Type} (l : List α) (i : ℕ) (h : i < l.length) :
    l.set i (l[i]) = l := by
  apply List.ext_getElem
  · simp
  · intro n h1 h2
    rw [List.getElem_set]
    split
    · next he => subst he; rfl
    · rfl

theorem policy_put_spec {T : Type} [DecidableEq T] (z : T) (p : Policy T) (k : T)
    (hwf : p.WF) :
    (p.put z k).1.WF ∧
    (p.put z k).1.capacityI = p.capacityI ∧
    ((p.put z k).2.2 = false →
      (∀ k', k' ∈ (p.put z k).1.keys ↔ (k' ∈ p.keys ∨ k' = k)) ∧
      (k ∈ p.keys ∨ (p.size : Int) < p.capacityI ∨ p.size = 0)) ∧
    ((p.put z k).2.2 = true →
      (p.put z k).2.1 ∈ p.keys ∧ k ∉ p.keys ∧
      (p.size : Int) ≥ p.capacityI ∧ 0 < p.size ∧
      (∀ k', k' ∈ (p.put z k).1.keys ↔
        ((k' ∈ p.keys ∧ k' ≠ (p.put z k).2.1) ∨ k' = k))) ∧
    (k ∈ p.keys → (p.put z k).2 = (z, false)) := by
  cases p with
  | fifo s =>
      obtain ⟨cap, l⟩ := s
      have hwf' : l.Nodup := hwf
      by_cases hk : k ∈ l
      · have hput : fifoPut z ⟨cap, l⟩ k = (⟨cap, l⟩, z, false) := by
          rw [fifoPut, if_pos hk]
        rw [Policy.put, hput]
        refine ⟨hwf', rfl, ?_, ?_, fun _ => rfl⟩
        · intro _
          refine ⟨?_, Or.inl hk⟩
          intro k'
          show k' ∈ l ↔ k' ∈ l ∨ k' = k
          constructor
          · exact Or.inl
          · rintro (h | rfl)
            · exact h
            · exact hk
        · intro hcon
          cases hcon
      · by_cases hcap : (l.length : Int) ≥ cap
        · rcases l with _ | ⟨e, rest⟩
          · have hput : fifoPut z ⟨cap, []⟩ k = (⟨cap, [k]⟩, z, false) := by
              simp [fifoPut, fifoEvict, hk, hcap]
            rw [Policy.put, hput]
            refine ⟨List.nodup_singleton k, rfl, ?_, ?_, ?_⟩
            · intro _
              refine ⟨?_, Or.inr (Or.inr rfl)⟩
              intro k'
              show k' ∈ [k] ↔ k' ∈ ([] : List T) ∨ k' = k
              simp
            · intro hcon
              cases hcon
            · intro hmem
              exact absurd hmem hk
          · have hcap2 : cap ≤ (rest.length : Int) + 1 := by
              have := hcap
              simp at this
              omega
            have hput : fifoPut z ⟨cap, e :: rest⟩ k =
                (⟨cap, rest ++ [k]⟩, e, true) := by
              simp [fifoPut, fifoEvict, hk, hcap2]
            have hknotrest : k ∉ rest := fun hmem =>
              hk (List.mem_cons_of_mem e hmem)
            have hndrest : rest.Nodup ∧ e ∉ rest :=
              ⟨(List.nodup_cons.mp hwf').2, (List.nodup_cons.mp hwf').1⟩
            rw [Policy.put, hput]
            refine ⟨?_, rfl, ?_, ?_, ?_⟩
            · show (rest ++ [k]).Nodup
              rw [List.nodup_append]
              exact ⟨hndrest.1, List.nodup_singleton k,
                fun a ha hb => by simp at hb; exact hknotrest (hb ▸ ha)⟩
            · intro hcon
              cases hcon
            · intro _
              refine ⟨List.mem_cons_self e rest, hk, hcap, by show 0 < (e :: rest).length; simp, ?_⟩
              intro k'
              show k' ∈ rest ++ [k] ↔ (k' ∈ e :: rest ∧ k' ≠ e) ∨ k' = k
              constructor
              · intro hm
                rcases List.mem_append.mp hm with h1 | h1
                · exact Or.inl ⟨List.mem_cons_of_mem e h1,
                    fun hke => hndrest.2 (hke ▸ h1)⟩
                · simp at h1
                  exact Or.inr h1
              · rintro (⟨h1, h2⟩ | rfl)
                · rcases List.mem_cons.mp h1 with rfl | h3
                  · exact absurd rfl h2
                  · exact List.mem_append.mpr (Or.inl h3)
                · simp
            · intro hmem
              exact absurd hmem hk
        · have hput : fifoPut z ⟨cap, l⟩ k = (⟨cap, l ++ [k]⟩, z, false) := by
            rw [fifoPut, if_neg hk, if_neg hcap]
          rw [Policy.put, hput]
          refine ⟨?_, rfl, ?_, ?_, ?_⟩
          · show (l ++ [k]).Nodup
            rw [List.nodup_append]
            exact ⟨hwf', List.nodup_singleton k,
              fun a ha hb => by simp at hb; exact hk (hb ▸ ha)⟩
          · intro _
            refine ⟨?_, Or.inr (Or.inl (by show (l.length : Int) < cap; omega))⟩
            intro k'
            show k' ∈ l ++ [k] ↔ k' ∈ l ∨ k' = k
            simp
          · intro hcon
            cases hcon
          · intro hmem
            exact absurd hmem hk
  | lru s =>
      obtain ⟨cap, l⟩ := s
      have hwf' : l.Nodup := hwf
      by_cases hk : k ∈ l
      · have hput : lruPut z ⟨cap, l⟩ k = (⟨cap, k :: l.erase k⟩, z, false) := by
          rw [lruPut, if_pos hk]
        rw [Policy.put, hput]
        have hkeys : ∀ k', k' ∈ k :: l.erase k ↔ k' ∈ l := by
          intro k'
          constructor
          · intro hm
            rcases List.mem_cons.mp hm with rfl | h1
            · exact hk
            · exact List.mem_of_mem_erase h1
          · intro hm
            by_cases hke : k' = k
            · exact hke ▸ List.mem_cons_self _ _
            · exact List.mem_cons_of_mem _ (hwf'.mem_erase_iff.mpr ⟨hke, hm⟩)
        refine ⟨?_, rfl, ?_, ?_, fun _ => rfl⟩
        · show (k :: l.erase k).Nodup
          rw [List.nodup_cons]
          refine ⟨?_, List.Nodup.erase k hwf'⟩
          intro hmem
          exact absurd (hwf'.mem_erase_iff.mp hmem).1 (by simp)
        · intro _
          refine ⟨?_, Or.inl hk⟩
          intro k'
          show k' ∈ k :: l.erase k ↔ k' ∈ l ∨ k' = k
          rw [hkeys k']
          constructor
          · exact Or.inl
          · rintro (h | rfl)
            · exact h
            · exact hk
        · intro hcon
          cases hcon
      · by_cases hcap : (l.length : Int) ≥ cap
        · rcases hgl : l.getLast? with _ | e
          · have hl : l = [] := List.getLast?_eq_none_iff.mp hgl
            subst hl
            have hput : lruPut z ⟨cap, ([] : List T)⟩ k =
                (⟨cap, [k]⟩, z, false) := by
              simp [lruPut, lruEvict, hk, hcap]
            rw [Policy.put, hput]
            refine ⟨List.nodup_singleton k, rfl, ?_, ?_, ?_⟩
            · intro _
              refine ⟨?_, Or.inr (Or.inr rfl)⟩
              intro k'
              show k' ∈ [k] ↔ k' ∈ ([] : List T) ∨ k' = k
              simp
            · intro hcon
              cases hcon
            · intro hmem
              exact absurd hmem hk
          · have hne : l ≠ [] := by
              intro hcon
              rw [hcon] at hgl
              cases hgl
            have hgl' : l.getLast hne = e := by
              have hq := List.getLast?_eq_getLast l hne
              rw [hq] at hgl
              exact (Option.some.injEq _ _ ▸ hgl)
            have hdecomp : l.dropLast ++ [e] = l := by
              rw [← hgl']
              exact List.dropLast_append_getLast hne
            obtain ⟨hnddrop, hedrop, hmemdrop⟩ :=
              @perm_snoc_spec _ _ l.dropLast l e
                (by rw [hdecomp]) hwf'
            have hput : lruPut z ⟨cap, l⟩ k =
                (⟨cap, k :: l.dropLast⟩, e, true) := by
              simp [lruPut, lruEvict, hk, hcap, hgl]
            rw [Policy.put, hput]
            refine ⟨?_, rfl, ?_, ?_, ?_⟩
            · show (k :: l.dropLast).Nodup
              rw [List.nodup_cons]
              refine ⟨?_, hnddrop⟩
              intro hmem
              exact hk ((hmemdrop k).mp hmem).1
            · intro hcon
              cases hcon
            · intro _
              refine ⟨by show e ∈ l; rw [← hdecomp]; simp, hk, hcap,
                List.length_pos.mpr hne, ?_⟩
              intro k'
              show k' ∈ k :: l.dropLast ↔ (k' ∈ l ∧ k' ≠ e) ∨ k' = k
              constructor
              · intro hm
                rcases List.mem_cons.mp hm with rfl | h1
                · exact Or.inr rfl
                · exact Or.inl ((hmemdrop k').mp h1)
              · rintro (⟨h1, h2⟩ | rfl)
                · exact List.mem_cons_of_mem _ ((hmemdrop k').mpr ⟨h1, h2⟩)
                · exact List.mem_cons_self _ _
            · intro hmem
              exact absurd hmem hk
        · have hput : lruPut z ⟨cap, l⟩ k = (⟨cap, k :: l⟩, z, false) := by
            rw [lruPut, if_neg hk, if_neg hcap]
          rw [Policy.put, hput]
          refine ⟨?_, rfl, ?_, ?_, ?_⟩
          · show (k :: l).Nodup
            rw [List.nodup_cons]
            exact ⟨hk, hwf'⟩
          · intro _
            refine ⟨?_, Or.inr (Or.inl (by show (l.length : Int) < cap; omega))⟩
            intro k'
            show k' ∈ k :: l ↔ k' ∈ l ∨ k' = k
            constructor
            · intro hm
              rcases List.mem_cons.mp hm with rfl | h1
              · exact Or.inr rfl
              · exact Or.inl h1
            · rintro (h | rfl)
              · exact List.mem_cons_of_mem k h
              · exact List.mem_cons_self _ _
          · intro hcon
            cases hcon
          · intro hmem
            exact absurd hmem hk
  | lfu s =>
      obtain ⟨cap, hp⟩ := s
      have hwf' : (hp.map Prod.fst).Nodup := hwf
      rcases hfi : lfuFindIdx hp k with _ | i
      · -- unknown key: maybe evict, then push (k, 1)
        have hknot : k ∉ hp.map Prod.fst := (lfuFindIdx_none_iff _ _).mp hfi
        have hpushkeys : ∀ (h1 : Heap T) (k' : T),
            k' ∈ (hpush h1 (k, 1)).map Prod.fst ↔
              (k' ∈ h1.map Prod.fst ∨ k' = k) := by
          intro h1 k'
          rw [((hpush_perm h1 (k, 1)).map Prod.fst).mem_iff]
          simp
        have hpushnodup : ∀ h1 : Heap T, (h1.map Prod.fst).Nodup →
            k ∉ h1.map Prod.fst → ((hpush h1 (k, 1)).map Prod.fst).Nodup := by
          intro h1 hnd hkn
          refine ((hpush_perm h1 (k, 1)).map Prod.fst).nodup_iff.mpr ?_
          rw [List.map_append, List.nodup_append]
          exact ⟨hnd, by simp, fun a ha hb => by simp at hb; exact hkn (hb ▸ ha)⟩
        by_cases hcap : (hp.length : Int) ≥ cap
        · by_cases hlen : hp.length = 0
          · have hput : lfuPut z ⟨cap, hp⟩ k =
                (⟨cap, hpush hp (k, 1)⟩, z, false) := by
              simp [lfuPut, hfi, hcap, lfuEvict, hlen]
            rw [Policy.put, hput]
            refine ⟨hpushnodup hp hwf' hknot, rfl, ?_, ?_, ?_⟩
            · intro _
              exact ⟨fun k' => hpushkeys hp k', Or.inr (Or.inr hlen)⟩
            · intro hcon
              cases hcon
            · intro hmem
              exact absurd hmem hknot
          · -- evict the root, then push
            have h0 : 0 < hp.length := by omega
            obtain ⟨hev, hperm⟩ := hpop_spec hp h0
            have hput : lfuPut z ⟨cap, hp⟩ k =
                (⟨cap, hpush (hpop hp).1 (k, 1)⟩, (hp[0]).1, true) := by
              simp [lfuPut, hfi, hcap, lfuEvict, hlen, hev]
            have hperm' : (((hpop hp).1).map Prod.fst ++ [(hp[0]).1]).Perm
                (hp.map Prod.fst) := by
              have hq := hperm.map Prod.fst
              rwa [List.map_append] at hq
            obtain ⟨hnd1, hnotin1, hmem1⟩ := perm_snoc_spec hperm' hwf'
            have hknotin : k ∉ ((hpop hp).1).map Prod.fst := by
              intro hmem
              exact hknot ((hmem1 k).mp hmem).1
            rw [Policy.put, hput]
            refine ⟨hpushnodup _ hnd1 hknotin, rfl, ?_, ?_, ?_⟩
            · intro hcon
              cases hcon
            · intro _
              refine ⟨?_, hknot, hcap, h0, ?_⟩
              · show (hp[0]).1 ∈ hp.map Prod.fst
                exact List.mem_map.mpr ⟨_, List.getElem_mem h0, rfl⟩
              · intro k'
                show k' ∈ (hpush (hpop hp).1 (k, 1)).map Prod.fst ↔
                  (k' ∈ hp.map Prod.fst ∧ k' ≠ (hp[0]).1) ∨ k' = k
                rw [hpushkeys _ k']
                constructor
                · rintro (h1 | h1)
                  · exact Or.inl ((hmem1 k').mp h1)
                  · exact Or.inr h1
                · rintro (⟨h1, h2⟩ | rfl)
                  · exact Or.inl ((hmem1 k').mpr ⟨h1, h2⟩)
                  · exact Or.inr rfl
            · intro hmem
              exact absurd hmem hknot
        · have hput : lfuPut z ⟨cap, hp⟩ k =
              (⟨cap, hpush hp (k, 1)⟩, z, false) := by
            simp [lfuPut, hfi, hcap]
          rw [Policy.put, hput]
          refine ⟨hpushnodup hp hwf' hknot, rfl, ?_, ?_, ?_⟩
          · intro _
            refine ⟨fun k' => hpushkeys hp k',
              Or.inr (Or.inl (by show (hp.length : Int) < cap; omega))⟩
          · intro hcon
            cases hcon
          · intro hmem
            exact absurd hmem hknot
      · -- known key: frequency bump plus heap fix, same key set
        obtain ⟨hi, hkey⟩ := lfuFindIdx_some_spec hfi
        have hput : lfuPut z ⟨cap, hp⟩ k =
            (⟨cap, hfix (hp.set i (k, (hp[i]).2 + 1)) i⟩, z, false) := by
          have hc : ((hp[i]?).map Prod.snd).getD 0 = (hp[i]).2 := by
            rw [List.getElem?_eq_getElem hi]
            rfl
          simp [lfuPut, hfi, hc, hkey]
        have hperm : (hfix (hp.set i (k, (hp[i]).2 + 1)) i).Perm
            (hp.set i (k, (hp[i]).2 + 1)) := hfix_perm _ i
        have hkeyset : (hp.set i (k, (hp[i]).2 + 1)).map Prod.fst
            = hp.map Prod.fst := by
          rw [List.map_set]
          have him : i < (hp.map Prod.fst).length := by simpa using hi
          have hsame : (hp.map Prod.fst).set i k = (hp.map Prod.fst).set i
              ((hp.map Prod.fst)[i]) := by
            congr 1
            rw [List.getElem_map]
            exact hkey.symm
          rw [hsame, list_set_self (hp.map Prod.fst) i (by simpa using hi)]
        have hkmem : k ∈ hp.map Prod.fst :=
          hkey ▸ List.mem_map.mpr ⟨_, List.getElem_mem hi, rfl⟩
        rw [Policy.put, hput]
        refine ⟨?_, rfl, ?_, ?_, fun _ => rfl⟩
        · show ((hfix (hp.set i (k, (hp[i]).2 + 1)) i).map Prod.fst).Nodup
          refine ((hperm.map Prod.fst).nodup_iff).mpr ?_
          rw [hkeyset]
          exact hwf'
        · intro _
          refine ⟨?_, Or.inl hkmem⟩
          intro k'
          show k' ∈ (hfix (hp.set i (k, (hp[i]).2 + 1)) i).map Prod.fst ↔
            (k' ∈ hp.map Prod.fst ∨ k' = k)
          rw [(hperm.map Prod.fst).mem_iff, hkeyset]
          constructor
          · exact Or.inl
          · rintro (h | rfl)
            · exact h
            · exact hkmem
        · intro hcon
          cases hcon

theorem policy_del_spec {T : Type} [DecidableEq T] (p : Policy T) (k : T)
    (hwf : p.WF) :
    (p.del k).WF ∧ (p.del k).capacityI = p.capacityI ∧
    (∀ k', k' ∈ (p.del k).keys ↔ (k' ∈ p.keys ∧ k' ≠ k)) := by
  cases p with
  | fifo s =>
      obtain ⟨cap, l⟩ := s
      have hwf' : l.Nodup := hwf
      by_cases hk : k ∈ l
      · have hdel : fifoDelete ⟨cap, l⟩ k = ⟨cap, l.erase k⟩ := by
          rw [fifoDelete, if_pos hk]
        rw [Policy.del, hdel]
        refine ⟨List.Nodup.erase k hwf', rfl, ?_⟩
        intro k'
        show k' ∈ l.erase k ↔ k' ∈ l ∧ k' ≠ k
        rw [hwf'.mem_erase_iff]
        exact and_comm
      · have hdel : fifoDelete ⟨cap, l⟩ k = ⟨cap, l⟩ := by
          rw [fifoDelete, if_neg hk]
        rw [Policy.del, hdel]
        refine ⟨hwf', rfl, ?_⟩
        intro k'
        show k' ∈ l ↔ k' ∈ l ∧ k' ≠ k
        exact ⟨fun h => ⟨h, fun he => hk (he ▸ h)⟩, fun h => h.1⟩
  | lru s =>
      obtain ⟨cap, l⟩ := s
      have hwf' : l.Nodup := hwf
      by_cases hk : k ∈ l
      · have hdel : lruDelete ⟨cap, l⟩ k = ⟨cap, l.erase k⟩ := by
          rw [lruDelete, if_pos hk]
        rw [Policy.del, hdel]
        refine ⟨List.Nodup.erase k hwf', rfl, ?_⟩
        intro k'
        show k' ∈ l.erase k ↔ k' ∈ l ∧ k' ≠ k
        rw [hwf'.mem_erase_iff]
        exact and_comm
      · have hdel : lruDelete ⟨cap, l⟩ k = ⟨cap, l⟩ := by
          rw [lruDelete, if_neg hk]
        rw [Policy.del, hdel]
        refine ⟨hwf', rfl, ?_⟩
        intro k'
        show k' ∈ l ↔ k' ∈ l ∧ k' ≠ k
        exact ⟨fun h => ⟨h, fun he => hk (he ▸ h)⟩, fun h => h.1⟩
  | lfu s =>
      obtain ⟨cap, hp⟩ := s
      have hwf' : (hp.map Prod.fst).Nodup := hwf
      rcases hfi : lfuFindIdx hp k with _ | i
      · have hknot : k ∉ hp.map Prod.fst := (lfuFindIdx_none_iff _ _).mp hfi
        have hdel : lfuDelete ⟨cap, hp⟩ k = ⟨cap, hp⟩ := by
          rw [lfuDelete, hfi]
        rw [Policy.del, hdel]
        refine ⟨hwf', rfl, ?_⟩
        intro k'
        show k' ∈ hp.map Prod.fst ↔ k' ∈ hp.map Prod.fst ∧ k' ≠ k
        exact ⟨fun h => ⟨h, fun he => hknot (he ▸ h)⟩, fun h => h.1⟩
      · obtain ⟨hi, hkey⟩ := lfuFindIdx_some_spec hfi
        have hdel : lfuDelete ⟨cap, hp⟩ k = ⟨cap, hremove hp i⟩ := by
          rw [lfuDelete, hfi]
        have hperm : ((hremove hp i).map Prod.fst ++ [(hp[i]).1]).Perm
            (hp.map Prod.fst) := by
          have hq := (hremove_spec hp i hi).map Prod.fst
          rwa [List.map_append] at hq
        obtain ⟨hnd1, hnotin1, hmem1⟩ := perm_snoc_spec hperm hwf'
        rw [Policy.del, hdel]
        refine ⟨hnd1, rfl, ?_⟩
        intro k'
        show k' ∈ (hremove hp i).map Prod.fst ↔ k' ∈ hp.map Prod.fst ∧ k' ≠ k
        rw [hmem1 k', hkey]

theorem policy_reset_spec {T : Type} (p : Policy T) :
    (p.reset).WF ∧ (p.reset).capacityI = p.capacityI ∧
    (p.reset).keys = [] ∧ (p.reset).size = 0 := by
  cases p <;>
    exact ⟨List.nodup_nil, rfl, rfl, rfl⟩

/-- **C10**: each policy's `Evict` on an empty policy returns the zero
value of the key type (the explicit `z`) together with `false`, and leaves
the policy unchanged, its size still 0. -/
theorem c10_evict_empty {T : Type} (z : T) (p : Policy T) (hsz : p.size = 0) :
    Policy.evictOp z p = (p, z, false) := by
  cases p with
  | fifo s =>
      obtain ⟨cap, l⟩ := s
      have hl : l = [] := List.length_eq_zero.mp hsz
      subst hl
      rfl
  | lru s =>
      obtain ⟨cap, l⟩ := s
      have hl : l = [] := List.length_eq_zero.mp hsz
      subst hl
      rfl
  | lfu s =>
      obtain ⟨cap, hp⟩ := s
      have hz : hp.length = 0 := hsz
      rw [Policy.evictOp, lfuEvict, if_pos hz]

/-- Witness for C10 at each of the three freshly constructed policies. -/
theorem c10_evict_empty_witness :
    (newFIFO 2 : Policy ℕ).size = 0 ∧
    Policy.evictOp 0 (newFIFO 2 : Policy ℕ) = (newFIFO 2, 0, false) ∧
    Policy.evictOp 0 (newLRU 2 : Policy ℕ) = (newLRU 2, 0, false) ∧
    Policy.evictOp 0 (newLFU 2 : Policy ℕ) = (newLFU 2, 0, false) :=
  ⟨rfl, c10_evict_empty 0 (newFIFO 2) rfl, c10_evict_empty 0 (newLRU 2) rfl,
    c10_evict_empty 0 (newLFU 2) rfl⟩

/-! ## Claim C5: the shared eviction discipline -/

/-- **C5**: for each policy and every well-formed state: `Put` evicts at
most one key per call (any key that leaves the tracked set is the single
reported victim), and only when the argument key is untracked and the size
is at least the capacity; `Put` of a tracked key reports no eviction
regardless of size; `Delete` removes exactly the given key and nothing
else; `Reset` empties the policy without reporting any eviction. -/
theorem c5_policy_eviction_discipline {T : Type} [DecidableEq T] (z : T)
    (p : Policy T) (k : T) (hwf : p.WF) :
    (∀ e, (p.put z k).2 = (e, true) →
      e ∈ p.keys ∧ k ∉ p.keys ∧ (p.size : Int) ≥ p.capacityI) ∧
    (k ∈ p.keys → (p.put z k).2 = (z, false)) ∧
    (∀ k', k' ∈ p.keys → k' ∉ (p.put z k).1.keys → (p.put z k).2 = (k', true)) ∧
    (∀ k', k' ∈ (p.del k).keys ↔ (k' ∈ p.keys ∧ k' ≠ k)) ∧
    ((p.reset).keys = [] ∧ (p.reset).size = 0) := by
  obtain ⟨_, _, hfalse, htrue, hknown⟩ := policy_put_spec z p k hwf
  obtain ⟨_, _, hdel⟩ := policy_del_spec p k hwf
  obtain ⟨_, _, hrk, hrs⟩ := policy_reset_spec p
  refine ⟨?_, hknown, ?_, hdel, hrk, hrs⟩
  · intro e heq
    have hb : (p.put z k).2.2 = true := by rw [heq]
    have he : (p.put z k).2.1 = e := by rw [heq]
    obtain ⟨h1, h2, h3, _, _⟩ := htrue hb
    exact ⟨he ▸ h1, h2, h3⟩
  · intro k' hin hout
    rcases hb : (p.put z k).2.2 with _ | _
    · obtain ⟨hkeys, _⟩ := hfalse hb
      exact absurd ((hkeys k').mpr (Or.inl hin)) hout
    · obtain ⟨_, _, _, _, hkeys⟩ := htrue hb
      have hne : k' = (p.put z k).2.1 := by
        by_contra hne
        exact hout ((hkeys k').mpr (Or.inl ⟨hin, hne⟩))
      calc (p.put z k).2 = ((p.put z k).2.1, (p.put z k).2.2) := rfl
        _ = (k', true) := by rw [← hne, hb]

/-- Witness for C5: a FIFO at capacity (state `[5, 7]`, capacity 2). -/
theorem c5_policy_eviction_discipline_witness :
    (Policy.fifo ⟨2, [5, 7]⟩ : Policy ℕ).WF ∧
    ((∀ e, ((Policy.fifo ⟨2, [5, 7]⟩ : Policy ℕ).put 0 9).2 = (e, true) →
      e ∈ (Policy.fifo ⟨2, [5, 7]⟩ : Policy ℕ).keys ∧
      9 ∉ (Policy.fifo ⟨2, [5, 7]⟩ : Policy ℕ).keys ∧
      ((Policy.fifo ⟨2, [5, 7]⟩ : Policy ℕ).size : Int) ≥
        (Policy.fifo ⟨2, [5, 7]⟩ : Policy ℕ).capacityI) ∧
    (9 ∈ (Policy.fifo ⟨2, [5, 7]⟩ : Policy ℕ).keys →
      ((Policy.fifo ⟨2, [5, 7]⟩ : Policy ℕ).put 0 9).2 = (0, false)) ∧
    (∀ k', k' ∈ (Policy.fifo ⟨2, [5, 7]⟩ : Policy ℕ).keys →
      k' ∉ ((Policy.fifo ⟨2, [5, 7]⟩ : Policy ℕ).put 0 9).1.keys →
      ((Policy.fifo ⟨2, [5, 7]⟩ : Policy ℕ).put 0 9).2 = (k', true)) ∧
    (∀ k', k' ∈ ((Policy.fifo ⟨2, [5, 7]⟩ : Policy ℕ).del 9).keys ↔
      (k' ∈ (Policy.fifo ⟨2, [5, 7]⟩ : Policy ℕ).keys ∧ k' ≠ 9)) ∧
    (((Policy.fifo ⟨2, [5, 7]⟩ : Policy ℕ).reset).keys = [] ∧
      ((Policy.fifo ⟨2, [5, 7]⟩ : Policy ℕ).reset).size = 0)) :=
  ⟨show ([5, 7] : List ℕ).Nodup by decide,
    c5_policy_eviction_discipline 0 (Policy.fifo ⟨2, [5, 7]⟩) 9
      (show ([5, 7] : List ℕ).Nodup by decide)⟩

/-! ## The min-heap ordering invariant of the LFU frequency heap

`container/heap` maintains the ordering `h[(j-1)/2].frequency ≤
h[j].frequency` for every reachable heap; it is established here for the
operations `LFU.Put` and `LFU.evict` actually perform (`Push`, `Pop`, and
`Fix` after an in-place frequency increase). -/

/-- The frequency stored at position `i` (0 when out of range; in-range
positions are the only ones the algorithms compare). -/
def hfreq {T : Type} (h : Heap T) (i : ℕ) : ℕ :=
  ((h[i]?).map Prod.snd).getD 0

/-- The `container/heap` ordering invariant over positions `[0, n)`. -/
def HeapOrd {T : Type} (h : Heap T) (n : ℕ) : Prop :=
  ∀ p, p < n → 0 < p → hfreq h ((p - 1) / 2) ≤ hfreq h p

instance heapOrdDec {T : Type} (h : Heap T) (n : ℕ) : Decidable (HeapOrd h n) :=
  inferInstanceAs (Decidable (∀ p, p < n → 0 < p → hfreq h ((p - 1) / 2) ≤ hfreq h p))

theorem hfreq_eq {T : Type} (h : Heap T) {i : ℕ} (hi : i < h.length) :
    hfreq h i = (h[i]).2 := by
  rw [hfreq, List.getElem?_eq_getElem hi]
  rfl

theorem hless_eq {T : Type} (h : Heap T) {i j : ℕ} (hi : i < h.length)
    (hj : j < h.length) : hless h i j = decide (hfreq h i < hfreq h j) := by
  rw [hless, List.getElem?_eq_getElem hi, List.getElem?_eq_getElem hj,
    hfreq_eq h hi, hfreq_eq h hj]

theorem hless_oob_left {T : Type} (h : Heap T) {i : ℕ} (j : ℕ)
    (hi : h.length ≤ i) : hless h i j = false := by
  rcases hjv : h[j]? with _ | b
  · rw [hless, List.getElem?_eq_none hi, hjv]
  · rw [hless, List.getElem?_eq_none hi, hjv]

theorem hfreq_hswap_left {T : Type} (h : Heap T) {i j : ℕ} (hi : i < h.length)
    (hj : j < h.length) : hfreq (hswap h i j) i = hfreq h j := by
  by_cases hij : i = j
  · subst hij
    have heq : hswap h i i = (h.set i (h[i])).set i (h[i]) := by
      rw [hswap, List.getElem?_eq_getElem hi]
    rw [hfreq, hfreq, heq, List.getElem?_set_self (by simpa using hi),
      List.getElem?_eq_getElem hi]
  · have heq : hswap h i j = (h.set i (h[j])).set j (h[i]) := by
      rw [hswap, List.getElem?_eq_getElem hi, List.getElem?_eq_getElem hj]
    rw [hfreq, hfreq, heq, List.getElem?_set_ne (fun hh => hij hh.symm),
      List.getElem?_set_self (by simpa using hi), List.getElem?_eq_getElem hj]

theorem hfreq_hswap_right {T : Type} (h : Heap T) {i j : ℕ} (hi : i < h.length)
    (hj : j < h.length) : hfreq (hswap h i j) j = hfreq h i := by
  rw [hfreq, hfreq, hswap_getElem_right h i j hi hj]

theorem hfreq_hswap_ne {T : Type} (h : Heap T) {i j m : ℕ} (hmi : m ≠ i)
    (hmj : m ≠ j) : hfreq (hswap h i j) m = hfreq h m := by
  rw [hfreq, hfreq, hswap_getElem_ne h i j m hmi hmj]

theorem hfreq_append_lt {T : Type} (h : Heap T) (e : T × Nat) {p : ℕ}
    (hp : p < h.length) : hfreq (h ++ [e]) p = hfreq h p := by
  rw [hfreq, hfreq, List.getElem?_append, if_pos hp]

theorem hfreq_set_self {T : Type} (h : Heap T) (e : T × Nat) {i : ℕ}
    (hi : i < h.length) : hfreq (h.set i e) i = e.2 := by
  rw [hfreq, List.getElem?_set_self (by simpa using hi)]
  rfl

theorem hfreq_set_ne {T : Type} (h : Heap T) (e : T × Nat) {i p : ℕ}
    (hpi : p ≠ i) : hfreq (h.set i e) p = hfreq h p := by
  rw [hfreq, hfreq, List.getElem?_set_ne (fun hh => hpi hh.symm)]

theorem hfreq_dropLast {T : Type} (h : Heap T) {p : ℕ} (hp : p < h.length - 1) :
    hfreq h.dropLast p = hfreq h p := by
  rw [hfreq, hfreq, List.dropLast_eq_take, List.getElem?_take_of_lt hp]

/-- `container/heap.up` restores the ordering when every edge except the
one into `j` is ordered and `j`'s children are dominated by `j`'s parent. -/
theorem hup_ord {T : Type} [DecidableEq T] :
    ∀ (j : ℕ) (h : Heap T) (n : ℕ), n ≤ h.length → j < n →
    (∀ p, p < n → 0 < p → p ≠ j → hfreq h ((p - 1) / 2) ≤ hfreq h p) →
    (0 < j → ∀ c, c < n → 0 < c → (c - 1) / 2 = j →
      hfreq h ((j - 1) / 2) ≤ hfreq h c) →
    ∀ p, p < n → 0 < p →
      hfreq (hup h j) ((p - 1) / 2) ≤ hfreq (hup h j) p := by
  intro j
  induction j using Nat.strong_induction_on with
  | _ j IH =>
    intro h n hn hj h1 h2
    rw [hup]
    dsimp only
    split
    next hj0 =>
      intro p hpn hp0
      exact h1 p hpn hp0 (by omega)
    next hj0 =>
      have hj0' : 0 < j := by omega
      have hji : (j - 1) / 2 < j := by omega
      have hjlen : j < h.length := by omega
      have hilen : (j - 1) / 2 < h.length := by omega
      split
      next hlt =>
        have hfij : hfreq h j < hfreq h ((j - 1) / 2) := by
          rw [hless_eq h hjlen hilen] at hlt
          exact of_decide_eq_true hlt
        refine IH ((j - 1) / 2) (by omega) (hswap h ((j - 1) / 2) j) n
          (by rw [hswap_length]; exact hn) (by omega) ?_ ?_
        · intro p hpn hp0 hpi
          by_cases hpj : p = j
          · subst hpj
            rw [hfreq_hswap_left h hilen hjlen, hfreq_hswap_right h hilen hjlen]
            omega
          · have hfp : hfreq (hswap h ((j - 1) / 2) j) p = hfreq h p :=
              hfreq_hswap_ne h hpi hpj
            by_cases hqj : (p - 1) / 2 = j
            · rw [hfp, hqj, hfreq_hswap_right h hilen hjlen]
              exact h2 hj0' p hpn hp0 hqj
            · by_cases hqi : (p - 1) / 2 = (j - 1) / 2
              · rw [hfp, hqi, hfreq_hswap_left h hilen hjlen]
                have ha := h1 p hpn hp0 hpj
                rw [hqi] at ha
                omega
              · rw [hfp, hfreq_hswap_ne h hqi hqj]
                exact h1 p hpn hp0 hpj
        · intro hi0 c hcn hc0 hci
          have hgne_i : ((j - 1) / 2 - 1) / 2 ≠ (j - 1) / 2 := by omega
          have hgne_j : ((j - 1) / 2 - 1) / 2 ≠ j := by omega
          rw [hfreq_hswap_ne h hgne_i hgne_j]
          by_cases hcj : c = j
          · rw [hcj, hfreq_hswap_right h hilen hjlen]
            exact h1 ((j - 1) / 2) (by omega) hi0 (by omega)
          · have hcnei : c ≠ (j - 1) / 2 := by omega
            rw [hfreq_hswap_ne h hcnei hcj]
            have ha := h1 c hcn hc0 hcj
            rw [hci] at ha
            have hb := h1 ((j - 1) / 2) (by omega) hi0 (by omega)
            omega
      next hlt =>
        intro p hpn hp0
        by_cases hpj : p = j
        · subst hpj
          rw [hless_eq h hjlen hilen] at hlt
          simp at hlt
          omega
        · exact h1 p hpn hp0 hpj

/-- `container/heap.down` restores the ordering when every edge except
the ones out of `i` is ordered, `i`'s children are dominated by `i`'s
parent, and the edge into `i` is ordered. -/
theorem hdownAux_ord {T : Type} [DecidableEq T] :
    ∀ (d : ℕ) (h : Heap T) (n i : ℕ), n - i ≤ d → n ≤ h.length →
    (∀ p, p < n → 0 < p → p ≠ i → (p - 1) / 2 ≠ i →
      hfreq h ((p - 1) / 2) ≤ hfreq h p) →
    (0 < i → ∀ c, c < n → 0 < c → (c - 1) / 2 = i →
      hfreq h ((i - 1) / 2) ≤ hfreq h c) →
    (0 < i → hfreq h ((i - 1) / 2) ≤ hfreq h i) →
    ∀ p, p < n → 0 < p →
      hfreq (hdownAux h i n).1 ((p - 1) / 2) ≤ hfreq (hdownAux h i n).1 p := by
  intro d
  induction d with
  | zero =>
    intro h n i hd hn h1 h2 h3
    rw [hdownAux]
    dsimp only
    split
    next hterm =>
      intro p hpn hp0
      by_cases hpi : p = i
      · subst hpi
        exact h3 hp0
      · by_cases hqi : (p - 1) / 2 = i
        · exfalso
          omega
        · exact h1 p hpn hp0 hpi hqi
    next hterm =>
      exfalso
      omega
  | succ d IH =>
    intro h n i hd hn h1 h2 h3
    rw [hdownAux]
    dsimp only
    split
    next hterm =>
      intro p hpn hp0
      by_cases hpi : p = i
      · subst hpi
        exact h3 hp0
      · by_cases hqi : (p - 1) / 2 = i
        · exfalso
          omega
        · exact h1 p hpn hp0 hpi hqi
    next hterm =>
      have hi_n : 2 * i + 1 < n := by omega
      have hjgt : i < hchild h i n := hchild_gt h i n
      have hjlt : hchild h i n < n := hchild_lt h i n hi_n
      have hilen : i < h.length := by omega
      have hjlen : hchild h i n < h.length := by omega
      have hji : (hchild h i n - 1) / 2 = i := by
        have hcc : hchild h i n = 2 * i + 1 ∨ hchild h i n = 2 * i + 2 := by
          rw [hchild]
          split
          · exact Or.inr rfl
          · exact Or.inl rfl
        omega
      have hmin : ∀ s, s < n → 0 < s → (s - 1) / 2 = i →
          hfreq h (hchild h i n) ≤ hfreq h s := by
        intro s hsn hs0 hsi
        have hs12 : s = 2 * i + 1 ∨ s = 2 * i + 2 := by omega
        rw [hchild]
        split
        next hc =>
          rcases hs12 with rfl | rfl
          · have hb := hc.2
            rw [hless_eq h (by omega) (by omega)] at hb
            have hv := of_decide_eq_true hb
            omega
          · exact le_refl _
        next hc =>
          rcases hs12 with rfl | rfl
          · exact le_refl _
          · have hlf : hless h (2 * i + 2) (2 * i + 1) = false := by
              rcases Bool.eq_false_or_eq_true (hless h (2 * i + 2) (2 * i + 1)) with hb | hb
              · exact absurd ⟨hsn, hb⟩ hc
              · exact hb
            rw [hless_eq h (by omega) (by omega)] at hlf
            have hv := of_decide_eq_false hlf
            omega
      split
      next hlt =>
        have hflt : hfreq h (hchild h i n) < hfreq h i := by
          rw [hless_eq h hjlen hilen] at hlt
          exact of_decide_eq_true hlt
        refine IH (hswap h i (hchild h i n)) n (hchild h i n) (by omega)
          (by rw [hswap_length]; exact hn) ?_ ?_ ?_
        · intro p hpn hp0 hpj hqj
          by_cases hpi : p = i
          · subst hpi
            have hgi : (p - 1) / 2 ≠ p := by omega
            have hgj : (p - 1) / 2 ≠ hchild h p n := by omega
            rw [hfreq_hswap_ne h hgi hgj, hfreq_hswap_left h hilen hjlen]
            exact h2 hp0 (hchild h p n) hjlt (by omega) hji
          · have hfp : hfreq (hswap h i (hchild h i n)) p = hfreq h p :=
              hfreq_hswap_ne h hpi hpj
            by_cases hqi : (p - 1) / 2 = i
            · rw [hfp, hqi, hfreq_hswap_left h hilen hjlen]
              exact hmin p hpn hp0 hqi
            · rw [hfp, hfreq_hswap_ne h hqi hqj]
              exact h1 p hpn hp0 hpi hqi
        · intro hj0 c hcn hc0 hcj
          rw [hji]
          have hcne_i : c ≠ i := by omega
          have hcne_j : c ≠ hchild h i n := by omega
          rw [hfreq_hswap_left h hilen hjlen, hfreq_hswap_ne h hcne_i hcne_j]
          have ha := h1 c hcn hc0 hcne_i (by omega)
          rw [hcj] at ha
          exact ha
        · intro hjpos
          rw [hji, hfreq_hswap_left h hilen hjlen, hfreq_hswap_right h hilen hjlen]
          omega
      next hlt =>
        intro p hpn hp0
        by_cases hpi : p = i
        · subst hpi
          exact h3 hp0
        · by_cases hqi : (p - 1) / 2 = i
          · have hp12 : hfreq h (hchild h i n) ≤ hfreq h p := hmin p hpn hp0 hqi
            have hlf : hless h (hchild h i n) i = false := Bool.eq_false_iff.mpr hlt
            rw [hless_eq h hjlen hilen] at hlf
            have hv := of_decide_eq_false hlf
            rw [hqi]
            exact le_trans (Nat.le_of_not_lt hv) hp12
          · exact h1 p hpn hp0 hpi hqi

/-- `container/heap.up` on an already-ordered heap is the identity. -/
theorem hup_of_ord {T : Type} [DecidableEq T] (h : Heap T) (i : ℕ)
    (ho : ∀ p, p < h.length → 0 < p → hfreq h ((p - 1) / 2) ≤ hfreq h p) :
    hup h i = h := by
  rw [hup]
  dsimp only
  split
  next => rfl
  next hi0 =>
    split
    next hlt =>
      exfalso
      by_cases hil : i < h.length
      · have hpl : (i - 1) / 2 < h.length := by omega
        rw [hless_eq h hil hpl] at hlt
        have hv := of_decide_eq_true hlt
        have hle := ho i hil (by omega)
        omega
      · rw [hless_oob_left h _ (by omega)] at hlt
        cases hlt
    next => rfl

/-- In an ordered heap the root frequency is a minimum. -/
theorem heapOrd_root_min {T : Type} (h : Heap T) (n : ℕ)
    (ho : ∀ p, p < n → 0 < p → hfreq h ((p - 1) / 2) ≤ hfreq h p) :
    ∀ p, p < n → hfreq h 0 ≤ hfreq h p := by
  intro p
  induction p using Nat.strong_induction_on with
  | _ p ih =>
    intro hpn
    rcases Nat.eq_zero_or_pos p with rfl | hp0
    · exact le_refl _
    · have ha := ho p hpn hp0
      have hb := ih ((p - 1) / 2) (by omega) (by omega)
      omega

/-- `heap.Push` preserves the ordering invariant. -/
theorem hpush_ord {T : Type} [DecidableEq T] (h : Heap T) (e : T × Nat)
    (ho : HeapOrd h h.length) : HeapOrd (hpush h e) (hpush h e).length := by
  have hlen2 : (hpush h e).length = h.length + 1 := by
    rw [(hpush_perm h e).length_eq]
    simp
  intro p hpn hp0
  rw [hlen2] at hpn
  rw [hpush]
  refine hup_ord h.length (h ++ [e]) (h.length + 1) (by simp) (by omega)
    ?_ ?_ p hpn hp0
  · intro q hqn hq0 hqj
    have hql : q < h.length := by omega
    have hqpl : (q - 1) / 2 < h.length := by omega
    rw [hfreq_append_lt h e hql, hfreq_append_lt h e hqpl]
    exact ho q hql hq0
  · intro hj0 c hcn hc0 hcj
    exfalso
    omega

/-- `heap.Pop` preserves the ordering invariant. -/
theorem hpop_ord {T : Type} [DecidableEq T] (h : Heap T)
    (ho : HeapOrd h h.length) : HeapOrd (hpop h).1 ((hpop h).1).length := by
  have hlensw : (hswap h 0 (h.length - 1)).length = h.length := hswap_length h 0 _
  have hlend : ((hdownAux (hswap h 0 (h.length - 1)) 0 (h.length - 1)).1).length
      = h.length := by
    rw [(hdownAux_perm _ _ _).length_eq, hlensw]
  have h1pre : ∀ p, p < h.length - 1 → 0 < p → p ≠ 0 → (p - 1) / 2 ≠ 0 →
      hfreq (hswap h 0 (h.length - 1)) ((p - 1) / 2)
        ≤ hfreq (hswap h 0 (h.length - 1)) p := by
    intro p hpn hp0 hpz hq0
    have hpne : p ≠ h.length - 1 := by omega
    have hqne : (p - 1) / 2 ≠ h.length - 1 := by omega
    rw [hfreq_hswap_ne h hq0 hqne, hfreq_hswap_ne h hpz hpne]
    exact ho p (by omega) hp0
  have hord2 := hdownAux_ord (h.length - 1) (hswap h 0 (h.length - 1))
    (h.length - 1) 0 (by omega) (by rw [hlensw]; omega) h1pre
    (fun hcon => absurd hcon (Nat.lt_irrefl 0))
    (fun hcon => absurd hcon (Nat.lt_irrefl 0))
  intro p hpn hp0
  rw [hpop] at hpn ⊢
  dsimp only at hpn ⊢
  rw [List.length_dropLast, hlend] at hpn
  rw [hfreq_dropLast _ (by rw [hlend]; omega), hfreq_dropLast _ (by rw [hlend]; omega)]
  exact hord2 p hpn hp0

/-- `heap.Fix` at `i` restores the ordering after the frequency at `i` is
replaced by a larger (or equal) one, as `LFU.Put` does. -/
theorem hfix_set_ord {T : Type} [DecidableEq T] (h : Heap T) (i : ℕ) (e : T × Nat)
    (hi : i < h.length) (ho : HeapOrd h h.length) (hge : hfreq h i ≤ e.2) :
    HeapOrd (hfix (h.set i e) i) (hfix (h.set i e) i).length := by
  have hlenset : (h.set i e).length = h.length := by simp
  have h1pre : ∀ p, p < (h.set i e).length → 0 < p → p ≠ i → (p - 1) / 2 ≠ i →
      hfreq (h.set i e) ((p - 1) / 2) ≤ hfreq (h.set i e) p := by
    intro p hpn hp0 hpi hqi
    rw [hfreq_set_ne h e hqi, hfreq_set_ne h e hpi]
    rw [hlenset] at hpn
    exact ho p hpn hp0
  have h2pre : 0 < i → ∀ c, c < (h.set i e).length → 0 < c → (c - 1) / 2 = i →
      hfreq (h.set i e) ((i - 1) / 2) ≤ hfreq (h.set i e) c := by
    intro hi0 c hcn hc0 hci
    have hcne : c ≠ i := by omega
    have hgne : (i - 1) / 2 ≠ i := by omega
    rw [hfreq_set_ne h e hgne, hfreq_set_ne h e hcne]
    rw [hlenset] at hcn
    have ha := ho i hi hi0
    have hb := ho c hcn hc0
    rw [hci] at hb
    omega
  have h3pre : 0 < i → hfreq (h.set i e) ((i - 1) / 2) ≤ hfreq (h.set i e) i := by
    intro hi0
    have hgne : (i - 1) / 2 ≠ i := by omega
    rw [hfreq_set_ne h e hgne, hfreq_set_self h e hi]
    have ha := ho i hi hi0
    omega
  have hord := hdownAux_ord (h.set i e).length (h.set i e) (h.set i e).length i
    (by omega) (le_refl _) h1pre h2pre h3pre
  have hlen1 : ((hdownAux (h.set i e) i (h.set i e).length).1).length
      = (h.set i e).length := (hdownAux_perm _ _ _).length_eq
  rw [hfix, hdown]
  dsimp only
  split
  next hmoved =>
    intro p hpn hp0
    rw [hlen1] at hpn
    exact hord p hpn hp0
  next hnotmoved =>
    have hordfull : ∀ p,
        p < ((hdownAux (h.set i e) i (h.set i e).length).1).length → 0 < p →
        hfreq (hdownAux (h.set i e) i (h.set i e).length).1 ((p - 1) / 2)
          ≤ hfreq (hdownAux (h.set i e) i (h.set i e).length).1 p := by
      intro p hpn hp0
      rw [hlen1] at hpn
      exact hord p hpn hp0
    rw [hup_of_ord _ i hordfull]
    exact hordfull

/-- `LFU.Put` preserves the heap ordering invariant. -/
theorem lfuPut_ord {T : Type} [DecidableEq T] (z : T) (s : LFUState T) (k : T)
    (ho : HeapOrd s.heap s.heap.length) :
    HeapOrd (lfuPut z s k).1.heap (lfuPut z s k).1.heap.length := by
  rcases hfi : lfuFindIdx s.heap k with _ | i
  · by_cases hcap : (s.heap.length : Int) ≥ s.capacity
    · by_cases hz : s.heap.length = 0
      · have hput : (lfuPut z s k).1.heap = hpush s.heap (k, 1) := by
          simp [lfuPut, hfi, hcap, lfuEvict, hz]
        rw [hput]
        exact hpush_ord s.heap (k, 1) ho
      · have hput : (lfuPut z s k).1.heap = hpush (hpop s.heap).1 (k, 1) := by
          simp [lfuPut, hfi, hcap, lfuEvict, hz]
        rw [hput]
        exact hpush_ord (hpop s.heap).1 (k, 1) (hpop_ord s.heap ho)
    · have hput : (lfuPut z s k).1.heap = hpush s.heap (k, 1) := by
        simp [lfuPut, hfi, hcap]
      rw [hput]
      exact hpush_ord s.heap (k, 1) ho
  · obtain ⟨hi, hkey⟩ := lfuFindIdx_some_spec hfi
    have hc : ((s.heap[i]?).map Prod.snd).getD 0 = (s.heap[i]).2 := by
      rw [List.getElem?_eq_getElem hi]
      rfl
    have hput : (lfuPut z s k).1.heap
        = hfix (s.heap.set i (k, (s.heap[i]).2 + 1)) i := by
      simp [lfuPut, hfi, hc]
    rw [hput]
    refine hfix_set_ord s.heap i (k, (s.heap[i]).2 + 1) hi ho ?_
    rw [hfreq_eq s.heap hi]
    omega

/-- `LFU.evict` on an ordered heap removes a key of minimum frequency. -/
theorem lfuEvict_min {T : Type} [DecidableEq T] (s s' : LFUState T) (e : T)
    (ho : HeapOrd s.heap s.heap.length)
    (hev : lfuEvict s = (s', some e)) :
    ∃ c, (e, c) ∈ s.heap ∧ ∀ e' c', (e', c') ∈ s.heap → c ≤ c' := by
  rw [lfuEvict] at hev
  by_cases hz : s.heap.length = 0
  · rw [if_pos hz] at hev
    simp at hev
  · rw [if_neg hz] at hev
    dsimp only at hev
    have hne : 0 < s.heap.length := by omega
    obtain ⟨hev2, hperm⟩ := hpop_spec s.heap hne
    have hsnd : ((hpop s.heap).2).map Prod.fst = some e := congrArg Prod.snd hev
    rw [hev2] at hsnd
    simp at hsnd
    refine ⟨(s.heap[0]).2, ?_, ?_⟩
    · rw [← hsnd]
      exact List.getElem_mem hne
    · intro e' c' hmem
      obtain ⟨q, hq, hqe⟩ := List.getElem_of_mem hmem
      have hmin := heapOrd_root_min s.heap s.heap.length ho q hq
      rw [hfreq_eq s.heap hne, hfreq_eq s.heap hq, hqe] at hmin
      exact hmin

/-- Duplicate-free keys give each key a unique frequency counter. -/
theorem heap_entry_unique {T : Type} [DecidableEq T] {h : Heap T}
    (hnd : (h.map Prod.fst).Nodup) {k : T} {c c' : ℕ}
    (h1 : (k, c) ∈ h) (h2 : (k, c') ∈ h) : c = c' := by
  obtain ⟨p, hp, hpe⟩ := List.getElem_of_mem h1
  obtain ⟨q, hq, hqe⟩ := List.getElem_of_mem h2
  have hkeq : (h[p]).1 = (h[q]).1 := by rw [hpe, hqe]
  have hpq := heap_key_pos_inj hnd hp hq hkeq
  subst hpq
  rw [hpe] at hqe
  exact congrArg Prod.snd hqe

/-- A first `LFU.Put` of a key pushes it with frequency counter 1. -/
theorem lfuPut_new_mem {T : Type} [DecidableEq T] (z : T) (s : LFUState T) (k : T)
    (hk : k ∉ s.heap.map Prod.fst) : (k, 1) ∈ (lfuPut z s k).1.heap := by
  have hfi : lfuFindIdx s.heap k = none := (lfuFindIdx_none_iff _ _).mpr hk
  have hshape : ∃ h0 : Heap T, (lfuPut z s k).1.heap = hpush h0 (k, 1) := by
    by_cases hcap : (s.heap.length : Int) ≥ s.capacity
    · by_cases hz : s.heap.length = 0
      · exact ⟨s.heap, by simp [lfuPut, hfi, hcap, lfuEvict, hz]⟩
      · exact ⟨(hpop s.heap).1, by simp [lfuPut, hfi, hcap, lfuEvict, hz]⟩
    · exact ⟨s.heap, by simp [lfuPut, hfi, hcap]⟩
  obtain ⟨h0, hput⟩ := hshape
  rw [hput]
  exact ((hpush_perm _ _).mem_iff).mpr (by simp)

/-- A further `LFU.Put` of a tracked key increments its counter in place. -/
theorem lfuPut_inc_mem {T : Type} [DecidableEq T] (z : T) (s : LFUState T) (k : T)
    (c : ℕ) (hnd : (s.heap.map Prod.fst).Nodup) (hmem : (k, c) ∈ s.heap) :
    (k, c + 1) ∈ (lfuPut z s k).1.heap := by
  have hkin : k ∈ s.heap.map Prod.fst := List.mem_map.mpr ⟨(k, c), hmem, rfl⟩
  rcases hfi : lfuFindIdx s.heap k with _ | i
  · exact absurd hkin ((lfuFindIdx_none_iff _ _).mp hfi)
  · obtain ⟨hi, hkey⟩ := lfuFindIdx_some_spec hfi
    obtain ⟨q, hq, hqe⟩ := List.getElem_of_mem hmem
    have hkeq : (s.heap[i]).1 = (s.heap[q]).1 := by rw [hqe, hkey]
    have hiq := heap_key_pos_inj hnd hi hq hkeq
    subst hiq
    have hceq : (s.heap[i]).2 = c := congrArg Prod.snd hqe
    have hc : ((s.heap[i]?).map Prod.snd).getD 0 = (s.heap[i]).2 := by
      rw [List.getElem?_eq_getElem hi]
      rfl
    have hput : (lfuPut z s k).1.heap
        = hfix (s.heap.set i (k, (s.heap[i]).2 + 1)) i := by
      simp [lfuPut, hfi, hc]
    rw [hput, ← hceq]
    have hil : i < (s.heap.set i (k, (s.heap[i]).2 + 1)).length := by simpa using hi
    have hgs : (s.heap.set i (k, (s.heap[i]).2 + 1))[i] = (k, (s.heap[i]).2 + 1) := by
      rw [List.getElem_set]
      simp
    refine ((hfix_perm _ _).mem_iff).mpr ?_
    nth_rewrite 2 [← hgs]
    exact List.getElem_mem hil

/-- **C6**: for the LFU policy, on any state with duplicate-free keys and
the `container/heap` ordering (both hold for every reachable state): a
first `Put` of a key enters it with frequency counter 1, a `Put` of a
tracked key replaces its counter `c` by `c + 1`, each tracked key has a
single counter, both invariants are preserved by `Put`, and `evict`
removes a key whose counter is minimal among all tracked keys; in
particular with capacity 2, after `Put 1`, `Put 2` and two further
`Put 2` (counter 3), `Put 3` evicts key 1 (counter 1) while key 2
survives with counter 3. -/
theorem c6_lfu_frequency {T : Type} [DecidableEq T] (z k : T) (s : LFUState T)
    (hnd : (s.heap.map Prod.fst).Nodup) (ho : HeapOrd s.heap s.heap.length) :
    (k ∉ s.heap.map Prod.fst → (k, 1) ∈ (lfuPut z s k).1.heap) ∧
    (∀ c, (k, c) ∈ s.heap → (k, c + 1) ∈ (lfuPut z s k).1.heap) ∧
    (∀ k' c c', (k', c) ∈ s.heap → (k', c') ∈ s.heap → c = c') ∧
    HeapOrd (lfuPut z s k).1.heap (lfuPut z s k).1.heap.length ∧
    (∀ s' e, lfuEvict s = (s', some e) →
      ∃ c, (e, c) ∈ s.heap ∧ ∀ e' c', (e', c') ∈ s.heap → c ≤ c') ∧
    lfuPut 0 (lfuPut 0 (lfuPut 0 (lfuPut 0 (lfuPut 0
        (⟨2, []⟩ : LFUState ℕ) 1).1 2).1 2).1 2).1 3
      = (⟨2, [(3, 1), (2, 3)]⟩, 1, true) :=
  ⟨fun hk => lfuPut_new_mem z s k hk,
    fun c hc => lfuPut_inc_mem z s k c hnd hc,
    fun k' c c' h1 h2 => heap_entry_unique hnd h1 h2,
    lfuPut_ord z s k ho,
    fun s' e hev => lfuEvict_min s s' e ho hev,
    by simp [lfuPut, lfuFindIdx, lfuEvict, hpush, hpop, hfix, hdown,
      hdownAux, hchild, hup, hswap, hless]⟩

/-- Witness for C6: the ordered two-entry heap `[(5, 1), (7, 2)]` with a
fresh key 9. -/
theorem c6_lfu_frequency_witness :
    (((([((5 : ℕ), 1), (7, 2)] : Heap ℕ).map Prod.fst).Nodup) ∧
      HeapOrd ([((5 : ℕ), 1), (7, 2)] : Heap ℕ) 2) ∧
    ((9 ∉ ([((5 : ℕ), 1), (7, 2)] : Heap ℕ).map Prod.fst →
      ((9 : ℕ), 1) ∈ (lfuPut 0 (⟨2, [(5, 1), (7, 2)]⟩ : LFUState ℕ) 9).1.heap) ∧
    (∀ c, ((9 : ℕ), c) ∈ ([((5 : ℕ), 1), (7, 2)] : Heap ℕ) →
      ((9 : ℕ), c + 1) ∈ (lfuPut 0 (⟨2, [(5, 1), (7, 2)]⟩ : LFUState ℕ) 9).1.heap) ∧
    (∀ k' c c', (k', c) ∈ ([((5 : ℕ), 1), (7, 2)] : Heap ℕ) →
      (k', c') ∈ ([((5 : ℕ), 1), (7, 2)] : Heap ℕ) → c = c') ∧
    HeapOrd (lfuPut 0 (⟨2, [(5, 1), (7, 2)]⟩ : LFUState ℕ) 9).1.heap
      (lfuPut 0 (⟨2, [(5, 1), (7, 2)]⟩ : LFUState ℕ) 9).1.heap.length ∧
    (∀ s' e, lfuEvict (⟨2, [(5, 1), (7, 2)]⟩ : LFUState ℕ) = (s', some e) →
      ∃ c, (e, c) ∈ ([((5 : ℕ), 1), (7, 2)] : Heap ℕ) ∧
        ∀ e' c', (e', c') ∈ ([((5 : ℕ), 1), (7, 2)] : Heap ℕ) → c ≤ c') ∧
    lfuPut 0 (lfuPut 0 (lfuPut 0 (lfuPut 0 (lfuPut 0
        (⟨2, []⟩ : LFUState ℕ) 1).1 2).1 2).1 2).1 3
      = (⟨2, [(3, 1), (2, 3)]⟩, 1, true)) :=
  ⟨⟨by decide, by decide⟩,
    c6_lfu_frequency 0 9 (⟨2, [(5, 1), (7, 2)]⟩ : LFUState ℕ)
      (by decide) (by decide)⟩

/-! ## Claim C9: the frame effect of the facade's Update -/

/-- **C9**: for every facade `Update(obj)` whose key derivation succeeds
and which returns (no panic), the call reports no error, the derived key
now maps to `obj` in the store, every other key's store entry is exactly
as before — in particular, when `Policy.Put` reports an evicted key
distinct from the derived key, that key's object is still in the store,
the eviction report being discarded — and the policy advances by exactly
the `Put`. -/
theorem c9_update_frame {K T Obj : Type} [DecidableEq K] [DecidableEq T]
    (kf : KeyFunc T Obj) (indexers : Indexers K Obj) (z : T)
    (c : EvictionCache K T Obj) (obj : Obj) (key : T)
    (c' : EvictionCache K T Obj) (err : Option String)
    (hkf : kf obj = .ok key)
    (hrun : ecUpdate kf indexers z c obj = some (c', err)) :
    err = none ∧
    mlookup c'.store.items key = some obj ∧
    (∀ k', k' ≠ key → mlookup c'.store.items k' = mlookup c.store.items k') ∧
    c'.policy = (Policy.put z c.policy key).1 ∧
    (∀ e, (Policy.put z c.policy key).2 = (e, true) → e ≠ key →
      mlookup c'.store.items e = mlookup c.store.items e) := by
  rw [ecUpdate, hkf] at hrun
  dsimp only at hrun
  rcases hup : tsmUpdate indexers c.store key obj with _ | st'
  · rw [hup] at hrun
    cases hrun
  · rw [hup] at hrun
    simp only [Option.bind_eq_bind, Option.some_bind, Option.some.injEq] at hrun
    obtain ⟨hc', herr⟩ := Prod.mk.injEq _ _ _ _ ▸ hrun
    rw [tsmUpdate] at hup
    rcases hui : updateIndices indexers (mlookup c.store.items key) (some obj)
        key c.store.indices with _ | ind'
    · rw [hui] at hup
      cases hup
    · rw [hui] at hup
      simp only [Option.bind_eq_bind, Option.some_bind, Option.some.injEq] at hup
      have hitems : c'.store.items = minsert c.store.items key obj := by
        rw [← hc', ← hup]
      refine ⟨herr.symm, ?_, ?_, ?_, ?_⟩
      · rw [hitems]
        exact mlookup_minsert_self c.store.items key obj
      · intro k' hne
        rw [hitems]
        exact mlookup_minsert_ne c.store.items obj hne
      · rw [← hc']
      · intro e hev hne
        rw [hitems]
        exact mlookup_minsert_ne c.store.items obj hne

/-- Witness for C9: a capacity-1 FIFO facade holding key 1; `Update 2`
makes the policy evict key 1, yet object 1 stays in the store. -/
theorem c9_update_frame_witness :
    ((fun o => (Except.ok o : Except String ℕ)) 2 = Except.ok 2 ∧
      ecUpdate (fun o => (Except.ok o : Except String ℕ)) ([] : Indexers ℕ ℕ) 0
        ⟨⟨[(1, 1)], []⟩, Policy.fifo ⟨1, [1]⟩⟩ 2
        = some (⟨⟨[(1, 1), (2, 2)], []⟩, Policy.fifo ⟨1, [2]⟩⟩, none)) ∧
    ((none : Option String) = none ∧
      mlookup [((1 : ℕ), (1 : ℕ)), (2, 2)] 2 = some 2 ∧
      (∀ k', k' ≠ 2 →
        mlookup [((1 : ℕ), (1 : ℕ)), (2, 2)] k' = mlookup [((1 : ℕ), (1 : ℕ))] k') ∧
      Policy.fifo ⟨1, [2]⟩ = (Policy.put 0 (Policy.fifo ⟨1, [(1 : ℕ)]⟩) 2).1 ∧
      (∀ e, (Policy.put 0 (Policy.fifo ⟨1, [(1 : ℕ)]⟩) 2).2 = (e, true) → e ≠ 2 →
        mlookup [((1 : ℕ), (1 : ℕ)), (2, 2)] e = mlookup [((1 : ℕ), (1 : ℕ))] e)) :=
  ⟨⟨rfl, rfl⟩,
    c9_update_frame (fun o => (Except.ok o : Except String ℕ)) ([] : Indexers ℕ ℕ) 0
      ⟨⟨[(1, 1)], []⟩, Policy.fifo ⟨1, [1]⟩⟩ 2 2
      ⟨⟨[(1, 1), (2, 2)], []⟩, Policy.fifo ⟨1, [2]⟩⟩ none rfl rfl⟩

/-! ## Claims C3 and C4: the facade size and capacity invariants -/

/-- The facade invariant: duplicate-free store keys, a well-formed policy,
and the store's key set coinciding with the policy's tracked set. -/
def EvInv {K T Obj : Type} [DecidableEq T] (c : EvictionCache K T Obj) : Prop :=
  NodupKeys c.store.items ∧ c.policy.WF ∧
  ∀ k, (mlookup c.store.items k).isSome = true ↔ k ∈ c.policy.keys

theorem tsmUpdate_items {K T Obj : Type} [DecidableEq K] [DecidableEq T]
    (indexers : Indexers K Obj) (s : ThreadSafeMap K T Obj) (key : T) (obj : Obj)
    (s' : ThreadSafeMap K T Obj) (h : tsmUpdate indexers s key obj = some s') :
    s'.items = minsert s.items key obj := by
  rw [tsmUpdate] at h
  rcases hui : updateIndices indexers (mlookup s.items key) (some obj) key
      s.indices with _ | ind'
  · rw [hui] at h
    cases h
  · rw [hui] at h
    simp only [Option.bind_eq_bind, Option.some_bind, Option.some.injEq] at h
    rw [← h]

theorem tsmDelete_items {K T Obj : Type} [DecidableEq K] [DecidableEq T]
    (indexers : Indexers K Obj) (s : ThreadSafeMap K T Obj) (key : T)
    (s' : ThreadSafeMap K T Obj) (h : tsmDelete indexers s key = some s') :
    s'.items = merase s.items key := by
  rw [tsmDelete] at h
  rcases hlk : mlookup s.items key with _ | obj0
  · rw [hlk] at h
    dsimp only at h
    simp only [Option.some.injEq] at h
    rw [← h]
    exact (length_merase_of_not_mem s.items key hlk).symm
  · rw [hlk] at h
    dsimp only at h
    rcases hui : updateIndices indexers (some obj0) none key s.indices with _ | ind'
    · rw [hui] at h
      cases h
    · rw [hui] at h
      simp only [Option.bind_eq_bind, Option.some_bind, Option.some.injEq] at h
      rw [← h]

/-- `evictionCache.Add` with a derivable key: no error, the policy
advances by `Put`, and the store becomes "delete the evicted key (when
one is reported), then insert the new object". -/
theorem ecAdd_char {K T Obj : Type} [DecidableEq K] [DecidableEq T]
    (kf : KeyFunc T Obj) (indexers : Indexers K Obj) (z : T)
    (c : EvictionCache K T Obj) (obj : Obj) (key : T)
    (c2 : EvictionCache K T Obj) (err : Option String)
    (hkf : kf obj = .ok key)
    (hrun : ecAdd kf indexers z c obj = some (c2, err)) :
    err = none ∧ c2.policy = (Policy.put z c.policy key).1 ∧
    ((Policy.put z c.policy key).2.2 = true →
      c2.store.items
        = minsert (merase c.store.items (Policy.put z c.policy key).2.1) key obj) ∧
    ((Policy.put z c.policy key).2.2 = false →
      c2.store.items = minsert c.store.items key obj) := by
  rw [ecAdd, hkf] at hrun
  dsimp only at hrun
  rcases hb : (Policy.put z c.policy key).2.2 with _ | _
  · rw [if_neg (by simp [hb])] at hrun
    simp only [Option.bind_eq_bind, Option.some_bind] at hrun
    rcases hup : tsmUpdate indexers c.store key obj with _ | st2
    · rw [hup] at hrun
      cases hrun
    · rw [hup] at hrun
      simp only [Option.some_bind, Option.some.injEq] at hrun
      have hc2 : (⟨st2, (Policy.put z c.policy key).1⟩ : EvictionCache K T Obj) = c2 :=
        congrArg Prod.fst hrun
      have herr : (none : Option String) = err := congrArg Prod.snd hrun
      refine ⟨herr.symm, by rw [← hc2], ?_, ?_⟩
      · intro hcon
        exact absurd hcon (by decide)
      · intro _
        rw [← hc2]
        exact tsmUpdate_items indexers c.store key obj st2 hup
  · rw [if_pos hb] at hrun
    simp only [Option.bind_eq_bind] at hrun
    rcases hdel : tsmDelete indexers c.store (Policy.put z c.policy key).2.1
        with _ | st1
    · rw [hdel] at hrun
      simp only [Option.none_bind] at hrun
      cases hrun
    · rw [hdel] at hrun
      simp only [Option.some_bind] at hrun
      rcases hup : tsmUpdate indexers st1 key obj with _ | st2
      · rw [hup] at hrun
        simp only [Option.none_bind] at hrun
        cases hrun
      · rw [hup] at hrun
        simp only [Option.some_bind, Option.some.injEq] at hrun
        have hc2 : (⟨st2, (Policy.put z c.policy key).1⟩ : EvictionCache K T Obj) = c2 :=
          congrArg Prod.fst hrun
        have herr : (none : Option String) = err := congrArg Prod.snd hrun
        refine ⟨herr.symm, by rw [← hc2], ?_, ?_⟩
        · intro _
          rw [← hc2]
          have h1 := tsmUpdate_items indexers st1 key obj st2 hup
          have h2 := tsmDelete_items indexers c.store _ st1 hdel
          rw [← h2]
          exact h1
        · intro hcon
          exact absurd hcon (by decide)

/-- `evictionCache.Delete` with a derivable key: no error, the policy
advances by `Delete`, and the key leaves the store. -/
theorem ecDelete_char {K T Obj : Type} [DecidableEq K] [DecidableEq T]
    (kf : KeyFunc T Obj) (indexers : Indexers K Obj)
    (c : EvictionCache K T Obj) (obj : Obj) (key : T)
    (c2 : EvictionCache K T Obj) (err : Option String)
    (hkf : kf obj = .ok key)
    (hrun : ecDelete kf indexers c obj = some (c2, err)) :
    err = none ∧ c2.policy = Policy.del c.policy key ∧
    c2.store.items = merase c.store.items key := by
  rw [ecDelete, hkf] at hrun
  dsimp only at hrun
  rcases hdel : tsmDelete indexers c.store key with _ | st1
  · rw [hdel] at hrun
    cases hrun
  · rw [hdel] at hrun
    simp only [Option.bind_eq_bind, Option.some_bind, Option.some.injEq] at hrun
    have hc2 : (⟨st1, Policy.del c.policy key⟩ : EvictionCache K T Obj) = c2 :=
      congrArg Prod.fst hrun
    have herr : (none : Option String) = err := congrArg Prod.snd hrun
    exact ⟨herr.symm, by rw [← hc2],
      by rw [← hc2]; exact tsmDelete_items indexers c.store key st1 hdel⟩

theorem policy_keys_nodup {T : Type} (p : Policy T) (hwf : p.WF) :
    p.keys.Nodup := by
  cases p <;> exact hwf

/-- Under the facade invariant, store size equals policy size. -/
theorem evInv_size {K T Obj : Type} [DecidableEq T] (c : EvictionCache K T Obj)
    (h : EvInv c) : ecSize c = c.policy.size := by
  obtain ⟨hnd, hwf, hmem⟩ := h
  have hknd : (c.store.items.map Prod.fst).Nodup := hnd
  have hpnd : c.policy.keys.Nodup := policy_keys_nodup c.policy hwf
  have hset : (c.store.items.map Prod.fst).toFinset = c.policy.keys.toFinset := by
    ext k
    simp only [List.mem_toFinset]
    rw [mem_keys_iff_mlookup]
    exact hmem k
  have h1 : (c.store.items.map Prod.fst).toFinset.card = c.store.items.length := by
    rw [List.toFinset_card_of_nodup hknd]
    simp
  have h2 : c.policy.keys.toFinset.card = c.policy.keys.length :=
    List.toFinset_card_of_nodup hpnd
  rw [ecSize, policy_size_eq_keys_length, ← h1, ← h2, hset]

/-- The facade invariant is preserved by a successful `Add`. -/
theorem evInv_ecAdd {K T Obj : Type} [DecidableEq K] [DecidableEq T]
    (kf : KeyFunc T Obj) (indexers : Indexers K Obj) (z : T)
    (c : EvictionCache K T Obj) (obj : Obj) (c2 : EvictionCache K T Obj)
    (err : Option String) (hinv : EvInv c)
    (hrun : ecAdd kf indexers z c obj = some (c2, err)) : EvInv c2 := by
  obtain ⟨hnd, hwf, hmem⟩ := hinv
  rcases hkf : kf obj with e0 | key
  · rw [ecAdd, hkf] at hrun
    dsimp only at hrun
    simp only [Option.some.injEq] at hrun
    have hc2 : c = c2 := congrArg Prod.fst hrun
    rw [← hc2]
    exact ⟨hnd, hwf, hmem⟩
  · obtain ⟨herr, hpol, htrue, hfalse⟩ :=
      ecAdd_char kf indexers z c obj key c2 err hkf hrun
    obtain ⟨hwf', hcap', hfspec, htspec, hknown⟩ := policy_put_spec z c.policy key hwf
    refine ⟨?_, ?_, ?_⟩
    · rcases hb : (Policy.put z c.policy key).2.2 with _ | _
      · rw [hfalse hb]
        exact nodupKeys_minsert hnd key obj
      · rw [htrue hb]
        exact nodupKeys_minsert (nodupKeys_merase hnd _) key obj
    · rw [hpol]
      exact hwf'
    · intro k
      rcases hb : (Policy.put z c.policy key).2.2 with _ | _
      · obtain ⟨hkeys, _⟩ := hfspec hb
        rw [hfalse hb, hpol, mlookup_minsert]
        by_cases hk : k = key
        · rw [if_pos hk]
          exact ⟨fun _ => (hkeys k).mpr (Or.inr hk), fun _ => rfl⟩
        · rw [if_neg hk, hmem k, hkeys k]
          constructor
          · exact Or.inl
          · rintro (hin | hin)
            · exact hin
            · exact absurd hin hk
      · obtain ⟨hein, hknot, _, _, hkeys⟩ := htspec hb
        rw [htrue hb, hpol, mlookup_minsert]
        by_cases hk : k = key
        · rw [if_pos hk]
          exact ⟨fun _ => (hkeys k).mpr (Or.inr hk), fun _ => rfl⟩
        · rw [if_neg hk]
          by_cases hke : k = (Policy.put z c.policy key).2.1
          · rw [hke, mlookup_merase_self hnd]
            constructor
            · intro hcon
              simp at hcon
            · intro hin
              rcases (hkeys _).mp hin with ⟨_, hne⟩ | heq
              · exact absurd rfl hne
              · exact absurd (heq ▸ hein) hknot
          · rw [mlookup_merase_ne _ hke, hmem k, hkeys k]
            constructor
            · intro hin
              exact Or.inl ⟨hin, hke⟩
            · rintro (⟨hin, _⟩ | hin)
              · exact hin
              · exact absurd hin hk

/-- The facade invariant is preserved by a successful `Delete`. -/
theorem evInv_ecDelete {K T Obj : Type} [DecidableEq K] [DecidableEq T]
    (kf : KeyFunc T Obj) (indexers : Indexers K Obj)
    (c : EvictionCache K T Obj) (obj : Obj) (c2 : EvictionCache K T Obj)
    (err : Option String) (hinv : EvInv c)
    (hrun : ecDelete kf indexers c obj = some (c2, err)) : EvInv c2 := by
  obtain ⟨hnd, hwf, hmem⟩ := hinv
  rcases hkf : kf obj with e0 | key
  · rw [ecDelete, hkf] at hrun
    dsimp only at hrun
    simp only [Option.some.injEq] at hrun
    have hc2 : c = c2 := congrArg Prod.fst hrun
    rw [← hc2]
    exact ⟨hnd, hwf, hmem⟩
  · obtain ⟨herr, hpol, hitems⟩ := ecDelete_char kf indexers c obj key c2 err hkf hrun
    obtain ⟨hwf', hcap', hdkeys⟩ := policy_del_spec c.policy key hwf
    refine ⟨?_, ?_, ?_⟩
    · rw [hitems]
      exact nodupKeys_merase hnd key
    · rw [hpol]
      exact hwf'
    · intro k
      rw [hitems, hpol, hdkeys k]
      by_cases hk : k = key
      · rw [hk, mlookup_merase_self hnd]
        constructor
        · intro hcon
          simp at hcon
        · rintro ⟨_, hne⟩
          exact absurd rfl hne
      · rw [mlookup_merase_ne _ hk, hmem k]
        constructor
        · intro hin
          exact ⟨hin, hk⟩
        · rintro ⟨hin, _⟩
          exact hin

/-- The facade invariant is preserved by every facade call. -/
theorem evInv_applyCacheOp {K T Obj : Type} [DecidableEq K] [DecidableEq T]
    (kf : KeyFunc T Obj) (indexers : Indexers K Obj) (z : T)
    (c : EvictionCache K T Obj) (op : CacheOp Obj) (c2 : EvictionCache K T Obj)
    (hinv : EvInv c) (h : applyCacheOp kf indexers z c op = some c2) : EvInv c2 := by
  cases op with
  | add obj =>
    dsimp only [applyCacheOp] at h
    rcases hadd : ecAdd kf indexers z c obj with _ | pr
    · rw [hadd] at h
      cases h
    · rw [hadd] at h
      simp only [Option.map_some', Option.some.injEq] at h
      have := evInv_ecAdd kf indexers z c obj pr.1 pr.2 hinv (by rw [hadd])
      rwa [h] at this
  | del obj =>
    dsimp only [applyCacheOp] at h
    rcases hdel : ecDelete kf indexers c obj with _ | pr
    · rw [hdel] at h
      cases h
    · rw [hdel] at h
      simp only [Option.map_some', Option.some.injEq] at h
      have := evInv_ecDelete kf indexers c obj pr.1 pr.2 hinv (by rw [hdel])
      rwa [h] at this

/-- The facade invariant holds along every successful call sequence. -/
theorem evInv_applyCacheOps {K T Obj : Type} [DecidableEq K] [DecidableEq T]
    (kf : KeyFunc T Obj) (indexers : Indexers K Obj) (z : T) :
    ∀ (ops : List (CacheOp Obj)) (c c' : EvictionCache K T Obj), EvInv c →
      applyCacheOps kf indexers z c ops = some c' → EvInv c' := by
  intro ops
  induction ops with
  | nil =>
    intro c c' hinv hrun
    rw [applyCacheOps] at hrun
    simp only [Option.some.injEq] at hrun
    rw [← hrun]
    exact hinv
  | cons op rest IH =>
    intro c c' hinv hrun
    rw [applyCacheOps] at hrun
    rcases hstep : applyCacheOp kf indexers z c op with _ | c1
    · rw [hstep] at hrun
      simp only [Option.bind_eq_bind, Option.none_bind] at hrun
      cases hrun
    · rw [hstep] at hrun
      simp only [Option.bind_eq_bind, Option.some_bind] at hrun
      exact IH c1 c' (evInv_applyCacheOp kf indexers z c op c1 hinv hstep) hrun

/-- The facade invariant holds initially (empty store, empty policy). -/
theorem evInv_init {K T Obj : Type} [DecidableEq K] [DecidableEq T] (p : Policy T)
    (hwf : p.WF) (hkeys : p.keys = []) :
    EvInv (newEvictionCache p : EvictionCache K T Obj) := by
  refine ⟨List.nodup_nil, hwf, ?_⟩
  intro k
  show (mlookup ([] : List (T × Obj)) k).isSome = true ↔ k ∈ p.keys
  rw [hkeys]
  simp

/-- `Put` keeps the tracked-set size within a capacity of at least 1. -/
theorem policy_put_size_le {T : Type} [DecidableEq T] (z : T) (p : Policy T) (k : T)
    (hwf : p.WF) (hcap : 1 ≤ p.capacityI) (hsz : (p.size : Int) ≤ p.capacityI) :
    ((p.put z k).1.size : Int) ≤ p.capacityI := by
  obtain ⟨hwf', hcapeq, hfspec, htspec, _⟩ := policy_put_spec z p k hwf
  have hnd := policy_keys_nodup p hwf
  have hnd' := policy_keys_nodup _ hwf'
  have hlen : (p.put z k).1.size = (p.put z k).1.keys.length :=
    policy_size_eq_keys_length _
  have hlen0 : p.size = p.keys.length := policy_size_eq_keys_length p
  have hcard' : (p.put z k).1.keys.toFinset.card = (p.put z k).1.keys.length :=
    List.toFinset_card_of_nodup hnd'
  have hcard0 : p.keys.toFinset.card = p.keys.length :=
    List.toFinset_card_of_nodup hnd
  rcases hb : (p.put z k).2.2 with _ | _
  · obtain ⟨hkeys, hdisj⟩ := hfspec hb
    have hset : (p.put z k).1.keys.toFinset = insert k p.keys.toFinset := by
      ext x
      simp only [List.mem_toFinset, Finset.mem_insert]
      rw [hkeys x]
      tauto
    rcases hdisj with hk | hslt | hs0
    · have hset2 : insert k p.keys.toFinset = p.keys.toFinset :=
        Finset.insert_eq_self.mpr (List.mem_toFinset.mpr hk)
      have heq : (p.put z k).1.size = p.size := by
        rw [hlen, hlen0, ← hcard', ← hcard0, hset, hset2]
      omega
    · have hle : (p.put z k).1.size ≤ p.size + 1 := by
        rw [hlen, hlen0, ← hcard', ← hcard0, hset]
        exact Finset.card_insert_le _ _
      omega
    · have hle : (p.put z k).1.size ≤ p.size + 1 := by
        rw [hlen, hlen0, ← hcard', ← hcard0, hset]
        exact Finset.card_insert_le _ _
      omega
  · obtain ⟨hein, hknot, hszge, hspos, hkeys⟩ := htspec hb
    have hset : (p.put z k).1.keys.toFinset
        = insert k (p.keys.toFinset.erase (p.put z k).2.1) := by
      ext x
      simp only [List.mem_toFinset, Finset.mem_insert, Finset.mem_erase]
      rw [hkeys x]
      constructor
      · rintro (⟨hin, hne⟩ | hx)
        · exact Or.inr ⟨hne, hin⟩
        · exact Or.inl hx
      · rintro (hx | ⟨hne, hin⟩)
        · exact Or.inr hx
        · exact Or.inl ⟨hin, hne⟩
    have hknotin : k ∉ p.keys.toFinset.erase (p.put z k).2.1 := by
      intro hmem
      exact hknot (List.mem_toFinset.mp (Finset.mem_of_mem_erase hmem))
    have hcardeq : (p.put z k).1.keys.toFinset.card
        = (p.keys.toFinset.erase (p.put z k).2.1).card + 1 := by
      rw [hset, Finset.card_insert_of_not_mem hknotin]
    have hcarde : (p.keys.toFinset.erase (p.put z k).2.1).card
        = p.keys.toFinset.card - 1 :=
      Finset.card_erase_of_mem (List.mem_toFinset.mpr hein)
    have hpos0 : 0 < p.keys.toFinset.card := by
      rw [hcard0]
      omega
    have heq : (p.put z k).1.size = p.size := by
      rw [hlen, hlen0, ← hcard', ← hcard0, hcardeq, hcarde]
      omega
    omega

/-- **C3**: a successful facade `Add` with a derivable key reports no
error, advances the policy by exactly `Put`, and produces the store
obtained by deleting the reported evicted key (when `Put` reports one)
and then inserting the new object; consequently, starting from an empty
facade, after every successful sequence of `Add`/`Delete` calls the store
size equals the policy size. -/
theorem c3_facade_size_invariant {K T Obj : Type} [DecidableEq K] [DecidableEq T]
    (kf : KeyFunc T Obj) (indexers : Indexers K Obj) (z : T) (p : Policy T)
    (hwf : p.WF) (hkeys : p.keys = []) (ops : List (CacheOp Obj))
    (c' : EvictionCache K T Obj)
    (hrun : applyCacheOps kf indexers z (newEvictionCache p) ops = some c') :
    ecSize c' = c'.policy.size ∧
    (∀ (c : EvictionCache K T Obj) (obj : Obj) (key : T)
        (c2 : EvictionCache K T Obj) (err : Option String),
      kf obj = .ok key → ecAdd kf indexers z c obj = some (c2, err) →
      err = none ∧ c2.policy = (Policy.put z c.policy key).1 ∧
      ((Policy.put z c.policy key).2.2 = true →
        c2.store.items
          = minsert (merase c.store.items (Policy.put z c.policy key).2.1) key obj) ∧
      ((Policy.put z c.policy key).2.2 = false →
        c2.store.items = minsert c.store.items key obj)) :=
  ⟨evInv_size c' (evInv_applyCacheOps kf indexers z ops (newEvictionCache p) c'
      (evInv_init p hwf hkeys) hrun),
    fun c obj key c2 err hkf hadd => ecAdd_char kf indexers z c obj key c2 err hkf hadd⟩

/-- Witness for C3: a FIFO facade of capacity 2 after `Add 1`, `Add 2`,
`Add 3` (which evicts key 1) and `Delete 2`. -/
theorem c3_facade_size_invariant_witness :
    ((newFIFO 2 : Policy ℕ).WF ∧ (newFIFO 2 : Policy ℕ).keys = [] ∧
      applyCacheOps (fun o => (Except.ok o : Except String ℕ)) ([] : Indexers ℕ ℕ) 0
        (newEvictionCache (newFIFO 2))
        [CacheOp.add 1, CacheOp.add 2, CacheOp.add 3, CacheOp.del 2]
        = some ⟨⟨[(3, 3)], []⟩, Policy.fifo ⟨2, [3]⟩⟩) ∧
    ecSize (⟨⟨[(3, 3)], []⟩, Policy.fifo ⟨2, [3]⟩⟩ : EvictionCache ℕ ℕ ℕ)
      = (⟨⟨[(3, 3)], []⟩, Policy.fifo ⟨2, [3]⟩⟩ : EvictionCache ℕ ℕ ℕ).policy.size :=
  ⟨⟨List.nodup_nil, rfl, by decide⟩,
    (c3_facade_size_invariant (fun o => (Except.ok o : Except String ℕ))
      ([] : Indexers ℕ ℕ) 0 (newFIFO 2) List.nodup_nil rfl
      [CacheOp.add 1, CacheOp.add 2, CacheOp.add 3, CacheOp.del 2]
      ⟨⟨[(3, 3)], []⟩, Policy.fifo ⟨2, [3]⟩⟩ (by decide)).1⟩

/-- **C4**: an eviction-backed cache with any policy of capacity at least
1, starting empty, satisfies `Size() ≤ capacity` after every successful
sequence of `Add` calls. -/
theorem c4_capacity_bound {K T Obj : Type} [DecidableEq K] [DecidableEq T]
    (kf : KeyFunc T Obj) (indexers : Indexers K Obj) (z : T) (p : Policy T)
    (hwf : p.WF) (hkeys : p.keys = []) (hcap : 1 ≤ p.capacityI)
    (objs : List Obj) (c' : EvictionCache K T Obj)
    (hrun : applyCacheOps kf indexers z (newEvictionCache p) (objs.map CacheOp.add)
      = some c') :
    (ecSize c' : Int) ≤ p.capacityI := by
  suffices haux : ∀ (objs : List Obj) (c c' : EvictionCache K T Obj),
      EvInv c → c.policy.capacityI = p.capacityI →
      (c.policy.size : Int) ≤ p.capacityI →
      applyCacheOps kf indexers z c (objs.map CacheOp.add) = some c' →
      EvInv c' ∧ (c'.policy.size : Int) ≤ p.capacityI by
    have hsz0 : p.size = 0 := by
      rw [policy_size_eq_keys_length p, hkeys]
      rfl
    obtain ⟨hinv', hsz'⟩ := haux objs (newEvictionCache p) c'
      (evInv_init p hwf hkeys) rfl (by rw [show (newEvictionCache p : EvictionCache K T Obj).policy.size = p.size from rfl, hsz0]; omega) hrun
    rw [evInv_size c' hinv']
    exact hsz'
  intro objs
  induction objs with
  | nil =>
    intro c c' hinv hcapeq hsz hrun
    rw [List.map_nil, applyCacheOps] at hrun
    simp only [Option.some.injEq] at hrun
    rw [← hrun]
    exact ⟨hinv, hsz⟩
  | cons obj rest IH =>
    intro c c' hinv hcapeq hsz hrun
    rw [List.map_cons, applyCacheOps] at hrun
    rcases hstep : applyCacheOp kf indexers z c (CacheOp.add obj) with _ | c1
    · rw [hstep] at hrun
      simp only [Option.bind_eq_bind, Option.none_bind] at hrun
      cases hrun
    · rw [hstep] at hrun
      simp only [Option.bind_eq_bind, Option.some_bind] at hrun
      have hinv1 : EvInv c1 := evInv_applyCacheOp kf indexers z c _ c1 hinv hstep
      have hpol : c1.policy = c.policy ∨
          ∃ key, c1.policy = (Policy.put z c.policy key).1 := by
        dsimp only [applyCacheOp] at hstep
        rcases hadd : ecAdd kf indexers z c obj with _ | pr
        · rw [hadd] at hstep
          cases hstep
        · rw [hadd] at hstep
          simp only [Option.map_some', Option.some.injEq] at hstep
          rcases hkf : kf obj with e0 | key
          · rw [ecAdd, hkf] at hadd
            dsimp only at hadd
            simp only [Option.some.injEq] at hadd
            left
            have hc : pr.1 = c := by rw [← hadd]
            rw [← hstep, hc]
          · right
            obtain ⟨_, hpol2, _, _⟩ :=
              ecAdd_char kf indexers z c obj key pr.1 pr.2 hkf (by rw [hadd])
            exact ⟨key, by rw [← hstep]; exact hpol2⟩
      have hcap1 : c1.policy.capacityI = p.capacityI := by
        rcases hpol with h | ⟨key, h⟩
        · rw [h]
          exact hcapeq
        · rw [h, (policy_put_spec z c.policy key hinv.2.1).2.1]
          exact hcapeq
      have hsz1 : (c1.policy.size : Int) ≤ p.capacityI := by
        rcases hpol with h | ⟨key, h⟩
        · rw [h]
          exact hsz
        · rw [h]
          have hb := policy_put_size_le z c.policy key hinv.2.1
            (by rw [hcapeq]; exact hcap) (by rw [hcapeq]; exact hsz)
          rw [hcapeq] at hb
          exact hb
      exact IH c1 c' hinv1 hcap1 hsz1 hrun

/-- Witness for C4: a FIFO facade of capacity 2 after four `Add` calls
ends at size 2. -/
theorem c4_capacity_bound_witness :
    ((newFIFO 2 : Policy ℕ).WF ∧ (newFIFO 2 : Policy ℕ).keys = [] ∧
      1 ≤ (newFIFO 2 : Policy ℕ).capacityI ∧
      applyCacheOps (fun o => (Except.ok o : Except String ℕ)) ([] : Indexers ℕ ℕ) 0
        (newEvictionCache (newFIFO 2))
        (([1, 2, 3, 4] : List ℕ).map CacheOp.add)
        = some ⟨⟨[(3, 3), (4, 4)], []⟩, Policy.fifo ⟨2, [3, 4]⟩⟩) ∧
    (ecSize (⟨⟨[(3, 3), (4, 4)], []⟩, Policy.fifo ⟨2, [3, 4]⟩⟩ : EvictionCache ℕ ℕ ℕ) : Int)
      ≤ (newFIFO 2 : Policy ℕ).capacityI :=
  ⟨⟨List.nodup_nil, rfl, by decide, by decide⟩,
    c4_capacity_bound (fun o => (Except.ok o : Except String ℕ)) ([] : Indexers ℕ ℕ) 0
      (newFIFO 2) List.nodup_nil rfl (by decide) [1, 2, 3, 4]
      ⟨⟨[(3, 3), (4, 4)], []⟩, Policy.fifo ⟨2, [3, 4]⟩⟩ (by decide)⟩
